import Mathlib

/-!
Verification development for the bioRxiv "explain" pipeline.

The TypeScript sources are shallowly embedded: text is modelled as
`List Char`, JavaScript regular-expression operations over literal
(escaped) patterns are modelled as explicit scans with the same
left-to-right, non-overlapping semantics, and network / database effects
are modelled by oracles plus explicit effect traces.  Character classes
(`\w`, `\s`, `toLowerCase`) are modelled over ASCII, matching the JS
behaviour on the ASCII range.
-/

namespace Explain

/-- Text is modelled as a list of characters. -/
abbrev Str := List Char

/-- Conversion from a string literal to the text model. -/
def str (s : String) : Str := s.toList

/-- ASCII model of the JS regex word-character class `\w` = `[A-Za-z0-9_]`,
which also underlies the `\b` word-boundary assertion. -/
def wordChar (c : Char) : Bool :=
  ('A' ≤ c && c ≤ 'Z') || ('a' ≤ c && c ≤ 'z') || ('0' ≤ c && c ≤ '9') || c == '_'

/-- ASCII model of the JS whitespace class `\s` (and of `String.trim`). -/
def spaceChar (c : Char) : Bool :=
  c == ' ' || c == '\t' || c == '\n' || c == '\r' || c == '\x0b' || c == '\x0c'

/-- ASCII model of JS `toLowerCase` on a single character. -/
def lowChar (c : Char) : Char :=
  if 'A' ≤ c && c ≤ 'Z' then Char.ofNat (c.toNat + 32) else c

/-- `toLowerCase` on a whole string. -/
def lowStr (s : Str) : Str := s.map lowChar

/-- Single decimal digit character. -/
def digitChar (d : Nat) : Char := Char.ofNat (48 + d)

/-- Fuel-driven helper for `natDigits`; the fuel argument only serves
structural termination and never runs out when it starts at `n`. -/
def natDigitsAux : Nat → Nat → Str
  | 0, n => [digitChar (n % 10)]
  | fuel + 1, n =>
    if n < 10 then [digitChar n]
    else natDigitsAux fuel (n / 10) ++ [digitChar (n % 10)]

/-- Decimal digits of a natural number, as characters; models the
JS number-to-string conversion used in template literals. -/
def natDigits (n : Nat) : Str := natDigitsAux n n

theorem natDigitsAux_irrel : ∀ (f₁ f₂ n : Nat), n ≤ f₁ → n ≤ f₂ →
    natDigitsAux f₁ n = natDigitsAux f₂ n := by
  intro f₁
  induction f₁ with
  | zero =>
    intro f₂ n h₁ _
    interval_cases n
    cases f₂ <;> simp [natDigitsAux]
  | succ f ih =>
    intro f₂ n h₁ h₂
    cases f₂ with
    | zero =>
      interval_cases n
      simp [natDigitsAux]
    | succ f' =>
      simp only [natDigitsAux]
      by_cases hn : n < 10
      · simp [hn]
      · have hd : n / 10 ≤ f := by
          have h10 : 10 ≤ n := Nat.le_of_not_lt hn
          have : n / 10 < n := Nat.div_lt_self (by omega) (by decide)
          omega
        have hd' : n / 10 ≤ f' := by
          have h10 : 10 ≤ n := Nat.le_of_not_lt hn
          have : n / 10 < n := Nat.div_lt_self (by omega) (by decide)
          omega
        simp [hn, ih f' (n / 10) hd hd']

/-- Unfolding equation for `natDigits`. -/
theorem natDigits_eq (n : Nat) :
    natDigits n = if n < 10 then [digitChar n]
      else natDigits (n / 10) ++ [digitChar (n % 10)] := by
  by_cases hn : n < 10
  · cases n with
    | zero => simp [natDigits, natDigitsAux, hn]
    | succ m => simp only [natDigits, natDigitsAux, if_pos hn]
  · have h10 : 10 ≤ n := Nat.le_of_not_lt hn
    obtain ⟨m, rfl⟩ : ∃ m, n = m + 1 := ⟨n - 1, by omega⟩
    simp only [natDigits, natDigitsAux, if_neg hn]
    have hd : (m + 1) / 10 ≤ m := by
      have : (m + 1) / 10 < m + 1 := Nat.div_lt_self (by omega) (by decide)
      omega
    rw [natDigitsAux_irrel m ((m + 1) / 10) ((m + 1) / 10) hd (Nat.le_refl _)]

/-- `starts p s` holds when `p` is an initial segment of `s`. -/
def starts : Str → Str → Bool
  | [], _ => true
  | _ :: _, [] => false
  | p :: ps, c :: cs => p == c && starts ps cs

/-- `hasSub p s` holds when `p` occurs as a contiguous substring of `s`. -/
def hasSub (p : Str) : Str → Bool
  | [] => starts p []
  | c :: cs => starts p (c :: cs) || hasSub p cs

/-- JS `String.trim` (ASCII whitespace model). -/
def trimStr (s : Str) : Str :=
  ((s.dropWhile spaceChar).reverse.dropWhile spaceChar).reverse

/-! ## Data model (`src/lib/types.ts`) -/

/-- `Block`: one unit of the original structured document. -/
inductive Block
  | heading (level : Nat) (text : Str)
  | para (id : Str) (text_html : Str)
  | figure (id : Str) (img_url : Str) (caption_html : Str) (label : Option Str)
  deriving DecidableEq, Repr

/-- `PlainBlock`: the rewritten counterpart of a `Block`. -/
inductive PlainBlock
  | heading (level : Nat) (text : Str)
  | para (id : Str) (text : Str) (term_ids : List Str)
  | figure (id : Str)
  deriving DecidableEq, Repr

/-- `Term`: a glossary entry. -/
structure GTerm where
  term : Str
  simple : Str
  more : Option Str := none
  deriving DecidableEq, Repr

/-! ## Abstract-only fallback path (`biorxiv.ts`, `fetchAndParsePaper`) -/

/-- Split on the regex `/\n\n|\r\n\r\n/` with JS `String.split` semantics
(leftmost match, scan resumes after the separator). -/
def splitAbstract : Str → List Str
  | '\n' :: '\n' :: rest => [] :: splitAbstract rest
  | '\r' :: '\n' :: '\r' :: '\n' :: rest => [] :: splitAbstract rest
  | c :: rest =>
    match splitAbstract rest with
    | [] => [[c]]
    | h :: t => (c :: h) :: t
  | [] => [[]]

/-- The fixed "Note" paragraph appended on the abstract-only fallback path. -/
def noteText : Str :=
  str "The full text of this paper is currently unavailable for automated processing. This explanation covers the abstract only. For the complete paper, please visit the original on bioRxiv."

/-- Block sequence produced by `fetchAndParsePaper` when the JATS XML is
unavailable: the abstract split into paragraphs under an "Abstract"
heading, followed by the fixed "Note" heading and paragraph. -/
def fallbackBlocks (abstract : Str) : List Block :=
  let abstractParagraphs := (splitAbstract abstract).filter (fun p => (trimStr p).length > 0)
  Block.heading 2 (str "Abstract") ::
    (abstractParagraphs.enum.map (fun ip => Block.para (str "p" ++ natDigits ip.1) (trimStr ip.2)))
  ++ [Block.heading 2 (str "Note"), Block.para (str "note") noteText]

/-- C6: given a metadata abstract that splits into exactly two
blank-line-separated nonempty paragraphs, the fallback path produces
exactly the five-block sequence Heading "Abstract", the two paragraphs,
Heading "Note", and the fixed note paragraph, in that order. -/
theorem C6_fallback_two_paragraphs (a p0 p1 : Str)
    (h : (splitAbstract a).filter (fun p => (trimStr p).length > 0) = [p0, p1]) :
    fallbackBlocks a =
      [Block.heading 2 (str "Abstract"),
       Block.para (str "p0") (trimStr p0),
       Block.para (str "p1") (trimStr p1),
       Block.heading 2 (str "Note"),
       Block.para (str "note") noteText] := by
  have h0 : str "p" ++ natDigits 0 = str "p0" := by decide
  have h1 : str "p" ++ natDigits 1 = str "p1" := by decide
  simp [fallbackBlocks, h, List.enum, h0, h1]

/-- C6 witness: a concrete two-paragraph abstract takes the fallback path
to the exact five-block sequence. -/
theorem C6_fallback_two_paragraphs_witness :
    fallbackBlocks (str "First part here.\n\nSecond part here.") =
      [Block.heading 2 (str "Abstract"),
       Block.para (str "p0") (trimStr (str "First part here.")),
       Block.para (str "p1") (trimStr (str "Second part here.")),
       Block.heading 2 (str "Note"),
       Block.para (str "note") noteText] :=
  C6_fallback_two_paragraphs (str "First part here.\n\nSecond part here.")
    (str "First part here.") (str "Second part here.") (by decide)

/-! ## Rewriter (`rewriter.ts`) -/

/-- Remainder of the text after the first `'>'`, if one exists; used to
model the regex `/<[^>]*>/g`, whose `[^>]*` cannot cross a `'>'`. -/
def tagSplit : Str → Option Str
  | [] => none
  | '>' :: rest => some rest
  | _ :: rest => tagSplit rest

/-- Fuel-driven body of `stripTags`; fuel only serves termination. -/
def stripTagsAux : Nat → Str → Str
  | 0, s => s
  | _ + 1, [] => []
  | fuel + 1, c :: rest =>
    if c = '<' then
      match tagSplit rest with
      | some after => ' ' :: stripTagsAux fuel after
      | none => '<' :: stripTagsAux fuel rest
    else c :: stripTagsAux fuel rest

/-- The replacement `.replace(/<[^>]*>/g, ' ')`: each `<...>` group (up to
the first `'>'`) becomes one space; a `'<'` with no later `'>'` stays. -/
def stripTags (s : Str) : Str := stripTagsAux s.length s

/-- Fuel-free skip-counter form of a global literal replacement
`.replace(pat, rep)` with a `/g` regex built from a literal pattern:
leftmost, non-overlapping matches. -/
def replAllAux (pat rep : Str) : Nat → Str → Str
  | _, [] => []
  | sk + 1, _ :: rest => replAllAux pat rep sk rest
  | 0, c :: rest =>
    if starts pat (c :: rest) then rep ++ replAllAux pat rep (pat.length - 1) rest
    else c :: replAllAux pat rep 0 rest

/-- Global literal replacement. -/
def replaceAllLit (pat rep s : Str) : Str := replAllAux pat rep 0 s

/-- The replacement `.replace(/\s+/g, ' ')`: collapse whitespace runs. -/
def collapseWsAux : Bool → Str → Str
  | _, [] => []
  | inRun, c :: rest =>
    if spaceChar c then
      if inRun then collapseWsAux true rest else ' ' :: collapseWsAux true rest
    else c :: collapseWsAux false rest

/-- Collapse each whitespace run to a single space. -/
def collapseWs (s : Str) : Str := collapseWsAux false s

/-- `stripHtml` from `rewriter.ts`: drop tags, decode the five handled
HTML entities, collapse whitespace and trim. -/
def stripHtml (html : Str) : Str :=
  trimStr (collapseWs
    (replaceAllLit (str "&quot;") (str "\"")
      (replaceAllLit (str "&gt;") (str ">")
        (replaceAllLit (str "&lt;") (str "<")
          (replaceAllLit (str "&amp;") (str "&")
            (replaceAllLit (str "&nbsp;") (str " ")
              (stripTags html)))))))

/-- A candidate term returned by the rewrite capability. -/
structure Cand where
  term : Str
  simple : Str
  deriving DecidableEq, Repr

/-- Result shape of the external rewrite capability. -/
structure RewriteResult where
  plain : Str
  terms : List Cand
  deriving DecidableEq, Repr

/-- `rewriteParagraph`: the oracle argument is `some r` when the external
call succeeds with parsed result `r`, and `none` on any failure (network
error, missing message content, malformed JSON); the `catch` branch then
returns the stripped original text with no terms. -/
def rewriteParagraph (textHtml : Str) (resp : Option RewriteResult) : RewriteResult :=
  match resp with
  | some r => r
  | none => ⟨stripHtml textHtml, []⟩

/-- Mutable state of `rewriteAllBlocks`: the term-ID counter and the
insertion-ordered glossary object. -/
structure GState where
  counter : Nat
  allTerms : List (Str × GTerm)
  deriving Repr

/-- Term IDs are minted as `` `t${termCounter++}` ``. -/
def mkTid (n : Nat) : Str := 't' :: natDigits n

/-- `Object.keys(allTerms).find(k => allTerms[k].term.toLowerCase() ===
term.term.toLowerCase())`: first key (in insertion order) whose stored
term is case-insensitively equal. -/
def findCI (g : List (Str × GTerm)) (t : Str) : Option Str :=
  (g.find? (fun e => lowStr e.2.term == lowStr t)).map (fun e => e.1)

/-- The per-paragraph term loop of `rewriteAllBlocks`: reuse an existing
case-insensitively equal glossary entry's ID, else mint a new sequential
ID and insert the candidate's casing and explanation. -/
def processTerms : List Cand → GState → List Str × GState
  | [], st => ([], st)
  | t :: rest, st =>
    match findCI st.allTerms t.term with
    | some k =>
      let p := processTerms rest st
      (k :: p.1, p.2)
    | none =>
      let tid := mkTid st.counter
      let st1 : GState := ⟨st.counter + 1, st.allTerms ++ [(tid, ⟨t.term, t.simple, none⟩)]⟩
      let p := processTerms rest st1
      (tid :: p.1, p.2)

/-- Number of paragraph blocks (`blocks.filter(b => b.kind === 'para')`). -/
def countParas : List Block → Nat
  | [] => 0
  | Block.para _ _ :: rest => countParas rest + 1
  | _ :: rest => countParas rest

/-- The main loop of `rewriteAllBlocks`.  `llm` maps the index of a
paragraph (in paragraph order) to its rewrite-capability outcome;
`pIdx` counts paragraphs already processed.  Also returns the
`(current, total)` arguments of each `onProgress` invocation. -/
def rewriteAllBlocksGo (llm : Nat → Option RewriteResult) (total : Nat) :
    List Block → Nat → GState → List PlainBlock × GState × List (Nat × Nat)
  | [], _, st => ([], st, [])
  | Block.heading lv tx :: rest, pIdx, st =>
    let p := rewriteAllBlocksGo llm total rest pIdx st
    (PlainBlock.heading lv tx :: p.1, p.2)
  | Block.figure id _ _ _ :: rest, pIdx, st =>
    let p := rewriteAllBlocksGo llm total rest pIdx st
    (PlainBlock.figure id :: p.1, p.2)
  | Block.para id html :: rest, pIdx, st =>
    let result := rewriteParagraph html (llm pIdx)
    let q := processTerms result.terms st
    let p := rewriteAllBlocksGo llm total rest (pIdx + 1) q.2
    (PlainBlock.para id result.plain q.1 :: p.1, p.2.1, (pIdx + 1, total) :: p.2.2)

/-- Output of `rewriteAllBlocks`. -/
structure RABOut where
  plainBlocks : List PlainBlock
  terms : List (Str × GTerm)
  calls : List (Nat × Nat)
  deriving Repr

/-- `rewriteAllBlocks` (`rewriter.ts`, streaming variant): rewrite every
paragraph in order, deduplicate candidate terms case-insensitively into
one glossary, and report per-paragraph progress. -/
def rewriteAllBlocks (blocks : List Block) (llm : Nat → Option RewriteResult) : RABOut :=
  let p := rewriteAllBlocksGo llm (countParas blocks) blocks 0 ⟨0, []⟩
  ⟨p.1, p.2.1.allTerms, p.2.2⟩

/-! ## Glossary characterization -/

/-- Case-insensitive key of a candidate. -/
def ckey (c : Cand) : Str := lowStr c.term

/-- First-occurrence case-insensitive deduplication of a candidate list. -/
def firstNub : List Cand → List Cand
  | [] => []
  | t :: rest => t :: firstNub (rest.filter (fun u => !(ckey u == ckey t)))
  termination_by l => l.length
  decreasing_by
    simp only [List.length_cons]
    exact Nat.lt_succ_of_le (List.length_filter_le _ _)

/-- Glossary entries minted for a deduplicated candidate list, starting
at counter value `n`. -/
def enumIdsFrom (n : Nat) : List Cand → List (Str × GTerm)
  | [] => []
  | c :: rest => (mkTid n, ⟨c.term, c.simple, none⟩) :: enumIdsFrom (n + 1) rest

/-- Glossary entries minted for a deduplicated candidate list. -/
def enumIds (l : List Cand) : List (Str × GTerm) := enumIdsFrom 0 l

/-- Key-equality test against a fixed case-insensitive key. -/
def keyq (k : Str) : Cand → Bool := fun u => ckey u == k

/-- `hasK l k`: some candidate in `l` has case-insensitive key `k`. -/
def hasK (l : List Cand) (k : Str) : Bool := l.any (keyq k)

/-- Index of the first candidate with the given key. -/
def fidx (k : Str) : List Cand → Option Nat
  | [] => none
  | u :: rest => if keyq k u then some 0 else (fidx k rest).map (· + 1)

/-- The ID `rewriteAllBlocks` assigns to candidate `t` when the earlier
candidates of the run are `cands`. -/
def refId (cands : List Cand) (t : Cand) : Str :=
  match fidx (ckey t) (firstNub cands) with
  | some i => mkTid i
  | none => mkTid (firstNub cands).length

/-- The IDs assigned to the candidates `ts` arriving after `cands`. -/
def assignIds (cands : List Cand) : List Cand → List Str
  | [] => []
  | t :: rest => refId cands t :: assignIds (cands ++ [t]) rest

/-- All candidate terms of a run, in processing order, starting from
paragraph index `k`. -/
def allCandidatesFrom (llm : Nat → Option RewriteResult) : List Block → Nat → List Cand
  | [], _ => []
  | Block.para _ html :: rest, k =>
    (rewriteParagraph html (llm k)).terms ++ allCandidatesFrom llm rest (k + 1)
  | _ :: rest, k => allCandidatesFrom llm rest k

/-- All candidate terms of a run, in processing order. -/
def allCands (blocks : List Block) (llm : Nat → Option RewriteResult) : List Cand :=
  allCandidatesFrom llm blocks 0

/-- Concatenation of the `term_ids` lists of the paragraph blocks, in
order; positionally aligned with `allCands`. -/
def termIdSeq : List PlainBlock → List Str
  | [] => []
  | PlainBlock.para _ _ ids :: rest => ids ++ termIdSeq rest
  | _ :: rest => termIdSeq rest

theorem firstNub_nil : firstNub [] = [] := by
  simp [firstNub]

theorem firstNub_cons (t : Cand) (rest : List Cand) :
    firstNub (t :: rest) = t :: firstNub (rest.filter (fun u => !(ckey u == ckey t))) := by
  rw [firstNub]

theorem hasK_filter (l : List Cand) (c : Cand) (k : Str) (h : ¬ k = ckey c) :
    hasK (l.filter (fun u => !(ckey u == ckey c))) k = hasK l k := by
  induction l with
  | nil => rfl
  | cons u rest ih =>
    by_cases hu : ckey u = ckey c
    · have hku : keyq k u = false := beq_eq_false_iff_ne.mpr (fun he => h (he ▸ hu))
      have hcc : (ckey u == ckey c) = true := beq_iff_eq.mpr hu
      rw [List.filter_cons_of_neg (by simp [hcc])]
      simp only [hasK, List.any_cons, hku, Bool.false_or] at ih ⊢
      exact ih
    · have hcc : (ckey u == ckey c) = false := beq_eq_false_iff_ne.mpr hu
      rw [List.filter_cons_of_pos (by simp [hcc])]
      simp only [hasK, List.any_cons] at ih ⊢
      rw [ih]

theorem find?_filter_key (l : List Cand) (c : Cand) (k : Str) (h : ¬ k = ckey c) :
    (l.filter (fun u => !(ckey u == ckey c))).find? (keyq k) = l.find? (keyq k) := by
  induction l with
  | nil => rfl
  | cons u rest ih =>
    by_cases hu : ckey u = ckey c
    · have hku : keyq k u = false := beq_eq_false_iff_ne.mpr (fun he => h (he ▸ hu))
      have hcc : (ckey u == ckey c) = true := beq_iff_eq.mpr hu
      rw [List.filter_cons_of_neg (by simp [hcc])]
      rw [List.find?_cons_of_neg _ (by simp [hku])]
      exact ih
    · have hcc : (ckey u == ckey c) = false := beq_eq_false_iff_ne.mpr hu
      rw [List.filter_cons_of_pos (by simp [hcc])]
      cases hk : keyq k u with
      | true =>
        rw [List.find?_cons_of_pos _ hk, List.find?_cons_of_pos _ hk]
      | false =>
        rw [List.find?_cons_of_neg _ (by simp [hk]), List.find?_cons_of_neg _ (by simp [hk])]
        exact ih

theorem firstNub_append_one_aux (n : Nat) : ∀ (cands : List Cand) (t : Cand),
    cands.length ≤ n →
    firstNub (cands ++ [t]) =
      if hasK cands (ckey t) then firstNub cands else firstNub cands ++ [t] := by
  induction n with
  | zero =>
    intro cands t h
    have hc : cands = [] := List.length_eq_zero.mp (Nat.le_zero.mp h)
    subst hc
    simp [hasK, firstNub_nil, firstNub_cons]
  | succ n ih =>
    intro cands t h
    cases cands with
    | nil => simp [hasK, firstNub_nil, firstNub_cons]
    | cons c cs =>
      rw [List.cons_append, firstNub_cons, List.filter_append, firstNub_cons]
      by_cases hct : ckey t = ckey c
      · have hcc : (ckey t == ckey c) = true := beq_iff_eq.mpr hct
        rw [show List.filter (fun u => !(ckey u == ckey c)) [t] = [] by
          rw [List.filter_cons_of_neg (by simp [hcc])]; rfl]
        have hK : hasK (c :: cs) (ckey t) = true := by
          simp [hasK, List.any_cons, keyq, beq_iff_eq, hct.symm]
        simp [hK, firstNub_cons]
      · have hcc : (ckey t == ckey c) = false := beq_eq_false_iff_ne.mpr hct
        rw [show List.filter (fun u => !(ckey u == ckey c)) [t] = [t] by
          rw [List.filter_cons_of_pos (by simp [hcc])]; rfl]
        have hlen : (cs.filter (fun u => !(ckey u == ckey c))).length ≤ n :=
          Nat.le_trans (List.length_filter_le _ _) (Nat.le_of_succ_le_succ h)
        rw [ih _ t hlen]
        rw [hasK_filter cs c (ckey t) hct]
        have hKc : hasK (c :: cs) (ckey t) = hasK cs (ckey t) := by
          have : keyq (ckey t) c = false :=
            beq_eq_false_iff_ne.mpr (fun he => hct he.symm)
          simp [hasK, List.any_cons, this]
        rw [hKc]
        by_cases hcs : hasK cs (ckey t) = true
        · simp [hcs, firstNub_cons]
        · simp only [Bool.not_eq_true] at hcs
          simp [hcs, firstNub_cons]

theorem firstNub_append_one (cands : List Cand) (t : Cand) :
    firstNub (cands ++ [t]) =
      if hasK cands (ckey t) then firstNub cands else firstNub cands ++ [t] :=
  firstNub_append_one_aux cands.length cands t (Nat.le_refl _)

theorem firstNub_append_ex (P R : List Cand) :
    ∃ S, firstNub (P ++ R) = firstNub P ++ S := by
  induction R using List.reverseRecOn with
  | nil => exact ⟨[], by simp⟩
  | append_singleton R r ih =>
    obtain ⟨S, hS⟩ := ih
    rw [← List.append_assoc, firstNub_append_one]
    by_cases h : hasK (P ++ R) (ckey r) = true
    · exact ⟨S, by simp [h, hS]⟩
    · simp only [Bool.not_eq_true] at h
      exact ⟨S ++ [r], by simp [h, hS]⟩

theorem firstNub_sub_aux (n : Nat) : ∀ (l : List Cand), l.length ≤ n →
    ∀ u ∈ firstNub l, u ∈ l := by
  induction n with
  | zero =>
    intro l h
    have hc : l = [] := List.length_eq_zero.mp (Nat.le_zero.mp h)
    subst hc
    simp [firstNub_nil]
  | succ n ih =>
    intro l h
    cases l with
    | nil => simp [firstNub_nil]
    | cons c cs =>
      rw [firstNub_cons]
      intro u hu
      rcases List.mem_cons.mp hu with h1 | h1
      · exact h1 ▸ List.mem_cons_self _ _
      · have hlen : (cs.filter (fun v => !(ckey v == ckey c))).length ≤ n :=
          Nat.le_trans (List.length_filter_le _ _) (Nat.le_of_succ_le_succ h)
        have := ih _ hlen u h1
        exact List.mem_cons_of_mem _ (List.mem_of_mem_filter this)

theorem firstNub_sub (l : List Cand) : ∀ u ∈ firstNub l, u ∈ l :=
  firstNub_sub_aux l.length l (Nat.le_refl _)

theorem hasK_firstNub_aux (n : Nat) : ∀ (l : List Cand) (k : Str), l.length ≤ n →
    hasK (firstNub l) k = hasK l k := by
  induction n with
  | zero =>
    intro l k h
    have hc : l = [] := List.length_eq_zero.mp (Nat.le_zero.mp h)
    subst hc
    simp [firstNub_nil]
  | succ n ih =>
    intro l k h
    cases l with
    | nil => simp [firstNub_nil]
    | cons c cs =>
      rw [firstNub_cons]
      cases hk : keyq k c with
      | true => simp [hasK, List.any_cons, hk]
      | false =>
        have hlen : (cs.filter (fun v => !(ckey v == ckey c))).length ≤ n :=
          Nat.le_trans (List.length_filter_le _ _) (Nat.le_of_succ_le_succ h)
        have hck : ¬ k = ckey c := by
          intro he
          have : keyq k c = true := beq_iff_eq.mpr he.symm
          rw [this] at hk
          exact Bool.true_eq_false.mp hk
        simp only [hasK, List.any_cons, hk, Bool.false_or]
        have h1 := ih (cs.filter (fun v => !(ckey v == ckey c))) k hlen
        simp only [hasK] at h1
        rw [h1]
        have h2 := hasK_filter cs c k hck
        simp only [hasK] at h2
        exact h2

theorem hasK_firstNub (l : List Cand) (k : Str) : hasK (firstNub l) k = hasK l k :=
  hasK_firstNub_aux l.length l k (Nat.le_refl _)

theorem firstNub_filter_key_aux (n : Nat) : ∀ (l : List Cand) (k : Str), l.length ≤ n →
    (firstNub l).filter (keyq k) = ((l.find? (keyq k)).map (fun c => [c])).getD [] := by
  induction n with
  | zero =>
    intro l k h
    have hc : l = [] := List.length_eq_zero.mp (Nat.le_zero.mp h)
    subst hc
    simp [firstNub_nil]
  | succ n ih =>
    intro l k h
    cases l with
    | nil => simp [firstNub_nil]
    | cons c cs =>
      rw [firstNub_cons]
      cases hk : keyq k c with
      | true =>
        have hkc : ckey c = k := beq_iff_eq.mp hk
        rw [List.filter_cons_of_pos hk, List.find?_cons_of_pos _ hk]
        have hnil :
            (firstNub (cs.filter (fun v => !(ckey v == ckey c)))).filter (keyq k) = [] := by
          apply List.filter_eq_nil_iff.mpr
          intro u hu
          have hmem := firstNub_sub _ u hu
          have hpc := List.of_mem_filter hmem
          intro hku
          have he : ckey u = k := beq_iff_eq.mp hku
          have he2 : (ckey u == ckey c) = true := beq_iff_eq.mpr (by rw [he, ← hkc])
          simp only [he2] at hpc
          simp at hpc
        rw [hnil]
        rfl
      | false =>
        rw [List.filter_cons_of_neg (by simp [hk]), List.find?_cons_of_neg _ (by simp [hk])]
        have hlen : (cs.filter (fun v => !(ckey v == ckey c))).length ≤ n :=
          Nat.le_trans (List.length_filter_le _ _) (Nat.le_of_succ_le_succ h)
        rw [ih _ k hlen]
        have hck : ¬ k = ckey c := by
          intro he
          have : keyq k c = true := beq_iff_eq.mpr he.symm
          rw [this] at hk
          exact Bool.true_eq_false.mp hk
        rw [find?_filter_key cs c k hck]

theorem firstNub_filter_key (l : List Cand) (k : Str) :
    (firstNub l).filter (keyq k) = ((l.find? (keyq k)).map (fun c => [c])).getD [] :=
  firstNub_filter_key_aux l.length l k (Nat.le_refl _)

theorem enumIdsFrom_append (n : Nat) (l m : List Cand) :
    enumIdsFrom n (l ++ m) = enumIdsFrom n l ++ enumIdsFrom (n + l.length) m := by
  induction l generalizing n with
  | nil => simp [enumIdsFrom]
  | cons c rest ih =>
    simp only [List.cons_append, enumIdsFrom, List.length_cons, List.append_eq]
    rw [ih (n + 1)]
    have harith : n + 1 + rest.length = n + (rest.length + 1) := by omega
    rw [harith]

theorem enumIdsFrom_length (n : Nat) (l : List Cand) :
    (enumIdsFrom n l).length = l.length := by
  induction l generalizing n with
  | nil => rfl
  | cons c rest ih => simp [enumIdsFrom, ih]

theorem enumIdsFrom_keys (n : Nat) (l : List Cand) :
    (enumIdsFrom n l).map Prod.fst = (List.range' n l.length).map mkTid := by
  induction l generalizing n with
  | nil => rfl
  | cons c rest ih => simp [enumIdsFrom, List.range', ih]

theorem findCI_enumIdsFrom (n : Nat) (m : List Cand) (t : Str) :
    findCI (enumIdsFrom n m) t = (fidx (lowStr t) m).map (fun i => mkTid (n + i)) := by
  induction m generalizing n with
  | nil => rfl
  | cons c rest ih =>
    simp only [enumIdsFrom, findCI, fidx]
    by_cases hc : (lowStr c.term == lowStr t) = true
    · have hq : keyq (lowStr t) c = true := hc
      rw [List.find?_cons_of_pos _ (by exact hc)]
      simp [hq]
    · have hq : keyq (lowStr t) c = false := by
        cases hb : keyq (lowStr t) c
        · rfl
        · exact absurd hb hc
      rw [List.find?_cons_of_neg _ (by simp [hc])]
      have := ih (n + 1)
      simp only [findCI] at this
      rw [this, hq]
      simp only [Bool.false_eq_true, if_neg]
      cases hfi : fidx (lowStr t) rest with
      | none => simp
      | some i =>
        simp only [Option.map_map, Option.map_some']
        have harith : n + 1 + i = n + (i + 1) := by omega
        simp [harith]

theorem fidx_lt_length (k : Str) (l : List Cand) (i : Nat) (h : fidx k l = some i) :
    i < l.length := by
  induction l generalizing i with
  | nil => simp [fidx] at h
  | cons c rest ih =>
    simp only [fidx] at h
    by_cases hc : keyq k c = true
    · rw [if_pos hc] at h
      cases h
      simp
    · rw [if_neg hc] at h
      obtain ⟨j, hj, hji⟩ := Option.map_eq_some'.mp h
      have := ih j hj
      simp only [List.length_cons]
      omega

theorem fidx_none_of_hasK_false (k : Str) (l : List Cand) (h : hasK l k = false) :
    fidx k l = none := by
  induction l with
  | nil => rfl
  | cons c rest ih =>
    simp only [hasK, List.any_cons, Bool.or_eq_false_iff] at h
    simp only [fidx, h.1, Bool.false_eq_true, if_neg]
    rw [ih (by simp [hasK, h.2])]
    rfl

theorem fidx_some_of_hasK (k : Str) (l : List Cand) (h : hasK l k = true) :
    ∃ i, fidx k l = some i := by
  induction l with
  | nil => simp [hasK] at h
  | cons c rest ih =>
    by_cases hc : keyq k c = true
    · exact ⟨0, by simp [fidx, hc]⟩
    · simp only [hasK, List.any_cons] at h
      have hrest : hasK rest k = true := by
        cases hb : keyq k c
        · rw [hb] at h
          simpa [hasK] using h
        · exact absurd hb hc
      obtain ⟨i, hi⟩ := ih hrest
      exact ⟨i + 1, by simp [fidx, hc, hi]⟩

theorem fidx_append_some (k : Str) (X Y : List Cand) (i : Nat) (h : fidx k X = some i) :
    fidx k (X ++ Y) = some i := by
  induction X generalizing i with
  | nil => simp [fidx] at h
  | cons c rest ih =>
    rw [List.cons_append]
    simp only [fidx] at h ⊢
    by_cases hc : keyq k c = true
    · rwa [if_pos hc] at h ⊢
    · rw [if_neg hc] at h ⊢
      obtain ⟨j, hj, hji⟩ := Option.map_eq_some'.mp h
      rw [ih j hj]
      simp [hji]

theorem fidx_append_none (k : Str) (X Y : List Cand) (h : fidx k X = none) :
    fidx k (X ++ Y) = (fidx k Y).map (fun i => i + X.length) := by
  induction X with
  | nil => simp [fidx]
  | cons c rest ih =>
    rw [List.cons_append]
    simp only [fidx] at h ⊢
    by_cases hc : keyq k c = true
    · rw [if_pos hc] at h
      cases h
    · rw [if_neg hc] at h ⊢
      have hrest : fidx k rest = none := by
        cases hb : fidx k rest
        · rfl
        · simp [hb] at h
      rw [ih hrest]
      cases fidx k Y with
      | none => rfl
      | some i =>
        simp only [Option.map_some', Option.map_map, List.length_cons]
        have harith : i + rest.length + 1 = i + (rest.length + 1) := by omega
        simp [Function.comp, harith]

theorem get?_split {α : Type} (L : List α) (m : Nat) (t : α) (h : L.get? m = some t) :
    L = L.take m ++ t :: L.drop (m + 1) := by
  induction L generalizing m with
  | nil => simp at h
  | cons c rest ih =>
    cases m with
    | zero =>
      simp only [List.get?] at h
      cases h
      simp
    | succ m =>
      simp only [List.get?] at h
      simp only [List.take, List.drop, List.cons_append, List.cons.injEq, true_and]
      exact ih m h

theorem processTerms_spec (ts : List Cand) (cands : List Cand) (st : GState)
    (h1 : st.allTerms = enumIds (firstNub cands))
    (h2 : st.counter = (firstNub cands).length) :
    processTerms ts st =
      (assignIds cands ts,
       ⟨(firstNub (cands ++ ts)).length, enumIds (firstNub (cands ++ ts))⟩) := by
  induction ts generalizing cands st with
  | nil =>
    simp only [processTerms, assignIds, List.append_nil]
    cases st
    simp at h1 h2
    simp [h1, h2]
  | cons t rest ih =>
    have hfind : findCI st.allTerms t.term
        = (fidx (ckey t) (firstNub cands)).map (fun i => mkTid i) := by
      rw [h1]
      have := findCI_enumIdsFrom 0 (firstNub cands) t.term
      simp only [enumIds] at this ⊢
      rw [this]
      simp [ckey]
    simp only [processTerms]
    cases hfi : fidx (ckey t) (firstNub cands) with
    | some i =>
      rw [hfind, hfi]
      simp only [Option.map_some']
      have hK : hasK cands (ckey t) = true := by
        have h' : hasK (firstNub cands) (ckey t) = true := by
          cases hb : hasK (firstNub cands) (ckey t)
          · rw [fidx_none_of_hasK_false _ _ hb] at hfi
            cases hfi
          · rfl
        rwa [hasK_firstNub] at h'
      have hrid : refId cands t = mkTid i := by
        simp [refId, hfi]
      have hnub : firstNub (cands ++ [t]) = firstNub cands := by
        rw [firstNub_append_one, if_pos hK]
      have := ih (cands ++ [t]) st (by rw [h1, hnub]) (by rw [h2, hnub])
      rw [this]
      simp only [assignIds, hrid]
      rw [List.append_assoc]
      rfl
    | none =>
      rw [hfind, hfi]
      simp only [Option.map_none']
      have hK : hasK cands (ckey t) = false := by
        have h' : hasK (firstNub cands) (ckey t) = false := by
          cases hb : hasK (firstNub cands) (ckey t)
          · rfl
          · obtain ⟨j, hj⟩ := fidx_some_of_hasK _ _ hb
            rw [hj] at hfi
            cases hfi
        rwa [hasK_firstNub] at h'
      have hnub : firstNub (cands ++ [t]) = firstNub cands ++ [t] := by
        rw [firstNub_append_one, if_neg (by simp [hK])]
      have hrid : refId cands t = mkTid (firstNub cands).length := by
        simp [refId, hfi]
      have hstep1 : st.allTerms ++ [(mkTid st.counter, ⟨t.term, t.simple, none⟩)]
          = enumIds (firstNub (cands ++ [t])) := by
        rw [hnub, h1, h2]
        simp only [enumIds]
        rw [enumIdsFrom_append]
        simp [enumIdsFrom]
      have hstep2 : st.counter + 1 = (firstNub (cands ++ [t])).length := by
        rw [hnub, h2]
        simp
      have := ih (cands ++ [t]) ⟨st.counter + 1, st.allTerms ++ [(mkTid st.counter, ⟨t.term, t.simple, none⟩)]⟩ hstep1 hstep2
      rw [this]
      simp only [assignIds, hrid, h2]
      rw [List.append_assoc]
      rfl

theorem assignIds_append (cands ts us : List Cand) :
    assignIds cands (ts ++ us) = assignIds cands ts ++ assignIds (cands ++ ts) us := by
  induction ts generalizing cands with
  | nil => simp [assignIds]
  | cons t rest ih =>
    simp only [List.cons_append, assignIds, List.cons.injEq, true_and, List.append_eq]
    rw [ih (cands ++ [t]), List.append_assoc]
    rfl

theorem assignIds_length (cands ts : List Cand) :
    (assignIds cands ts).length = ts.length := by
  induction ts generalizing cands with
  | nil => rfl
  | cons t rest ih => simp [assignIds, ih]

theorem assignIds_get? (cands ts : List Cand) (m : Nat) (t : Cand)
    (h : ts.get? m = some t) :
    (assignIds cands ts).get? m = some (refId (cands ++ ts.take m) t) := by
  induction ts generalizing cands m with
  | nil => simp at h
  | cons u rest ih =>
    cases m with
    | zero =>
      simp only [List.get?] at h
      cases h
      simp [assignIds, List.get?]
    | succ m =>
      simp only [List.get?] at h
      simp only [assignIds, List.get?]
      rw [ih (cands ++ [u]) m h, List.take, List.append_assoc]
      rfl

theorem rab_go_spec (llm : Nat → Option RewriteResult) (total : Nat) (blocks : List Block) :
    ∀ (pIdx : Nat) (cands : List Cand) (st : GState),
    st.allTerms = enumIds (firstNub cands) →
    st.counter = (firstNub cands).length →
    (rewriteAllBlocksGo llm total blocks pIdx st).2.1.allTerms
      = enumIds (firstNub (cands ++ allCandidatesFrom llm blocks pIdx))
    ∧ (rewriteAllBlocksGo llm total blocks pIdx st).2.1.counter
      = (firstNub (cands ++ allCandidatesFrom llm blocks pIdx)).length
    ∧ termIdSeq (rewriteAllBlocksGo llm total blocks pIdx st).1
      = assignIds cands (allCandidatesFrom llm blocks pIdx) := by
  induction blocks with
  | nil =>
    intro pIdx cands st h1 h2
    simp [rewriteAllBlocksGo, allCandidatesFrom, termIdSeq, assignIds, h1, h2]
  | cons b rest ih =>
    intro pIdx cands st h1 h2
    cases b with
    | heading lv tx =>
      simp only [rewriteAllBlocksGo, allCandidatesFrom, termIdSeq]
      exact ih pIdx cands st h1 h2
    | figure id iu ch lb =>
      simp only [rewriteAllBlocksGo, allCandidatesFrom, termIdSeq]
      exact ih pIdx cands st h1 h2
    | para id html =>
      simp only [rewriteAllBlocksGo, allCandidatesFrom, termIdSeq]
      rw [processTerms_spec _ cands st h1 h2]
      have := ih (pIdx + 1) (cands ++ (rewriteParagraph html (llm pIdx)).terms)
        ⟨(firstNub (cands ++ (rewriteParagraph html (llm pIdx)).terms)).length,
         enumIds (firstNub (cands ++ (rewriteParagraph html (llm pIdx)).terms))⟩ rfl rfl
      refine ⟨?_, ?_, ?_⟩
      · rw [this.1, List.append_assoc]
      · rw [this.2.1, List.append_assoc]
      · rw [assignIds_append, this.2.2]

theorem rab_characterization (blocks : List Block) (llm : Nat → Option RewriteResult) :
    (rewriteAllBlocks blocks llm).terms = enumIds (firstNub (allCands blocks llm))
    ∧ termIdSeq (rewriteAllBlocks blocks llm).plainBlocks
      = assignIds [] (allCands blocks llm) := by
  have h := rab_go_spec llm (countParas blocks) blocks 0 [] ⟨0, []⟩
    (by simp [enumIds, enumIdsFrom, firstNub_nil]) (by simp [firstNub_nil])
  simp only [List.nil_append] at h
  exact ⟨h.1, h.2.2⟩

theorem refId_stable (L : List Cand) (m : Nat) (t : Cand) (h : L.get? m = some t) :
    ∃ i, fidx (ckey t) (firstNub L) = some i ∧ refId (L.take m) t = mkTid i := by
  have hsplit : L = L.take m ++ t :: L.drop (m + 1) := get?_split L m t h
  by_cases hK : hasK (L.take m) (ckey t) = true
  · have hK' : hasK (firstNub (L.take m)) (ckey t) = true := by
      rw [hasK_firstNub]; exact hK
    obtain ⟨i, hi⟩ := fidx_some_of_hasK _ _ hK'
    obtain ⟨S, hS⟩ := firstNub_append_ex (L.take m) (t :: L.drop (m + 1))
    refine ⟨i, ?_, by simp [refId, hi]⟩
    have hLnub : firstNub L = firstNub (L.take m) ++ S := by
      conv_lhs => rw [hsplit]
      exact hS
    rw [hLnub]
    exact fidx_append_some _ _ _ _ hi
  · have hKf : hasK (L.take m) (ckey t) = false := by
      cases hb : hasK (L.take m) (ckey t)
      · rfl
      · exact absurd hb hK
    have hK' : hasK (firstNub (L.take m)) (ckey t) = false := by
      rw [hasK_firstNub]; exact hKf
    have hnone : fidx (ckey t) (firstNub (L.take m)) = none :=
      fidx_none_of_hasK_false _ _ hK'
    have hone : firstNub (L.take m ++ [t]) = firstNub (L.take m) ++ [t] := by
      rw [firstNub_append_one, if_neg (by simp [hKf])]
    obtain ⟨S, hS⟩ := firstNub_append_ex (L.take m ++ [t]) (L.drop (m + 1))
    have hsplit2 : L = (L.take m ++ [t]) ++ L.drop (m + 1) := by
      rw [List.append_assoc, List.singleton_append]
      exact hsplit
    have hL : firstNub L = (firstNub (L.take m) ++ [t]) ++ S := by
      conv_lhs => rw [hsplit2]
      rw [hS, hone]
    refine ⟨(firstNub (L.take m)).length, ?_, by simp [refId, hnone]⟩
    rw [hL, List.append_assoc]
    rw [fidx_append_none _ _ _ hnone]
    have : fidx (ckey t) ([t] ++ S) = some 0 := by
      simp [fidx, List.singleton_append, keyq]
    rw [this]
    simp

theorem enumIdsFrom_filter_nil (n : Nat) (m : List Cand) (k : Str)
    (h : m.filter (keyq k) = []) :
    (enumIdsFrom n m).filter (fun e => lowStr e.2.term == k) = [] := by
  induction m generalizing n with
  | nil => rfl
  | cons c rest ih =>
    have hc : keyq k c = false := by
      cases hb : keyq k c
      · rfl
      · rw [List.filter_cons_of_pos hb] at h
        cases h
    rw [List.filter_cons_of_neg (by simp [hc])] at h
    simp only [enumIdsFrom]
    rw [List.filter_cons_of_neg (by simp only [keyq, ckey] at hc; simp [hc])]
    exact ih (n + 1) h

theorem enumIdsFrom_filter_single (n : Nat) (m : List Cand) (k : Str) (i : Nat) (c : Cand)
    (hf : fidx k m = some i) (hm : m.filter (keyq k) = [c]) :
    (enumIdsFrom n m).filter (fun e => lowStr e.2.term == k)
      = [(mkTid (n + i), ⟨c.term, c.simple, none⟩)] := by
  induction m generalizing n i with
  | nil => simp [fidx] at hf
  | cons u rest ih =>
    by_cases hu : keyq k u = true
    · simp only [fidx, if_pos hu] at hf
      cases hf
      rw [List.filter_cons_of_pos hu] at hm
      obtain ⟨huc, hrest⟩ : u = c ∧ rest.filter (keyq k) = [] := by
        injection hm with h1 h2
        exact ⟨h1, h2⟩
      subst huc
      simp only [enumIdsFrom]
      rw [List.filter_cons_of_pos (by simp only [keyq, ckey] at hu; simp [hu])]
      rw [enumIdsFrom_filter_nil (n + 1) rest k hrest]
      simp

    · have hu' : keyq k u = false := by
        cases hb : keyq k u
        · rfl
        · exact absurd hb hu
      simp only [fidx, if_neg hu] at hf
      obtain ⟨j, hj, hji⟩ := Option.map_eq_some'.mp hf
      rw [List.filter_cons_of_neg (by simp [hu'])] at hm
      simp only [enumIdsFrom]
      rw [List.filter_cons_of_neg (by simp only [keyq, ckey] at hu'; simp [hu'])]
      rw [ih (n + 1) j hj hm]
      have harith : n + 1 + j = n + i := by omega
      rw [harith]

/-- C10: for every input block sequence and every family of rewrite
outcomes, the glossary returned by `rewriteAllBlocks` has key list exactly
`t0, t1, …, t(n-1)` in insertion (first-appearance) order, and every ID
occurring in any returned paragraph block's `term_ids` list is one of
those keys. -/
theorem C10_glossary_keys (blocks : List Block) (llm : Nat → Option RewriteResult) :
    (rewriteAllBlocks blocks llm).terms.map Prod.fst
      = (List.range (rewriteAllBlocks blocks llm).terms.length).map mkTid
    ∧ ∀ tid ∈ termIdSeq (rewriteAllBlocks blocks llm).plainBlocks,
        tid ∈ (rewriteAllBlocks blocks llm).terms.map Prod.fst := by
  obtain ⟨hterms, hids⟩ := rab_characterization blocks llm
  have hkeys : (rewriteAllBlocks blocks llm).terms.map Prod.fst
      = (List.range (rewriteAllBlocks blocks llm).terms.length).map mkTid := by
    rw [hterms]
    simp only [enumIds]
    rw [enumIdsFrom_keys, enumIdsFrom_length, List.range_eq_range']
  refine ⟨hkeys, ?_⟩
  intro tid htid
  rw [hids] at htid
  obtain ⟨mIdx, hm⟩ := List.mem_iff_get?.mp htid
  have hlen : mIdx < (allCands blocks llm).length := by
    obtain ⟨hlt, _⟩ := List.get?_eq_some.mp hm
    rwa [assignIds_length] at hlt
  obtain ⟨t, ht⟩ : ∃ t, (allCands blocks llm).get? mIdx = some t := by
    cases hg : (allCands blocks llm).get? mIdx with
    | none =>
      rw [List.get?_eq_none] at hg
      omega
    | some t => exact ⟨t, rfl⟩
  have hgi := assignIds_get? [] (allCands blocks llm) mIdx t ht
  simp only [List.nil_append] at hgi
  rw [hgi] at hm
  have htid_eq : tid = refId ((allCands blocks llm).take mIdx) t := by
    injection hm with h'
    exact h'.symm
  obtain ⟨i, hfi, hrid⟩ := refId_stable (allCands blocks llm) mIdx t ht
  rw [htid_eq, hrid, hkeys]
  have hlt : i < (firstNub (allCands blocks llm)).length := fidx_lt_length _ _ _ hfi
  refine List.mem_map.mpr ⟨i, ?_, rfl⟩
  rw [hterms]
  simp only [enumIds]
  rw [List.mem_range]
  rw [enumIdsFrom_length]
  exact hlt

/-- C2: in every run of `rewriteAllBlocks` in which two candidate terms at
positions `i < j` of the run's candidate stream are equal under
case-insensitive comparison, the glossary contains exactly one entry
matching that term; the entry keeps the casing and explanation of the
first case-insensitively equal candidate of the run, and both positions
(in particular the later paragraph's `term_ids` list) reference that
single entry's ID. -/
theorem C2_case_insensitive_dedup (blocks : List Block) (llm : Nat → Option RewriteResult)
    (i j : Nat) (a b : Cand) (hij : i < j)
    (ha : (allCands blocks llm).get? i = some a)
    (hb : (allCands blocks llm).get? j = some b)
    (hab : lowStr a.term = lowStr b.term) :
    ∃ tid c,
      (allCands blocks llm).find? (fun u => lowStr u.term == lowStr a.term) = some c
      ∧ (rewriteAllBlocks blocks llm).terms.filter
          (fun e => lowStr e.2.term == lowStr a.term)
        = [(tid, ⟨c.term, c.simple, none⟩)]
      ∧ (termIdSeq (rewriteAllBlocks blocks llm).plainBlocks).get? i = some tid
      ∧ (termIdSeq (rewriteAllBlocks blocks llm).plainBlocks).get? j = some tid := by
  obtain ⟨hterms, hids⟩ := rab_characterization blocks llm
  have hmem : a ∈ allCands blocks llm := List.mem_iff_get?.mpr ⟨i, ha⟩
  have hsome : ((allCands blocks llm).find? (keyq (lowStr a.term))).isSome :=
    List.find?_isSome.mpr ⟨a, hmem, by simp [keyq, ckey]⟩
  obtain ⟨c, hc⟩ := Option.isSome_iff_exists.mp hsome
  obtain ⟨i0, hfa, hra⟩ := refId_stable (allCands blocks llm) i a ha
  obtain ⟨j0, hfb, hrb⟩ := refId_stable (allCands blocks llm) j b hb
  have hkey_ab : ckey b = ckey a := by
    simp only [ckey]
    exact hab.symm
  have hij0 : j0 = i0 := by
    rw [hkey_ab, hfa] at hfb
    injection hfb with h'
    exact h'.symm
  refine ⟨mkTid i0, c, hc, ?_, ?_, ?_⟩
  · rw [hterms]
    have hfilter := firstNub_filter_key (allCands blocks llm) (lowStr a.term)
    rw [hc] at hfilter
    simp only [Option.map_some', Option.getD_some] at hfilter
    have := enumIdsFrom_filter_single 0 (firstNub (allCands blocks llm))
      (lowStr a.term) i0 c hfa hfilter
    simpa [enumIds] using this
  · rw [hids]
    have hgi := assignIds_get? [] (allCands blocks llm) i a ha
    simp only [List.nil_append] at hgi
    rw [hgi, hra]
  · rw [hids]
    have hgj := assignIds_get? [] (allCands blocks llm) j b hb
    simp only [List.nil_append] at hgj
    rw [hgj, hrb, hij0]

/-- C2 witness: two paragraphs whose rewrite results carry the candidate
terms "Protein X" and "protein x" collapse to one glossary entry with
the first candidate's casing and explanation, referenced by both
paragraphs' term-ID lists. -/
theorem C2_case_insensitive_dedup_witness :
    ∃ tid c,
      (allCands
          [Block.para (str "p0") (str "x"), Block.para (str "p1") (str "y")]
          (fun n => if n = 0
            then some ⟨str "P one", [⟨str "Protein X", str "first explanation"⟩]⟩
            else some ⟨str "P two", [⟨str "protein x", str "second explanation"⟩]⟩)).find?
        (fun u => lowStr u.term == lowStr (str "Protein X")) = some c
      ∧ (rewriteAllBlocks
          [Block.para (str "p0") (str "x"), Block.para (str "p1") (str "y")]
          (fun n => if n = 0
            then some ⟨str "P one", [⟨str "Protein X", str "first explanation"⟩]⟩
            else some ⟨str "P two", [⟨str "protein x", str "second explanation"⟩]⟩)).terms.filter
          (fun e => lowStr e.2.term == lowStr (str "Protein X"))
        = [(tid, ⟨c.term, c.simple, none⟩)]
      ∧ (termIdSeq (rewriteAllBlocks
          [Block.para (str "p0") (str "x"), Block.para (str "p1") (str "y")]
          (fun n => if n = 0
            then some ⟨str "P one", [⟨str "Protein X", str "first explanation"⟩]⟩
            else some ⟨str "P two", [⟨str "protein x", str "second explanation"⟩]⟩)).plainBlocks).get? 0
        = some tid
      ∧ (termIdSeq (rewriteAllBlocks
          [Block.para (str "p0") (str "x"), Block.para (str "p1") (str "y")]
          (fun n => if n = 0
            then some ⟨str "P one", [⟨str "Protein X", str "first explanation"⟩]⟩
            else some ⟨str "P two", [⟨str "protein x", str "second explanation"⟩]⟩)).plainBlocks).get? 1
        = some tid := by
  have h := C2_case_insensitive_dedup
    [Block.para (str "p0") (str "x"), Block.para (str "p1") (str "y")]
    (fun n => if n = 0
      then some ⟨str "P one", [⟨str "Protein X", str "first explanation"⟩]⟩
      else some ⟨str "P two", [⟨str "protein x", str "second explanation"⟩]⟩)
    0 1 ⟨str "Protein X", str "first explanation"⟩ ⟨str "protein x", str "second explanation"⟩
    (by decide) (by decide) (by decide) (by decide)
  simpa using h

theorem rab_go_length (llm : Nat → Option RewriteResult) (total : Nat) :
    ∀ (blocks : List Block) (pIdx : Nat) (st : GState),
    (rewriteAllBlocksGo llm total blocks pIdx st).1.length = blocks.length := by
  intro blocks
  induction blocks with
  | nil => intro pIdx st; rfl
  | cons b rest ih =>
    intro pIdx st
    cases b with
    | heading lv tx => simp [rewriteAllBlocksGo, ih]
    | figure id iu ch lb => simp [rewriteAllBlocksGo, ih]
    | para id html => simp [rewriteAllBlocksGo, ih]

theorem rab_go_get?_para_fail (llm : Nat → Option RewriteResult) (total : Nat) :
    ∀ (blocks : List Block) (pIdx : Nat) (st : GState) (n : Nat) (id html : Str),
    blocks.get? n = some (Block.para id html) →
    llm (pIdx + countParas (blocks.take n)) = none →
    (rewriteAllBlocksGo llm total blocks pIdx st).1.get? n
      = some (PlainBlock.para id (stripHtml html) []) := by
  intro blocks
  induction blocks with
  | nil =>
    intro pIdx st n id html h _
    simp at h
  | cons b rest ih =>
    intro pIdx st n id html h hf
    cases n with
    | zero =>
      simp only [List.get?] at h
      injection h with h
      subst h
      simp only [List.take_zero, countParas, Nat.add_zero] at hf
      simp only [rewriteAllBlocksGo, rewriteParagraph, hf]
      simp [processTerms, List.get?]
    | succ n =>
      simp only [List.get?] at h
      cases b with
      | heading lv tx =>
        simp only [rewriteAllBlocksGo, List.get?]
        apply ih pIdx st n id html h
        simpa [List.take_succ_cons, countParas] using hf
      | figure fid iu ch lb =>
        simp only [rewriteAllBlocksGo, List.get?]
        apply ih pIdx st n id html h
        simpa [List.take_succ_cons, countParas] using hf
      | para pid phtml =>
        simp only [rewriteAllBlocksGo, List.get?]
        apply ih (pIdx + 1) _ n id html h
        have harith : pIdx + 1 + countParas (rest.take n)
            = pIdx + countParas ((Block.para pid phtml :: rest).take (n + 1)) := by
          simp only [List.take_succ_cons, countParas]
          omega
        rw [harith]
        exact hf

/-- C7: when a paragraph's rewrite call fails (oracle `none`),
`rewriteParagraph` returns the stripped original text with an empty term
list, and `rewriteAllBlocks` still produces one output block per input
block, with the failing paragraph mapped to that degraded block — a
single failure never aborts the run. -/
theorem C7_rewrite_failure_degrades (blocks : List Block) (llm : Nat → Option RewriteResult)
    (n : Nat) (id html : Str)
    (hpos : blocks.get? n = some (Block.para id html))
    (hfail : llm (countParas (blocks.take n)) = none) :
    rewriteParagraph html (llm (countParas (blocks.take n)))
      = ⟨stripHtml html, []⟩
    ∧ (rewriteAllBlocks blocks llm).plainBlocks.length = blocks.length
    ∧ (rewriteAllBlocks blocks llm).plainBlocks.get? n
        = some (PlainBlock.para id (stripHtml html) []) := by
  refine ⟨by rw [hfail]; rfl, ?_, ?_⟩
  · simp only [rewriteAllBlocks]
    exact rab_go_length llm (countParas blocks) blocks 0 ⟨0, []⟩
  · simp only [rewriteAllBlocks]
    exact rab_go_get?_para_fail llm (countParas blocks) blocks 0 ⟨0, []⟩ n id html hpos
      (by simpa using hfail)

/-- C7 witness: a concrete two-block run whose only paragraph fails its
rewrite call still yields two output blocks, the paragraph degraded to
its stripped original text with no terms. -/
theorem C7_rewrite_failure_degrades_witness :
    rewriteParagraph (str "<b>Hi &amp; bye</b>")
        ((fun _ => (none : Option RewriteResult))
          (countParas ([Block.heading 2 (str "T"),
            Block.para (str "p0") (str "<b>Hi &amp; bye</b>")].take 1)))
      = ⟨stripHtml (str "<b>Hi &amp; bye</b>"), []⟩
    ∧ (rewriteAllBlocks [Block.heading 2 (str "T"),
        Block.para (str "p0") (str "<b>Hi &amp; bye</b>")]
        (fun _ => none)).plainBlocks.length
      = [Block.heading 2 (str "T"),
         Block.para (str "p0") (str "<b>Hi &amp; bye</b>")].length
    ∧ (rewriteAllBlocks [Block.heading 2 (str "T"),
        Block.para (str "p0") (str "<b>Hi &amp; bye</b>")]
        (fun _ => none)).plainBlocks.get? 1
      = some (PlainBlock.para (str "p0") (stripHtml (str "<b>Hi &amp; bye</b>")) []) :=
  C7_rewrite_failure_degrades
    [Block.heading 2 (str "T"), Block.para (str "p0") (str "<b>Hi &amp; bye</b>")]
    (fun _ => none) 1 (str "p0") (str "<b>Hi &amp; bye</b>") (by decide) rfl

/-! ## JATS XML parser (`biorxiv.ts`, `parseJatsXmlToBlocks`)

The XML text is represented by its parsed element tree (the work of
`cheerio.load` in XML mode, an external parser).  The tree uses a
first-child / next-sibling encoding, so an `XTree` value is a forest;
an element node carries its child forest and the forest of its right
siblings.  Every walk is structurally recursive. -/

/-- A forest of parsed XML nodes (first-child / next-sibling encoding). -/
inductive XTree
  | nil
  | elem (tag : Str) (attrs : List (Str × Str)) (children : XTree) (sib : XTree)
  | txt (s : Str) (sib : XTree)
  deriving DecidableEq, Repr

/-- Child forest of the first node (empty for text / empty forests). -/
def childrenOf : XTree → XTree
  | XTree.elem _ _ ch _ => ch
  | _ => XTree.nil

/-- Attributes of the first node. -/
def attrsOf : XTree → List (Str × Str)
  | XTree.elem _ a _ _ => a
  | _ => []

/-- Attribute lookup (`$el.attr(name)`). -/
def getAttr (attrs : List (Str × Str)) (k : Str) : Option Str :=
  (attrs.find? (fun a => a.1 == k)).map (fun a => a.2)

/-- JS truthiness on an optional string: `undefined` and `""` are falsy. -/
def nonEmptyOpt : Option Str → Option Str
  | some [] => none
  | some s => some s
  | none => none

/-- Concatenated text of a forest and all its descendants (`.text()`). -/
def textAll : XTree → Str
  | XTree.nil => []
  | XTree.txt s sib => s ++ textAll sib
  | XTree.elem _ _ ch sib => textAll ch ++ textAll sib

/-- Concatenated text with `xref[ref-type="bibr"]` citation elements
removed (they are `replaceWith('')`-ed before `.text()` is taken). -/
def textNoXref : XTree → Str
  | XTree.nil => []
  | XTree.txt s sib => s ++ textNoXref sib
  | XTree.elem t a ch sib =>
    if t == str "xref" && getAttr a (str "ref-type") == some (str "bibr") then
      textNoXref sib
    else textNoXref ch ++ textNoXref sib

/-- `getTextContent`: drop citation cross-references, take the text,
trim, then collapse whitespace runs. -/
def getTextContent (el : XTree) : Str :=
  collapseWs (trimStr (textNoXref (childrenOf el)))

/-- All descendant elements with the given tag, in document order
(`$el.find(tag)`); each hit is returned as a forest whose head is the
matching element. -/
def descTag (tag : Str) : XTree → List XTree
  | XTree.nil => []
  | XTree.txt _ sib => descTag tag sib
  | XTree.elem t a ch sib =>
    (if t == tag then [XTree.elem t a ch XTree.nil] else [])
      ++ descTag tag ch ++ descTag tag sib

/-- First direct child element with the given tag (`find('> tag').first()`). -/
def findChildTag : XTree → Str → Option XTree
  | XTree.nil, _ => none
  | XTree.txt _ sib, tag => findChildTag sib tag
  | XTree.elem t a ch sib, tag =>
    if t == tag then some (XTree.elem t a ch XTree.nil) else findChildTag sib tag

/-- `extractFigure`: locate the first `graphic` descendant, take its
`xlink:href` (falling back to `href`, with JS truthiness), resolve a
relative reference against the bioRxiv content base, and read the first
`label` and `caption` descendants' text.  A figure with no locatable
image reference yields no block. -/
def extractFigure (fig : XTree) (counter : Nat) : Option Block :=
  let href :=
    match (descTag (str "graphic") (childrenOf fig)).head? with
    | none => none
    | some g =>
      match nonEmptyOpt (getAttr (attrsOf g) (str "xlink:href")) with
      | some h => some h
      | none => nonEmptyOpt (getAttr (attrsOf g) (str "href"))
  match href with
  | none => none
  | some h =>
    let imgUrl :=
      if starts (str "http") h then h
      else str "https://www.biorxiv.org/content/biorxiv/early/" ++ h
    let label :=
      match (descTag (str "label") (childrenOf fig)).head? with
      | some l => trimStr (textAll (childrenOf l))
      | none => []
    let caption :=
      match (descTag (str "caption") (childrenOf fig)).head? with
      | some c => trimStr (textAll (childrenOf c))
      | none => []
    some (Block.figure (str "fig" ++ natDigits counter) imgUrl caption
      (if label.isEmpty then none else some label))

/-- Mutable state of the parse: the paragraph and figure counters and the
accumulated block list. -/
structure PState where
  paraCounter : Nat
  figureCounter : Nat
  blocks : List Block
  deriving DecidableEq, Repr

/-- Title of a section: `find('> title').first().text().trim()`. -/
def secTitle (ch : XTree) : Str :=
  match findChildTag ch (str "title") with
  | some t => trimStr (textAll (childrenOf t))
  | none => []

/-- The recursive walk of `processSection`, expressed over a sibling
forest.  `depth` is the number of enclosing `sec` elements (the source's
`$sec.parents('sec').length` for a `sec` in this forest).  A `sec` node
emits its heading (level 2 at depth 0, level 3 below, skipping empty
titles and references sections) and recurses into its children; `p`
nodes whose extracted text exceeds 20 characters become paragraphs;
`fig` nodes go through `extractFigure`, whose counter advances even when
the figure is dropped. -/
def procNodes : Nat → XTree → PState → PState
  | _, XTree.nil, st => st
  | depth, XTree.txt _ sib, st => procNodes depth sib st
  | depth, XTree.elem t a ch sib, st =>
    let st1 :=
      if t == str "p" then
        let text := getTextContent (XTree.elem t a ch XTree.nil)
        if 20 < text.length then
          { st with paraCounter := st.paraCounter + 1,
                    blocks := st.blocks ++ [Block.para ('p' :: natDigits st.paraCounter) text] }
        else st
      else if t == str "fig" then
        let fb := extractFigure (XTree.elem t a ch XTree.nil) st.figureCounter
        { st with figureCounter := st.figureCounter + 1,
                  blocks := st.blocks ++ (match fb with | some b => [b] | none => []) }
      else if t == str "sec" then
        let title := secTitle ch
        let st2 :=
          if !title.isEmpty && !(hasSub (str "reference") (lowStr title)) then
            { st with blocks := st.blocks ++
                [Block.heading (if depth == 0 then 2 else 3) title] }
          else st
        procNodes (depth + 1) ch st2
      else st
    procNodes depth sib st1

/-- All `fig` elements lying under a `floats-group` or `body` element, in
document order (`$('floats-group fig, body fig')`). -/
def collectFigs : Bool → XTree → List XTree
  | _, XTree.nil => []
  | inside, XTree.txt _ sib => collectFigs inside sib
  | inside, XTree.elem t a ch sib =>
    let isCtx := t == str "floats-group" || t == str "body"
    (if inside && t == str "fig" then [XTree.elem t a ch XTree.nil] else [])
      ++ collectFigs (inside || isCtx) ch ++ collectFigs inside sib

/-- The post-walk figure scan: append each scanned figure unless a figure
block whose generated ID equals the scanned element's source `id`
attribute is already present. -/
def floatsScan : List XTree → PState → PState
  | [], st => st
  | f :: rest, st =>
    let figId := getAttr (attrsOf f) (str "id")
    let alreadyAdded := st.blocks.any (fun b =>
      match b with
      | Block.figure bid _ _ _ => some bid == figId
      | _ => false)
    let st1 :=
      if alreadyAdded then st
      else
        let fb := extractFigure f st.figureCounter
        { st with figureCounter := st.figureCounter + 1,
                  blocks := st.blocks ++ (match fb with | some b => [b] | none => []) }
    floatsScan rest st1

/-- Scan a sibling forest for elements with the given tag. -/
def childScan (tag : Str) : XTree → List XTree
  | XTree.nil => []
  | XTree.txt _ sib => childScan tag sib
  | XTree.elem t a ch sib =>
    (if t == tag then [XTree.elem t a ch XTree.nil] else []) ++ childScan tag sib

/-- Direct children of the head node that are elements with a given tag
(`'body > sec'` relative to a collected `body` element). -/
def childElems (tag : Str) : XTree → List XTree
  | XTree.nil => []
  | XTree.txt _ _ => []
  | XTree.elem _ _ ch _ => childScan tag ch

/-- `parseJatsXmlToBlocks`: walk `body > sec` sections (or fall back to
direct `body > p` paragraphs), then scan `floats-group fig, body fig`
for figures not already captured. -/
def parseJatsXmlToBlocks (doc : XTree) : List Block :=
  let bodies := descTag (str "body") doc
  let bodySections := (bodies.map (childElems (str "sec"))).flatten
  let st0 : PState := ⟨0, 0, []⟩
  let st1 :=
    if !bodySections.isEmpty then
      bodySections.foldl (fun st sec => procNodes 0 sec st) st0
    else
      let bodyPs := (bodies.map (childElems (str "p"))).flatten
      bodyPs.foldl (fun st p =>
        let text := getTextContent p
        if 20 < text.length then
          { st with paraCounter := st.paraCounter + 1,
                    blocks := st.blocks ++ [Block.para ('p' :: natDigits st.paraCounter) text] }
        else st) st0
  let figs := collectFigs false doc
  (floatsScan figs st1).blocks

/-- C5: the parser's post-walk figure scan is meant to de-duplicate by
source figure identifier, but it compares the scanned element's source
`id` attribute (here `"F1"`) against the generated block IDs
(`"fig0"`, `"fig1"`, …), which never match.  On a document whose single
body figure carries `id="F1"`, the main walk captures the figure as
block `fig0` and the scan then appends the very same source element
again as block `fig1`: two figure blocks originate from one source
figure element, refuting the claimed de-duplication. -/
theorem C5_figure_dedup_fails :
    parseJatsXmlToBlocks
      (XTree.elem (str "article") []
        (XTree.elem (str "body") []
          (XTree.elem (str "sec") []
            (XTree.elem (str "title") [] (XTree.txt (str "Results") XTree.nil)
              (XTree.elem (str "p") []
                (XTree.txt (str "This is a sufficiently long paragraph.") XTree.nil)
                (XTree.elem (str "fig") [(str "id", str "F1")]
                  (XTree.elem (str "graphic")
                    [(str "xlink:href", str "https://x.example/im.png")]
                    XTree.nil XTree.nil)
                  XTree.nil)))
            XTree.nil)
          XTree.nil)
        XTree.nil)
      = [Block.heading 2 (str "Results"),
         Block.para (str "p0") (str "This is a sufficiently long paragraph."),
         Block.figure (str "fig0") (str "https://x.example/im.png") (str "") none,
         Block.figure (str "fig1") (str "https://x.example/im.png") (str "") none] := by
  decide

/-! ## URL validation, DOI extraction and the pipeline handlers
(`biorxiv.ts`, the page-load handler, the SSE stream handler) -/

/-- Digit character test (`\d`). -/
def isDigitCh (c : Char) : Bool := '0' ≤ c && c ≤ '9'

/-- One-position test for the regex `/biorxiv\.org\/content\/10\.\d{4,}/`:
the literal prefix followed by at least four digits. -/
def bioRxivShapeAt (s : Str) : Bool :=
  starts (str "biorxiv.org/content/10.") s
    && 4 ≤ ((s.drop (str "biorxiv.org/content/10.").length).takeWhile isDigitCh).length

/-- `isBioRxivUrl`: the regex test scans every start position. -/
def isBioRxivUrl : Str → Bool
  | [] => bioRxivShapeAt []
  | c :: rest => bioRxivShapeAt (c :: rest) || isBioRxivUrl rest

/-- Characters ending the DOI suffix class `[^\s/?#]`. -/
def doiStopCh (c : Char) : Bool := spaceChar c || c == '/' || c == '?' || c == '#'

/-- One-position match for `/10\.\d{4,}\/[^\s/?#]+/`: "10." then a
maximal digit run of length at least 4, then a slash, then a maximal
nonempty run of non-stop characters (the greedy regex semantics: the
digit run cannot backtrack, since a digit can never match `\/`). -/
def doiMatchAt (s : Str) : Option Str :=
  if starts (str "10.") s then
    let rest := s.drop 3
    let ds := rest.takeWhile isDigitCh
    if 4 ≤ ds.length then
      match rest.drop ds.length with
      | '/' :: rest2 =>
        let seg := rest2.takeWhile (fun c => !(doiStopCh c))
        if seg.isEmpty then none
        else some (str "10." ++ ds ++ '/' :: seg)
      | _ => none
    else none
  else none

/-- `extractDoiFromUrl`: the leftmost match of the DOI regex, or `null`. -/
def extractDoiFromUrl : Str → Option Str
  | [] => doiMatchAt []
  | c :: rest =>
    match doiMatchAt (c :: rest) with
    | some d => some d
    | none => extractDoiFromUrl rest

/-- `generatePaperId`. -/
def generatePaperId (doi : Str) : Str := str "biorxiv:" ++ doi

/-- Fields of the bioRxiv API details record used by the pipeline. -/
structure BioDetails where
  title : Str
  authors : Str
  jatsxml : Str
  abstract : Str
  deriving DecidableEq, Repr

/-- Split on `';'` (JS `String.split(';')`). -/
def splitSemicolon : Str → List Str
  | [] => [[]]
  | ';' :: rest => [] :: splitSemicolon rest
  | c :: rest =>
    match splitSemicolon rest with
    | [] => [[c]]
    | h :: t => (c :: h) :: t

/-- `extractMetadataFromApi`: the semicolon-separated author string is
split, trimmed and cleared of empties. -/
def extractMetadataFromApi (d : BioDetails) : Str × List Str :=
  (d.title, ((splitSemicolon d.authors).map trimStr).filter (fun a => 0 < a.length))

/-- Externally observable effects of a pipeline run. -/
inductive Eff
  | apiFetch    -- `fetchPaperDetails` network call
  | jatsFetch   -- `fetchJatsXml` network call
  | parseWork   -- `parseJatsXmlToBlocks` invocation
  | cacheGet    -- database read of the cached paper
  | cachePut    -- database upsert of the computed paper
  | rewriteWork -- `rewriteAllBlocks` invocation
  | imgFetch    -- image-proxy outbound fetch
  deriving DecidableEq, Repr

/-- Result record of `fetchAndParsePaper`. -/
structure PaperData where
  doi : Str
  title : Str
  authors : List Str
  blocks : List Block
  abstract : Str
  deriving DecidableEq, Repr

/-- Oracle for the two external fetches of `fetchAndParsePaper`:
`details = none` models a failed or empty API response, and
`jats = none` models unavailable full-text markup.  The fetched JATS
string is represented by its parsed element tree. -/
structure FetchOracle where
  details : Option BioDetails
  jats : Option XTree

/-- `fetchAndParsePaper` with its effect trace: extract the DOI (pure,
`null` aborts before any network call), fetch the API details, fetch the
JATS markup (falling back to the abstract-only block list when absent),
parse, and prepend the abstract heading and paragraph when both the
abstract and the parsed blocks are nonempty. -/
def fetchAndParsePaper (url : Str) (o : FetchOracle) : Option PaperData × List Eff :=
  match extractDoiFromUrl url with
  | none => (none, [])
  | some doi =>
    match o.details with
    | none => (none, [Eff.apiFetch])
    | some d =>
      let meta := extractMetadataFromApi d
      match o.jats with
      | none =>
        (some ⟨doi, meta.1, meta.2, fallbackBlocks d.abstract, d.abstract⟩,
         [Eff.apiFetch, Eff.jatsFetch])
      | some xdoc =>
        let blocks0 := parseJatsXmlToBlocks xdoc
        let blocks :=
          if d.abstract.isEmpty || blocks0.isEmpty then blocks0
          else Block.heading 2 (str "Abstract") ::
            Block.para (str "abstract") d.abstract :: blocks0
        (some ⟨doi, meta.1, meta.2, blocks, d.abstract⟩,
         [Eff.apiFetch, Eff.jatsFetch, Eff.parseWork])

/-- The cached `Paper` aggregate. -/
structure Paper where
  id : Str
  sourceUrl : Str
  title : Str
  authors : List Str
  blocks : List Block
  plainBlocks : List PlainBlock
  terms : List (Str × GTerm)
  deriving DecidableEq, Repr

/-- Outcome of the page-load handler. -/
inductive LoadOutcome
  | errNoUrl
  | errInvalid
  | pending
  | ready (p : Paper)
  | errParse
  | processing (url : Str)
  deriving DecidableEq, Repr

/-- The page-load handler (`+page.server.ts` `load`): resolve the URL
from the path or the `u` query parameter, validate it, fetch and parse,
and only then — unless `refresh=true` — consult the cache; a hit returns
the cached paper, otherwise an empty parse is a hard error and a
non-empty one hands off to the SSE stream. -/
def load (wrapped queryU refreshQ : Option Str) (o : FetchOracle)
    (cache : Str → Option Paper) : LoadOutcome × List Eff :=
  let urlOpt :=
    match nonEmptyOpt wrapped with
    | some w => some (str "https://" ++ w)
    | none => nonEmptyOpt queryU
  match urlOpt with
  | none => (LoadOutcome.errNoUrl, [])
  | some url =>
    if !isBioRxivUrl url then (LoadOutcome.errInvalid, [])
    else
      let fp := fetchAndParsePaper url o
      match fp.1 with
      | none => (LoadOutcome.pending, fp.2)
      | some pd =>
        let paperId := generatePaperId pd.doi
        let forceRefresh := refreshQ == some (str "true")
        if !forceRefresh then
          match cache paperId with
          | some p => (LoadOutcome.ready p, fp.2 ++ [Eff.cacheGet])
          | none =>
            if pd.blocks.isEmpty then (LoadOutcome.errParse, fp.2 ++ [Eff.cacheGet])
            else (LoadOutcome.processing url, fp.2 ++ [Eff.cacheGet])
        else
          if pd.blocks.isEmpty then (LoadOutcome.errParse, fp.2)
          else (LoadOutcome.processing url, fp.2)

/-- One event of the progress stream. -/
structure ProgressEvent where
  stage : Str
  message : Str
  progress : Nat
  subProgress : Option Str
  deriving DecidableEq, Repr

/-- Terminal outcome of the SSE stream handler. -/
inductive Terminal
  | ready (p : Paper)
  | errMsg (m : Str)
  | badRequest (m : Str)
  deriving DecidableEq, Repr

/-- Observable behaviour of one SSE run: the emitted progress events, the
terminal outcome, and the effect trace. -/
structure GetOut where
  progress : List ProgressEvent
  terminal : Terminal
  effs : List Eff
  deriving DecidableEq, Repr

/-- The per-paragraph progress events of the rewriting stage: the closure
keeps its own `processedParagraphs` counter `k` (starting at 0) and maps
each `onProgress` call to `25 + ⌊(k+1)/total · 70⌋` (the floor of the
real quotient, written with natural division). -/
def progressEventsFrom : Nat → List (Nat × Nat) → List ProgressEvent
  | _, [] => []
  | k, c :: rest =>
    ⟨str "rewriting",
     str "Rewriting paragraph " ++ natDigits (k + 1) ++ str " of " ++ natDigits c.2 ++ str "...",
     25 + (70 * (k + 1)) / c.2,
     some (natDigits (k + 1) ++ str " of " ++ natDigits c.2)⟩
      :: progressEventsFrom (k + 1) rest

/-- Body of the SSE stream after the cache miss (or unextractable DOI):
staged fetching → parsing → rewriting → saving → complete, with the
error terminals of the source. -/
def sseMain (url : Str) (o : FetchOracle) (llm : Nat → Option RewriteResult)
    (effs0 : List Eff) : GetOut :=
  let ev1 : ProgressEvent := ⟨str "fetching", str "Fetching paper from bioRxiv...", 5, none⟩
  let fp := fetchAndParsePaper url o
  match fp.1 with
  | none =>
    ⟨[ev1],
     Terminal.errMsg (str "Could not fetch this paper from bioRxiv. The paper may not exist or the API may be temporarily unavailable."),
     effs0 ++ fp.2⟩
  | some pd =>
    let ev2 : ProgressEvent := ⟨str "fetching", str "Paper fetched successfully", 15, none⟩
    let ev3 : ProgressEvent := ⟨str "parsing", str "Parsing paper content...", 20, none⟩
    if pd.blocks.isEmpty then
      ⟨[ev1, ev2, ev3],
       Terminal.errMsg (str "Could not parse paper content. The paper structure may not be supported."),
       effs0 ++ fp.2⟩
    else
      let ev4 : ProgressEvent :=
        ⟨str "parsing", str "Parsed " ++ natDigits pd.blocks.length ++ str " content blocks", 25, none⟩
      let total := countParas pd.blocks
      let ev5 : ProgressEvent :=
        ⟨str "rewriting", str "Rewriting " ++ natDigits total ++ str " paragraphs...", 25,
         some (str "0 of " ++ natDigits total)⟩
      let rab := rewriteAllBlocks pd.blocks llm
      let rewritingEvents := progressEventsFrom 0 rab.calls
      let ev6 : ProgressEvent := ⟨str "saving", str "Saving to cache...", 95, none⟩
      let paperId := generatePaperId pd.doi
      let paper : Paper := ⟨paperId, url, pd.title, pd.authors, pd.blocks, rab.plainBlocks, rab.terms⟩
      let ev7 : ProgressEvent := ⟨str "complete", str "Processing complete!", 100, none⟩
      ⟨[ev1, ev2, ev3, ev4, ev5] ++ rewritingEvents ++ [ev6, ev7],
       Terminal.ready paper,
       effs0 ++ fp.2 ++ [Eff.rewriteWork, Eff.cachePut]⟩

/-- The SSE stream handler (`GET`): validate the URL, re-extract the DOI
with the same regex, consult the cache first when a DOI is found (a hit
emits one `complete` event and returns the cached paper), else run the staged
pipeline. -/
def sseGET (urlQ : Option Str) (o : FetchOracle) (cache : Str → Option Paper)
    (llm : Nat → Option RewriteResult) : GetOut :=
  match nonEmptyOpt urlQ with
  | none => ⟨[], Terminal.badRequest (str "Missing bioRxiv URL"), []⟩
  | some url =>
    if !isBioRxivUrl url then ⟨[], Terminal.badRequest (str "Invalid bioRxiv URL"), []⟩
    else
      match extractDoiFromUrl url with
      | some doi =>
        match cache (generatePaperId doi) with
        | some p =>
          ⟨[⟨str "complete", str "Paper loaded from cache", 100, none⟩],
           Terminal.ready p, [Eff.cacheGet]⟩
        | none => sseMain url o llm [Eff.cacheGet]
      | none => sseMain url o llm []

/-- C3 counterexample: a page-load run whose identifier is already cached
(and with no force-recompute request) still performs the metadata fetch,
the raw-content fetch and the parse before the cache is consulted: the
effect trace of the run is `[apiFetch, jatsFetch, parseWork, cacheGet]`,
refuting both "the cache is consulted before any metadata fetch" and "a
cache hit short-circuits so that no fetch or parse call is performed". -/
theorem C3_load_fetches_before_cache :
    load (some (str "www.biorxiv.org/content/10.1101/123456")) none none
      ⟨some ⟨str "T", str "Author A", str "x", str "Abs"⟩,
       some (XTree.elem (str "article") [] XTree.nil XTree.nil)⟩
      (fun k => if k == generatePaperId (str "10.1101/123456")
        then some ⟨str "pid", str "su", str "T", [], [], [], []⟩ else none)
      = (LoadOutcome.ready ⟨str "pid", str "su", str "T", [], [], [], []⟩,
         [Eff.apiFetch, Eff.jatsFetch, Eff.parseWork, Eff.cacheGet]) := by
  decide

/-- C3 amended: in the SSE stream handler (the pipeline that actually
performs rewriting), the claim holds: for every run whose URL passes
validation and yields an extractable identifier with a cached Paper, the
cache is consulted before any fetch, parse, or rewrite work, and the hit
short-circuits the run to exactly one cache read, a single `complete`
event and the cached paper.  (The page-load handler instead fetches and
parses before its cache check, per the counterexample; its cache hit
still short-circuits the rewrite stage, which only ever runs in the SSE
handler.) -/
theorem C3_sse_cache_first (url : Str) (o : FetchOracle) (cache : Str → Option Paper)
    (llm : Nat → Option RewriteResult) (doi : Str) (p : Paper)
    (hne : url ≠ [])
    (hvalid : isBioRxivUrl url = true)
    (hdoi : extractDoiFromUrl url = some doi)
    (hcache : cache (generatePaperId doi) = some p) :
    sseGET (some url) o cache llm
      = ⟨[⟨str "complete", str "Paper loaded from cache", 100, none⟩],
         Terminal.ready p, [Eff.cacheGet]⟩ := by
  cases url with
  | nil => exact absurd rfl hne
  | cons c rest =>
    simp [sseGET, nonEmptyOpt, hvalid, hdoi, hcache]

/-- C3 witness: a concrete cached identifier short-circuits the SSE run. -/
theorem C3_sse_cache_first_witness :
    sseGET (some (str "https://www.biorxiv.org/content/10.1101/123456"))
      ⟨some ⟨str "T", str "Author A", str "x", str "Abs"⟩, none⟩
      (fun k => if k == generatePaperId (str "10.1101/123456")
        then some ⟨str "pid", str "su", str "T", [], [], [], []⟩ else none)
      (fun _ => none)
      = ⟨[⟨str "complete", str "Paper loaded from cache", 100, none⟩],
         Terminal.ready ⟨str "pid", str "su", str "T", [], [], [], []⟩,
         [Eff.cacheGet]⟩ :=
  C3_sse_cache_first (str "https://www.biorxiv.org/content/10.1101/123456")
    ⟨some ⟨str "T", str "Author A", str "x", str "Abs"⟩, none⟩
    (fun k => if k == generatePaperId (str "10.1101/123456")
      then some ⟨str "pid", str "su", str "T", [], [], [], []⟩ else none)
    (fun _ => none)
    (str "10.1101/123456") ⟨str "pid", str "su", str "T", [], [], [], []⟩
    (by decide) (by decide) (by decide) (by decide)

/-- C4 counterexample: the URL `https://www.biorxiv.org/content/10.1101`
passes the bioRxiv URL-shape validator but yields no extractable content
identifier.  Both handlers then report the could-not-fetch
(DocumentUnavailable) outcome, not the InvalidReference outcome the
claim requires — although, as the empty effect traces show, no network
call is made. -/
theorem C4_no_doi_reported_unavailable :
    isBioRxivUrl (str "https://www.biorxiv.org/content/10.1101") = true
    ∧ extractDoiFromUrl (str "https://www.biorxiv.org/content/10.1101") = none
    ∧ load none (some (str "https://www.biorxiv.org/content/10.1101")) none
        ⟨some ⟨str "T", str "Author A", str "x", str "Abs"⟩, none⟩ (fun _ => none)
      = (LoadOutcome.pending, [])
    ∧ sseGET (some (str "https://www.biorxiv.org/content/10.1101"))
        ⟨some ⟨str "T", str "Author A", str "x", str "Abs"⟩, none⟩ (fun _ => none)
        (fun _ => none)
      = ⟨[⟨str "fetching", str "Fetching paper from bioRxiv...", 5, none⟩],
         Terminal.errMsg (str "Could not fetch this paper from bioRxiv. The paper may not exist or the API may be temporarily unavailable."),
         []⟩ := by
  decide

/-- C4 amended: a reference rejected by the URL-shape validator gets the
InvalidReference outcome with zero fetch calls; a reference that passes
the validator but from which no identifier can be extracted also incurs
zero fetch calls, but is reported as the could-not-fetch
(DocumentUnavailable) outcome rather than InvalidReference. -/
theorem C4_invalid_reference_before_io (url : Str) (refreshQ : Option Str) (o : FetchOracle)
    (cache : Str → Option Paper) (llm : Nat → Option RewriteResult)
    (hne : url ≠ []) :
    (isBioRxivUrl url = false →
      load none (some url) refreshQ o cache = (LoadOutcome.errInvalid, [])
      ∧ sseGET (some url) o cache llm
          = ⟨[], Terminal.badRequest (str "Invalid bioRxiv URL"), []⟩)
    ∧ (isBioRxivUrl url = true → extractDoiFromUrl url = none →
      load none (some url) refreshQ o cache = (LoadOutcome.pending, [])
      ∧ (sseGET (some url) o cache llm).effs = []
      ∧ (sseGET (some url) o cache llm).terminal
          = Terminal.errMsg (str "Could not fetch this paper from bioRxiv. The paper may not exist or the API may be temporarily unavailable.")) := by
  cases url with
  | nil => exact absurd rfl hne
  | cons c rest =>
    constructor
    · intro hinvalid
      constructor
      · simp only [load, nonEmptyOpt, hinvalid, Bool.not_false, if_pos]
      · simp only [sseGET, nonEmptyOpt, hinvalid, Bool.not_false, if_pos]
    · intro hvalid hnodoi
      refine ⟨?_, ?_, ?_⟩
      · simp [load, nonEmptyOpt, hvalid, fetchAndParsePaper, hnodoi]
      · simp [sseGET, nonEmptyOpt, hvalid, hnodoi, sseMain, fetchAndParsePaper]
      · simp [sseGET, nonEmptyOpt, hvalid, hnodoi, sseMain, fetchAndParsePaper]

/-- C4 witness: the two branches of the amended claim at concrete URLs. -/
theorem C4_invalid_reference_before_io_witness :
    load none (some (str "https://www.biorxiv.org/content/10.1101")) none
      ⟨some ⟨str "T", str "Author A", str "x", str "Abs"⟩, none⟩ (fun _ => none)
      = (LoadOutcome.pending, [])
    ∧ load none (some (str "https://example.com/paper")) none
      ⟨some ⟨str "T", str "Author A", str "x", str "Abs"⟩, none⟩ (fun _ => none)
      = (LoadOutcome.errInvalid, []) :=
  ⟨((C4_invalid_reference_before_io (str "https://www.biorxiv.org/content/10.1101") none
      ⟨some ⟨str "T", str "Author A", str "x", str "Abs"⟩, none⟩ (fun _ => none)
      (fun _ => none) (by decide)).2 (by decide) (by decide)).1,
   ((C4_invalid_reference_before_io (str "https://example.com/paper") none
      ⟨some ⟨str "T", str "Author A", str "x", str "Abs"⟩, none⟩ (fun _ => none)
      (fun _ => none) (by decide)).1 (by decide)).1⟩

/-! ## Image proxy (`api/img` `GET`) -/

/-- Outcome of the outbound image fetch. -/
structure ImgResp where
  ok : Bool
  status : Nat
  contentType : Option Str
  deriving DecidableEq, Repr

/-- Responses of the image-proxy handler. -/
inductive ProxyResult
  | missingUrl
  | invalidSource
  | fetched (status : Nat) (contentType : Str)
  | fetchFailed (status : Nat)
  | fetchError
  deriving DecidableEq, Repr

/-- The image-proxy handler: 400 on a missing URL; 403 — without
fetching — when the URL string contains neither `"biorxiv.org"` nor
`"highwire"` as a substring; otherwise one outbound fetch whose outcome
(or thrown error, oracle `none`) is propagated, defaulting the content
type to `image/png`. -/
def imageProxyGET (u : Option Str) (o : Option ImgResp) : ProxyResult × List Eff :=
  match nonEmptyOpt u with
  | none => (ProxyResult.missingUrl, [])
  | some imgUrl =>
    if !(hasSub (str "biorxiv.org") imgUrl) && !(hasSub (str "highwire") imgUrl) then
      (ProxyResult.invalidSource, [])
    else
      match o with
      | none => (ProxyResult.fetchError, [Eff.imgFetch])
      | some r =>
        if !r.ok then (ProxyResult.fetchFailed r.status, [Eff.imgFetch])
        else
          (ProxyResult.fetched r.status
            (match nonEmptyOpt r.contentType with
             | some ct => ct
             | none => str "image/png"),
           [Eff.imgFetch])

/-- Scheme separator scan for `urlHost`. -/
def afterScheme : Str → Option Str
  | [] => none
  | ':' :: '/' :: '/' :: rest => some rest
  | _ :: rest => afterScheme rest

/-- Host component of a URL: the text between `"://"` and the next
`'/'`, `'?'`, `'#'` or `':'`.  Modelled from the spec: the handler
itself performs no host extraction — this definition only expresses the
notion in which the claim's allow list is phrased. -/
def urlHost (u : Str) : Str :=
  match afterScheme u with
  | some rest => rest.takeWhile (fun c => !(c == '/' || c == '?' || c == '#' || c == ':'))
  | none => []

/-- C8 counterexample: the handler checks the allow-listed names as
substrings of the whole URL, not of its host.  The URL
`https://evil.example/steal?ref=biorxiv.org` has host `evil.example`,
which matches no allow-listed domain, yet the handler performs the
outbound fetch, refuting "only URLs whose host matches the allow list
are ever fetched". -/
theorem C8_allowlist_host_bypass :
    urlHost (str "https://evil.example/steal?ref=biorxiv.org") = str "evil.example"
    ∧ hasSub (str "biorxiv.org")
        (urlHost (str "https://evil.example/steal?ref=biorxiv.org")) = false
    ∧ hasSub (str "highwire")
        (urlHost (str "https://evil.example/steal?ref=biorxiv.org")) = false
    ∧ imageProxyGET (some (str "https://evil.example/steal?ref=biorxiv.org"))
        (some ⟨true, 200, some (str "image/png")⟩)
      = (ProxyResult.fetched 200 (str "image/png"), [Eff.imgFetch]) := by
  decide

/-- C8 amended: the handler's gate is a substring test on the whole URL:
a nonempty URL containing neither `"biorxiv.org"` nor `"highwire"`
anywhere is rejected with 403 and no outbound fetch, and every fetched
URL contains one of the two substrings (not necessarily in its host). -/
theorem C8_substring_allowlist (s : Str) (o : Option ImgResp) (hne : s ≠ []) :
    ((hasSub (str "biorxiv.org") s || hasSub (str "highwire") s) = false →
      imageProxyGET (some s) o = (ProxyResult.invalidSource, []))
    ∧ ((hasSub (str "biorxiv.org") s || hasSub (str "highwire") s) = true →
      (imageProxyGET (some s) o).2 = [Eff.imgFetch]) := by
  cases s with
  | nil => exact absurd rfl hne
  | cons c rest =>
    constructor
    · intro hboth
      obtain ⟨h1, h2⟩ := Bool.or_eq_false_iff.mp hboth
      simp [imageProxyGET, nonEmptyOpt, h1, h2]
    · intro hsome
      simp only [imageProxyGET, nonEmptyOpt]
      have hneg : ¬ ((!(hasSub (str "biorxiv.org") (c :: rest))
          && !(hasSub (str "highwire") (c :: rest))) = true) := by
        intro hcond
        obtain ⟨h1, h2⟩ := Bool.and_eq_true_iff.mp hcond
        rw [Bool.not_eq_true'] at h1 h2
        rw [h1, h2] at hsome
        simp at hsome
      rw [if_neg hneg]
      cases o with
      | none => rfl
      | some r =>
        by_cases hok : r.ok
        · simp [hok]
        · simp [hok]

/-- C8 witness: the two branches of the amended claim at concrete URLs. -/
theorem C8_substring_allowlist_witness :
    imageProxyGET (some (str "https://www.example.net/x.png"))
        (some ⟨true, 200, some (str "image/png")⟩)
      = (ProxyResult.invalidSource, [])
    ∧ (imageProxyGET (some (str "https://www.biorxiv.org/content/x.png"))
        (some ⟨true, 200, some (str "image/png")⟩)).2
      = [Eff.imgFetch] :=
  ⟨(C8_substring_allowlist (str "https://www.example.net/x.png")
      (some ⟨true, 200, some (str "image/png")⟩) (by decide)).1 (by decide),
   (C8_substring_allowlist (str "https://www.biorxiv.org/content/x.png")
      (some ⟨true, 200, some (str "image/png")⟩) (by decide)).2 (by decide)⟩

/-! ## Progress-stream ordering (C9) -/

/-- Stage order index: fetching → parsing → rewriting → saving → complete. -/
def stageIdx (s : Str) : Nat :=
  if s == str "fetching" then 0
  else if s == str "parsing" then 1
  else if s == str "rewriting" then 2
  else if s == str "saving" then 3
  else if s == str "complete" then 4
  else 5

/-- Percentage band of each stage: fetching 0–15, parsing 15–25,
rewriting 25–95, saving 95–100, complete exactly 100. -/
def inBand (e : ProgressEvent) : Bool :=
  if e.stage == str "fetching" then e.progress ≤ 15
  else if e.stage == str "parsing" then 15 ≤ e.progress && e.progress ≤ 25
  else if e.stage == str "rewriting" then 25 ≤ e.progress && e.progress ≤ 95
  else if e.stage == str "saving" then 95 ≤ e.progress && e.progress ≤ 100
  else if e.stage == str "complete" then e.progress == 100
  else false

/-- Well-ordered progress stream: stage indices and percentages are
non-decreasing along the stream and every event lies in its stage band. -/
def progressOK (evs : List ProgressEvent) : Prop :=
  List.Chain' (fun a b => stageIdx a.stage ≤ stageIdx b.stage ∧ a.progress ≤ b.progress) evs
  ∧ ∀ e ∈ evs, inBand e = true

theorem rab_go_calls_shape (llm : Nat → Option RewriteResult) (total : Nat) :
    ∀ (blocks : List Block) (pIdx : Nat) (st : GState),
    (rewriteAllBlocksGo llm total blocks pIdx st).2.2.length = countParas blocks
    ∧ ∀ c ∈ (rewriteAllBlocksGo llm total blocks pIdx st).2.2, c.2 = total := by
  intro blocks
  induction blocks with
  | nil => intro pIdx st; exact ⟨rfl, by simp [rewriteAllBlocksGo]⟩
  | cons b rest ih =>
    intro pIdx st
    cases b with
    | heading lv tx =>
      simpa [rewriteAllBlocksGo, countParas] using ih pIdx st
    | figure id iu ch lb =>
      simpa [rewriteAllBlocksGo, countParas] using ih pIdx st
    | para id html =>
      simp only [rewriteAllBlocksGo, countParas]
      constructor
      · simp [(ih (pIdx + 1) _).1]
      · intro c hc
        simp only [List.mem_cons] at hc
        rcases hc with hc | hc
        · rw [hc]
        · exact (ih (pIdx + 1) _).2 c hc

/-- The band test specialised to rewriting-stage events. -/
theorem inBand_rewriting (e : ProgressEvent) (hs : e.stage = str "rewriting")
    (h1 : 25 ≤ e.progress) (h2 : e.progress ≤ 95) : inBand e = true := by
  have e1 : (str "rewriting" == str "fetching") = false := by decide
  have e2 : (str "rewriting" == str "parsing") = false := by decide
  have e3 : (str "rewriting" == str "rewriting") = true := by decide
  simp [inBand, hs, e1, e2, e3, h1, h2]

theorem progressEvents_ok (total : Nat) :
    ∀ (l : List (Nat × Nat)) (k0 : Nat),
    (∀ c ∈ l, c.2 = total) → k0 + l.length ≤ total →
    (∀ e ∈ progressEventsFrom k0 l,
       e.stage = str "rewriting" ∧ 25 ≤ e.progress ∧ e.progress ≤ 95)
    ∧ List.Chain' (fun a b => stageIdx a.stage ≤ stageIdx b.stage ∧ a.progress ≤ b.progress)
        (progressEventsFrom k0 l) := by
  intro l
  induction l with
  | nil =>
    intro k0 _ _
    exact ⟨by simp [progressEventsFrom], by simp [progressEventsFrom]⟩
  | cons c rest ih =>
    intro k0 hall hlen
    have hc2 : c.2 = total := hall c (List.mem_cons_self _ _)
    have hk1 : k0 + 1 ≤ total := by
      simp only [List.length_cons] at hlen
      omega
    have htpos : 0 < total := by omega
    have hhead_le : 25 + (70 * (k0 + 1)) / c.2 ≤ 95 := by
      rw [hc2]
      have hle : 70 * (k0 + 1) ≤ 70 * total := Nat.mul_le_mul_left _ hk1
      have hdd := Nat.div_le_div_right (c := total) hle
      rw [Nat.mul_comm 70 total, Nat.mul_div_cancel_left 70 htpos] at hdd
      omega
    have ihr := ih (k0 + 1) (fun d hd => hall d (List.mem_cons_of_mem _ hd))
      (by simp only [List.length_cons] at hlen; omega)
    constructor
    · intro e he
      simp only [progressEventsFrom, List.mem_cons] at he
      rcases he with he | he
      · subst he
        exact ⟨rfl, Nat.le_add_right 25 _, hhead_le⟩
      · exact ihr.1 e he
    · rw [progressEventsFrom, List.chain'_cons']
      refine ⟨?_, ihr.2⟩
      intro y hy
      cases rest with
      | nil => simp [progressEventsFrom] at hy
      | cons d rest' =>
        simp only [progressEventsFrom, List.head?_cons, Option.mem_def, Option.some.injEq] at hy
        subst hy
        have hd2 : d.2 = total := hall d (List.mem_cons_of_mem _ (List.mem_cons_self _ _))
        constructor
        · exact Nat.le_refl _
        · show 25 + 70 * (k0 + 1) / c.2 ≤ 25 + 70 * (k0 + 1 + 1) / d.2
          rw [hc2, hd2]
          have hmul : 70 * (k0 + 1) ≤ 70 * (k0 + 1 + 1) := by omega
          have hdd := Nat.div_le_div_right (c := total) hmul
          omega

/-- The band test at a parsing-stage event with percentage 25. -/
theorem inBand_mk_parsing25 (m : Str) :
    inBand ⟨str "parsing", m, 25, none⟩ = true := by
  have e1 : (str "parsing" == str "fetching") = false := by decide
  have e2 : (str "parsing" == str "parsing") = true := by decide
  simp [inBand, e1, e2]

theorem progressOK_sseMain (url : Str) (o : FetchOracle) (llm : Nat → Option RewriteResult)
    (effs0 : List Eff) : progressOK (sseMain url o llm effs0).progress := by
  simp only [sseMain]
  cases hfp : (fetchAndParsePaper url o).1 with
  | none =>
    refine ⟨List.chain'_singleton _, ?_⟩
    intro e he
    simp only [List.mem_singleton] at he
    subst he
    decide
  | some pd =>
    by_cases hempty : pd.blocks.isEmpty
    · simp only [hempty, if_true]
      refine ⟨?_, ?_⟩
      · exact List.chain'_cons.mpr ⟨⟨by decide, by decide⟩,
          List.chain'_cons.mpr ⟨⟨by decide, by decide⟩, List.chain'_singleton _⟩⟩
      · intro e he
        simp only [List.mem_cons, List.not_mem_nil, or_false] at he
        rcases he with rfl | rfl | rfl <;> decide
    · simp only [hempty, if_false, Bool.false_eq_true]
      have hshape := rab_go_calls_shape llm (countParas pd.blocks) pd.blocks 0 ⟨0, []⟩
      have hcalls : (rewriteAllBlocks pd.blocks llm).calls
          = (rewriteAllBlocksGo llm (countParas pd.blocks) pd.blocks 0 ⟨0, []⟩).2.2 := rfl
      have hall : ∀ c ∈ (rewriteAllBlocks pd.blocks llm).calls, c.2 = countParas pd.blocks := by
        rw [hcalls]
        exact hshape.2
      have hlen : 0 + (rewriteAllBlocks pd.blocks llm).calls.length ≤ countParas pd.blocks := by
        rw [hcalls, hshape.1]
        omega
      have hev := progressEvents_ok (countParas pd.blocks)
        (rewriteAllBlocks pd.blocks llm).calls 0 hall hlen
      constructor
      · rw [List.chain'_append]
        refine ⟨?_, ?_, ?_⟩
        · rw [List.chain'_append]
          refine ⟨?_, hev.2, ?_⟩
          · refine List.chain'_cons.mpr ⟨⟨by decide, by decide⟩, ?_⟩
            refine List.chain'_cons.mpr ⟨⟨by decide, by decide⟩, ?_⟩
            refine List.chain'_cons.mpr
              ⟨⟨show stageIdx (str "parsing") ≤ stageIdx (str "parsing") by decide,
                show (20 : Nat) ≤ 25 by decide⟩, ?_⟩
            exact List.chain'_cons.mpr
              ⟨⟨show stageIdx (str "parsing") ≤ stageIdx (str "rewriting") by decide,
                show (25 : Nat) ≤ 25 by decide⟩, List.chain'_singleton _⟩
          · intro x hx y hy
            have hx5 : x ∈ some (⟨str "rewriting",
                str "Rewriting " ++ natDigits (countParas pd.blocks) ++ str " paragraphs...", 25,
                some (str "0 of " ++ natDigits (countParas pd.blocks))⟩ : ProgressEvent) := hx
            simp only [Option.mem_def, Option.some.injEq] at hx5
            subst hx5
            have hym := List.mem_of_mem_head? hy
            obtain ⟨hst, h25, _⟩ := hev.1 y hym
            refine ⟨?_, ?_⟩
            · rw [hst]
            · exact h25
        · exact List.chain'_cons.mpr ⟨⟨by decide, by decide⟩, List.chain'_singleton _⟩
        · intro x hx y hy
          have hy6 : y = (⟨str "saving", str "Saving to cache...", 95, none⟩ : ProgressEvent) := by
            simp only [List.head?_cons, Option.mem_def, Option.some.injEq] at hy
            exact hy.symm
          subst hy6
          have hxm := List.mem_of_mem_getLast? hx
          rcases List.mem_append.mp hxm with h5 | hrw
          · simp only [List.mem_cons, List.not_mem_nil, or_false] at h5
            rcases h5 with rfl | rfl | rfl | rfl | rfl
            · exact ⟨show stageIdx (str "fetching") ≤ stageIdx (str "saving") by decide,
                show (5 : Nat) ≤ 95 by decide⟩
            · exact ⟨show stageIdx (str "fetching") ≤ stageIdx (str "saving") by decide,
                show (15 : Nat) ≤ 95 by decide⟩
            · exact ⟨show stageIdx (str "parsing") ≤ stageIdx (str "saving") by decide,
                show (20 : Nat) ≤ 95 by decide⟩
            · exact ⟨show stageIdx (str "parsing") ≤ stageIdx (str "saving") by decide,
                show (25 : Nat) ≤ 95 by decide⟩
            · exact ⟨show stageIdx (str "rewriting") ≤ stageIdx (str "saving") by decide,
                show (25 : Nat) ≤ 95 by decide⟩
          · obtain ⟨hst, _, h95⟩ := hev.1 x hrw
            refine ⟨?_, ?_⟩
            · rw [hst]
              exact show stageIdx (str "rewriting") ≤ stageIdx (str "saving") by decide
            · exact h95
      · intro e he
        simp only [List.mem_append, List.mem_cons, List.not_mem_nil, or_false] at he
        rcases he with ((rfl | rfl | rfl | rfl | rfl) | he) | (rfl | rfl)
        · decide
        · decide
        · decide
        · exact show inBand ⟨str "parsing", str "Parsed " ++ natDigits pd.blocks.length
            ++ str " content blocks", 25, none⟩ = true from
            inBand_mk_parsing25 _
        · exact inBand_rewriting _ rfl (Nat.le_refl 25) (show (25 : Nat) ≤ 95 by decide)
        · obtain ⟨hst, h25, h95⟩ := hev.1 e he
          exact inBand_rewriting e hst h25 h95
        · decide
        · decide

/-- C9: in every SSE run, the emitted progress events carry monotonically
non-decreasing percentages, follow the stage order fetching → parsing →
rewriting → saving → complete, and each event's percentage lies in its
stage's band (fetching ≤ 15, parsing 15–25, rewriting 25–95 linear in
the processed-paragraph fraction, saving 95–100, complete 100). -/
theorem C9_progress_stream_ordered (urlQ : Option Str) (o : FetchOracle)
    (cache : Str → Option Paper) (llm : Nat → Option RewriteResult) :
    progressOK (sseGET urlQ o cache llm).progress := by
  simp only [sseGET]
  cases nonEmptyOpt urlQ with
  | none => exact ⟨List.chain'_nil, by simp⟩
  | some url =>
    by_cases hv : isBioRxivUrl url
    · simp only [hv, Bool.not_true, Bool.false_eq_true, if_false]
      cases hdoi : extractDoiFromUrl url with
      | some doi =>
        show progressOK ((match cache (generatePaperId doi) with
          | some p =>
            (⟨[⟨str "complete", str "Paper loaded from cache", 100, none⟩],
              Terminal.ready p, [Eff.cacheGet]⟩ : GetOut)
          | none => sseMain url o llm [Eff.cacheGet]).progress)
        cases hcache : cache (generatePaperId doi) with
        | some p =>
          refine ⟨List.chain'_singleton _, ?_⟩
          intro e he
          simp only [List.mem_singleton] at he
          subst he
          decide
        | none => exact progressOK_sseMain url o llm [Eff.cacheGet]
      | none =>
        show progressOK (sseMain url o llm []).progress
        exact progressOK_sseMain url o llm []
    · have hv' : isBioRxivUrl url = false := by
        cases hb : isBioRxivUrl url
        · rfl
        · exact absurd hb hv
      simp only [hv', Bool.not_false, if_true]
      exact ⟨List.chain'_nil, by simp⟩

/-! ## Term highlighter (`term-highlighter.ts`) -/

/-- `escapeRegex`: backslash-escape the regex metacharacters.  The
matcher built from `new RegExp` over the escaped term matches the term
literally, which is how the scans below model it. -/
def escapeRegex : Str → Str
  | [] => []
  | c :: rest =>
    if c = '.' || c = '*' || c = '+' || c = '?' || c = '^' || c = '$' || c = '{'
        || c = '}' || c = '(' || c = ')' || c = '|' || c = '[' || c = ']' || c = '\\' then
      '\\' :: c :: escapeRegex rest
    else c :: escapeRegex rest

/-- The placeholder token `` `__TERM_PLACEHOLDER_${n}__` ``. -/
def placeholderStr (n : Nat) : Str :=
  str "__TERM_PLACEHOLDER_" ++ natDigits n ++ str "__"

/-- Placeholder counter and insertion-ordered placeholder map
(placeholder, term ID, originally matched text). -/
structure PHState where
  counter : Nat
  phs : List (Str × Str × Str)
  deriving DecidableEq, Repr

/-- Case-insensitive prefix test. -/
def ciStarts : Str → Str → Bool
  | [], _ => true
  | _ :: _, [] => false
  | p :: ps, c :: cs => (lowChar p == lowChar c) && ciStarts ps cs

/-- Whole-word case-insensitive match of the (nonempty) literal `term`
at the head of `s`; `pw` is the wordness of the preceding character
(false at the start of the string).  This is the JS regex
`` new RegExp(`\\b(${escapeRegex(term)})\\b`, 'gi') `` tried at one
position: a `\b` boundary before, the literal term case-insensitively,
and a `\b` boundary after. -/
def matchFlat (pw : Bool) (term : Str) (s : Str) : Bool :=
  match term, s with
  | _ :: _, c :: _ =>
    ciStarts term s && (pw != wordChar c) &&
    (match (s.take term.length).getLast?, s.drop term.length with
     | some d, e :: _ => wordChar d != wordChar e
     | some d, [] => wordChar d != false
     | none, _ => false)
  | _, _ => false

/-- One global-replace pass of the term's regex over the current string,
minting a placeholder for every match (left to right, non-overlapping;
`lastIndex` resumes after each match, and the boundary context is the
matched text's own last character).  `sk` is the number of already
matched characters still to consume. -/
def scanFA (tid term : Str) : Nat → Bool → Str → PHState → Str × PHState
  | _, _, [], st => ([], st)
  | sk + 1, pw, _ :: rest, st => scanFA tid term sk pw rest st
  | 0, pw, c :: rest, st =>
    if matchFlat pw term (c :: rest) then
      let matched := (c :: rest).take term.length
      let ph := placeholderStr st.counter
      let pw' := match matched.getLast? with
        | some d => wordChar d
        | none => pw
      let p := scanFA tid term (term.length - 1) pw' rest
        ⟨st.counter + 1, st.phs ++ [(ph, tid, matched)]⟩
      (ph ++ p.1, p.2)
    else
      let p := scanFA tid term 0 (wordChar c) rest st
      (c :: p.1, p.2)

/-- Stable insertion for the longest-first sort: `x` goes in front of the
first element whose term is not longer, so earlier entries stay first among
equal lengths. -/
def insertDesc (x : Str × GTerm) : List (Str × GTerm) → List (Str × GTerm)
  | [] => [x]
  | y :: ys =>
    if y.2.term.length ≤ x.2.term.length then x :: y :: ys
    else y :: insertDesc x ys

/-- `Object.entries(terms).sort((a, b) => b.term.length - a.term.length)`:
stable sort by term length, longest first (insertion sort computes the same
order as the stable JS sort). -/
def sortTermsDesc (terms : List (Str × GTerm)) : List (Str × GTerm) :=
  terms.foldr insertDesc []

/-- The interactive marker inserted for one resolved placeholder. -/
def buttonHtml (tid matched : Str) : Str :=
  str "<button class=\"term-highlight\" data-term-id=\"" ++ tid ++ str "\">"
    ++ matched ++ str "</button>"

/-- JS `GetSubstitution` for a string replacement: `$$`, `$&`, a dollar
followed by a backquote (insert the text before the match), and a dollar
followed by a quote character (insert the text after the match) are
interpreted; any other `$` is literal. -/
def applyDollar (matched before after : Str) : Str → Str
  | [] => []
  | [c] => [c]
  | c :: d :: rest =>
    if c = '$' then
      if d = '$' then '$' :: applyDollar matched before after rest
      else if d = '&' then matched ++ applyDollar matched before after rest
      else if d = Char.ofNat 96 then before ++ applyDollar matched before after rest
      else if d = Char.ofNat 39 then after ++ applyDollar matched before after rest
      else '$' :: d :: applyDollar matched before after rest
    else c :: applyDollar matched before after (d :: rest)

/-- `String.replace` with a string pattern: replace the first occurrence,
processing `$` patterns in the replacement; `acc` holds the reversed
scanned prefix. -/
def replaceFirstAux (pat repl : Str) (acc : Str) : Str → Str
  | [] => if pat.isEmpty then applyDollar pat acc.reverse [] repl else []
  | c :: rest =>
    if starts pat (c :: rest) then
      applyDollar pat acc.reverse ((c :: rest).drop pat.length) repl
        ++ (c :: rest).drop pat.length
    else c :: replaceFirstAux pat repl (c :: acc) rest

/-- `String.replace(pattern, replacement)` on strings. -/
def replaceFirstD (pat repl s : Str) : Str := replaceFirstAux pat repl [] s

/-- `highlightTerms`: longest-first, for each glossary entry replace every
case-insensitive whole-word match by a fresh placeholder token, then
replace each recorded placeholder (in insertion order) by its interactive
marker. -/
def highlightTerms (text : Str) (terms : List (Str × GTerm)) : Str :=
  if text.isEmpty || terms.isEmpty then text
  else
    let sortedEntries := sortTermsDesc terms
    let p1 := sortedEntries.foldl
      (fun acc e => scanFA e.1 e.2.term 0 false acc.1 acc.2) (text, ⟨0, []⟩)
    p1.2.phs.foldl (fun r e => replaceFirstD e.1 (buttonHtml e.2.1 e.2.2) r) p1.1

/-- C1 (counterexample): `highlightTerms` corrupts output on inputs that
collide with its placeholder scheme or with `String.replace` patterns.
(i) On text `"__TERM_PLACEHOLDER_0__ cell"` with the single term `"cell"`,
the resolution pass wraps the literal text `__TERM_PLACEHOLDER_0__` in the
marker and leaves the real match as a leaked raw placeholder, instead of
wrapping the matched span `cell` as claimed.  (ii) On text `"a$&b"` with the
term `"a$&b"`, the replacement string's `$&` is interpreted by
`String.replace`, so the marker contains the placeholder token instead of
the matched text.  (iii) A glossary key that spells a placeholder token
makes a later resolution fire inside an earlier marker's `data-term-id`
attribute.  (iv) A glossary key containing `$&` is interpreted by
`String.replace`.  (v) A term that spells the placeholder token (lower
case) matches an already claimed span's placeholder, so the span's marker
is lost and the leaked token becomes the button text. -/
theorem C1_placeholder_collision_corrupts :
    (highlightTerms (str "__TERM_PLACEHOLDER_0__ cell")
        [(str "t0", ⟨str "cell", str "a unit", none⟩)]
      = str "<button class=\"term-highlight\" data-term-id=\"t0\">cell</button> __TERM_PLACEHOLDER_0__"
    ∧ highlightTerms (str "__TERM_PLACEHOLDER_0__ cell")
        [(str "t0", ⟨str "cell", str "a unit", none⟩)]
      ≠ str "__TERM_PLACEHOLDER_0__ <button class=\"term-highlight\" data-term-id=\"t0\">cell</button>")
    ∧ (highlightTerms (str "a$&b") [(str "t0", ⟨str "a$&b", str "x", none⟩)]
      = str "<button class=\"term-highlight\" data-term-id=\"t0\">a__TERM_PLACEHOLDER_0__b</button>"
    ∧ highlightTerms (str "a$&b") [(str "t0", ⟨str "a$&b", str "x", none⟩)]
      ≠ str "<button class=\"term-highlight\" data-term-id=\"t0\">a$&b</button>")
    ∧ highlightTerms (str "a b")
        [(str "__TERM_PLACEHOLDER_1__", ⟨str "a", str "x", none⟩),
         (str "t1", ⟨str "b", str "y", none⟩)]
      = str "<button class=\"term-highlight\" data-term-id=\"<button class=\"term-highlight\" data-term-id=\"t1\">b</button>\">a</button> __TERM_PLACEHOLDER_1__"
    ∧ highlightTerms (str "a") [(str "t$&", ⟨str "a", str "x", none⟩)]
      = str "<button class=\"term-highlight\" data-term-id=\"t__TERM_PLACEHOLDER_0__\">a</button>"
    ∧ (highlightTerms (str "abcdefghijklmnopqrstuvw x")
        [(str "t0", ⟨str "abcdefghijklmnopqrstuvw", str "x", none⟩),
         (str "t1", ⟨str "__term_placeholder_0__", str "y", none⟩)]
      = str "<button class=\"term-highlight\" data-term-id=\"t1\">__TERM_PLACEHOLDER_0__</button> x"
    ∧ highlightTerms (str "abcdefghijklmnopqrstuvw x")
        [(str "t0", ⟨str "abcdefghijklmnopqrstuvw", str "x", none⟩),
         (str "t1", ⟨str "__term_placeholder_0__", str "y", none⟩)]
      ≠ str "<button class=\"term-highlight\" data-term-id=\"t0\">abcdefghijklmnopqrstuvw</button> x") := by
  refine ⟨⟨by decide, by decide⟩, ⟨by decide, by decide⟩, by decide, by decide,
    ⟨by decide, by decide⟩⟩

/-! ### Ideal view of the highlighter

The specification describes pass 1 as claiming non-overlapping whole-word
spans marked by unique opaque tokens, and pass 2 as resolving each claimed
span to its interactive marker.  The following definitions state that ideal
behaviour directly: an item list of plain characters and claimed spans. -/

/-- One item of the ideal pass-1 output: a plain character, or a claimed
span `htok k tid matched` (the `k`-th claim overall, for term `tid`,
covering the text `matched`). -/
inductive HItem where
  | hch (c : Char)
  | htok (k : Nat) (tid : Str) (matched : Str)
  deriving DecidableEq, Repr

/-- Take exactly `n` plain characters from the head of an item list. -/
def takeChs : Nat → List HItem → Option (Str × List HItem)
  | 0, items => some ([], items)
  | n + 1, HItem.hch c :: rest =>
    match takeChs n rest with
    | some (cs, rem) => some (c :: cs, rem)
    | none => none
  | _ + 1, _ => none

/-- Wordness of the first character rendered by an item list (a claimed
span renders as a placeholder token, which begins with `'_'`). -/
def nextW : List HItem → Bool
  | [] => false
  | HItem.hch c :: _ => wordChar c
  | HItem.htok _ _ _ :: _ => true

/-- Whole-word case-insensitive match of `term` at the head of an item
list: `term.length` plain characters, matching case-insensitively, with a
word boundary on each side. -/
def matchIdeal (pw : Bool) (term : Str) (items : List HItem) : Bool :=
  match takeChs term.length items with
  | none => false
  | some (cs, rem) =>
    match term, cs with
    | _ :: _, c :: _ =>
      ciStarts term cs && (pw != wordChar c) &&
      (match cs.getLast? with
       | some d => wordChar d != nextW rem
       | none => false)
    | _, _ => false

/-- One ideal scan for one term: walk the item list left to right, claim
every whole-word match as a fresh span (numbered by `ctr`), and never look
inside an already claimed span. -/
def scanIA (tid term : Str) : Nat → Bool → List HItem → Nat → List HItem × Nat
  | _, _, [], ctr => ([], ctr)
  | sk + 1, pw, _ :: rest, ctr => scanIA tid term sk pw rest ctr
  | 0, _, HItem.htok k t m :: rest, ctr =>
    let p := scanIA tid term 0 true rest ctr
    (HItem.htok k t m :: p.1, p.2)
  | 0, pw, HItem.hch c :: rest, ctr =>
    if matchIdeal pw term (HItem.hch c :: rest) then
      let cs := ((takeChs term.length (HItem.hch c :: rest)).map Prod.fst).getD []
      let pw' := match cs.getLast? with
        | some d => wordChar d
        | none => pw
      let p := scanIA tid term (term.length - 1) pw' rest (ctr + 1)
      (HItem.htok ctr tid cs :: p.1, p.2)
    else
      let p := scanIA tid term 0 (wordChar c) rest ctr
      (HItem.hch c :: p.1, p.2)

/-- All ideal scans, longest term first, with a running claim counter. -/
def pass1IdealP (text : Str) (entries : List (Str × GTerm)) : List HItem × Nat :=
  entries.foldl (fun acc e => scanIA e.1 e.2.term 0 false acc.1 acc.2)
    (text.map HItem.hch, 0)

/-- The ideal pass-1 item list. -/
def pass1Ideal (text : Str) (entries : List (Str × GTerm)) : List HItem :=
  (pass1IdealP text entries).1

/-- Render an item list with claimed spans shown as placeholder tokens
(the concrete pass-1 string). -/
def renderL : List HItem → Str
  | [] => []
  | HItem.hch c :: rest => c :: renderL rest
  | HItem.htok k _ _ :: rest => placeholderStr k ++ renderL rest

/-- Render an item list with every claimed span resolved to its
interactive marker (the ideal final output). -/
def resolveIdeal : List HItem → Str
  | [] => []
  | HItem.hch c :: rest => c :: resolveIdeal rest
  | HItem.htok _ tid m :: rest => buttonHtml tid m ++ resolveIdeal rest

/-- Render an item list with every claimed span shown as the text it
covers (recovers the input text: spans are non-overlapping, non-nested
fragments of it). -/
def eraseIdeal : List HItem → Str
  | [] => []
  | HItem.hch c :: rest => c :: eraseIdeal rest
  | HItem.htok _ _ m :: rest => m ++ eraseIdeal rest

/-- Render with claims numbered below `j` resolved and the rest still
placeholders: the intermediate strings of pass 2. -/
def renderUpTo (j : Nat) : List HItem → Str
  | [] => []
  | HItem.hch c :: rest => c :: renderUpTo j rest
  | HItem.htok k tid m :: rest =>
    (if k < j then buttonHtml tid m else placeholderStr k) ++ renderUpTo j rest

/-- Wordness of an optional character (`none` = outside the string). -/
def wordOpt : Option Char → Bool
  | some c => wordChar c
  | none => false

/-- Wordness of a string's first character. -/
def wordHead (s : Str) : Bool :=
  match s with
  | c :: _ => wordChar c
  | [] => false

/-- Wordness of a string's last character. -/
def wordLast (s : Str) : Bool :=
  match s.getLast? with
  | some c => wordChar c
  | none => false

/-- The character adjacent on the right of a position in an item list,
reading claimed spans as the text they cover. -/
def firstCharI : List HItem → Option Char
  | [] => none
  | HItem.hch c :: _ => some c
  | HItem.htok _ _ [] :: rest => firstCharI rest
  | HItem.htok _ _ (c :: _) :: _ => some c

/-- Last covered character of a span, else the previous adjacent one. -/
def lastCharOf (m : Str) (prev : Option Char) : Option Char :=
  match m.getLast? with
  | some c => some c
  | none => prev

/-- No claimed span sits inside a larger word: for every span, the
character adjacent on the left and the span's first character are not both
word characters, and symmetrically on the right.  `prev` is the character
adjacent on the left. -/
def noInner (prev : Option Char) : List HItem → Bool
  | [] => true
  | HItem.hch c :: rest => noInner (some c) rest
  | HItem.htok _ _ m :: rest =>
    !(wordOpt prev && wordHead m) && !(wordLast m && wordOpt (firstCharI rest))
      && noInner (lastCharOf m prev) rest

/-- The claim numbers appearing in an item list, in order. -/
def tokIdxs : List HItem → List Nat
  | [] => []
  | HItem.hch _ :: rest => tokIdxs rest
  | HItem.htok k _ _ :: rest => k :: tokIdxs rest

/-! ### String occurrence lemmas -/

theorem starts_iff (p s : Str) : starts p s = true ↔ ∃ t, s = p ++ t := by
  induction p generalizing s with
  | nil => simp [starts]
  | cons a ps ih =>
    cases s with
    | nil =>
      simp only [starts, Bool.false_eq_true, false_iff]
      rintro ⟨t, ht⟩
      exact List.cons_ne_nil _ _ ht.symm
    | cons c cs =>
      simp only [starts, Bool.and_eq_true, beq_iff_eq, ih]
      constructor
      · rintro ⟨rfl, t, rfl⟩
        exact ⟨t, rfl⟩
      · rintro ⟨t, ht⟩
        injection ht with h1 h2
        exact ⟨h1.symm, t, h2⟩

theorem hasSub_iff (p s : Str) : hasSub p s = true ↔ ∃ u v, s = u ++ p ++ v := by
  induction s with
  | nil =>
    simp only [hasSub, starts_iff]
    constructor
    · rintro ⟨t, ht⟩
      exact ⟨[], t, by simpa using ht⟩
    · rintro ⟨u, v, huv⟩
      rcases List.append_eq_nil.mp ((List.append_eq_nil.mp huv.symm).1) with ⟨h1, h2⟩
      exact ⟨[], by simp [h2, (List.append_eq_nil.mp huv.symm).2]⟩
  | cons c cs ih =>
    simp only [hasSub, Bool.or_eq_true, starts_iff, ih]
    constructor
    · rintro (⟨t, ht⟩ | ⟨u, v, huv⟩)
      · exact ⟨[], t, by simpa using ht⟩
      · exact ⟨c :: u, v, by rw [List.cons_append, List.cons_append, ← huv]⟩
    · rintro ⟨u, v, huv⟩
      cases u with
      | nil => exact Or.inl ⟨v, by simpa using huv⟩
      | cons a u2 =>
        rw [List.cons_append, List.cons_append] at huv
        injection huv with h1 h2
        exact Or.inr ⟨u2, v, h2⟩

theorem hasSub_length (p s : Str) (h : hasSub p s = true) : p.length ≤ s.length := by
  obtain ⟨u, v, rfl⟩ := (hasSub_iff p s).mp h
  simp only [List.length_append]
  omega

theorem hasSub_mono (p x u v : Str) (h : hasSub p x = true) :
    hasSub p (u ++ x ++ v) = true := by
  obtain ⟨a, b, rfl⟩ := (hasSub_iff p x).mp h
  exact (hasSub_iff _ _).mpr ⟨u ++ a, b ++ v, by simp⟩

theorem hasSub_trans (a b c : Str) (h1 : hasSub a b = true) (h2 : hasSub b c = true) :
    hasSub a c = true := by
  obtain ⟨u, v, rfl⟩ := (hasSub_iff b c).mp h2
  exact hasSub_mono a b u v h1

theorem hasSub_refl (a : Str) : hasSub a a = true :=
  (hasSub_iff a a).mpr ⟨[], [], by simp⟩

theorem lowStr_append (u v : Str) : lowStr (u ++ v) = lowStr u ++ lowStr v :=
  List.map_append _ _ _

theorem hasSub_lowStr (p s : Str) (h : hasSub p s = true) :
    hasSub (lowStr p) (lowStr s) = true := by
  obtain ⟨u, v, rfl⟩ := (hasSub_iff p s).mp h
  exact (hasSub_iff _ _).mpr ⟨lowStr u, lowStr v, by simp [lowStr]⟩

theorem append_cases (x y u p v : Str) (h : x ++ y = u ++ p ++ v) :
    (∃ w, u = x ++ w ∧ y = w ++ p ++ v) ∨
    (∃ w, x = u ++ p ++ w ∧ v = w ++ y) ∨
    (∃ p₁ p₂, p = p₁ ++ p₂ ∧ p₁ ≠ [] ∧ p₂ ≠ [] ∧ x = u ++ p₁ ∧ y = p₂ ++ v) := by
  rw [List.append_assoc] at h
  rcases List.append_eq_append_iff.mp h with ⟨w, hu, hy⟩ | ⟨w, hx, hw⟩
  · exact Or.inl ⟨w, hu, by rw [hy, List.append_assoc]⟩
  · rcases List.append_eq_append_iff.mp hw.symm with ⟨t, hp, hyt⟩ | ⟨t, hwt, hv⟩
    · cases w with
      | nil =>
        refine Or.inl ⟨[], by simpa using hx.symm, ?_⟩
        rw [List.nil_append] at hp
        rw [List.nil_append, hyt, hp]
      | cons w0 w2 =>
        cases t with
        | nil =>
          refine Or.inr (Or.inl ⟨[], ?_, by simpa using hyt.symm⟩)
          rw [List.append_nil] at hp
          rw [List.append_nil, hx, hp]
        | cons t0 t2 =>
          exact Or.inr (Or.inr ⟨w0 :: w2, t0 :: t2, hp,
            List.cons_ne_nil _ _, List.cons_ne_nil _ _, hx, hyt⟩)
    · exact Or.inr (Or.inl ⟨t, by rw [hx, hwt, ← List.append_assoc], hv⟩)

theorem hasSub_append_or (p x y : Str) (hp : p ≠ [])
    (h : hasSub p (x ++ y) = true) :
    hasSub p x = true ∨ hasSub p y = true ∨
    (∃ p₁ p₂ u v, p = p₁ ++ p₂ ∧ p₁ ≠ [] ∧ p₂ ≠ [] ∧ x = u ++ p₁ ∧ y = p₂ ++ v) := by
  obtain ⟨u, v, huv⟩ := (hasSub_iff p (x ++ y)).mp h
  rcases append_cases x y u p v huv with ⟨w, hu, hy⟩ | ⟨w, hx, hv⟩ | ⟨p₁, p₂, hp12, h1, h2, hx, hy⟩
  · exact Or.inr (Or.inl ((hasSub_iff _ _).mpr ⟨w, v, hy⟩))
  · exact Or.inl ((hasSub_iff _ _).mpr ⟨u, w, hx⟩)
  · exact Or.inr (Or.inr ⟨p₁, p₂, u, v, hp12, h1, h2, hx, hy⟩)

/-! ### Placeholder token structure -/

/-- The characters a placeholder token is made of. -/
def phChar (c : Char) : Bool := c == '_' || ('A' ≤ c && c ≤ 'Z') || isDigitCh c

theorem isDigitCh_digitChar (d : Nat) (h : d < 10) : isDigitCh (digitChar d) = true := by
  interval_cases d <;> decide

theorem natDigitsAux_digits (f : Nat) :
    ∀ n, ∀ c ∈ natDigitsAux f n, isDigitCh c = true := by
  induction f with
  | zero =>
    intro n c hc
    simp only [natDigitsAux, List.mem_singleton] at hc
    exact hc ▸ isDigitCh_digitChar _ (Nat.mod_lt _ (by omega))
  | succ f ih =>
    intro n c hc
    simp only [natDigitsAux] at hc
    by_cases hn : n < 10
    · rw [if_pos hn] at hc
      simp only [List.mem_singleton] at hc
      exact hc ▸ isDigitCh_digitChar _ hn
    · rw [if_neg hn] at hc
      rcases List.mem_append.mp hc with h1 | h1
      · exact ih _ c h1
      · simp only [List.mem_singleton] at h1
        exact h1 ▸ isDigitCh_digitChar _ (Nat.mod_lt _ (by omega))

theorem natDigits_digits (n : Nat) : ∀ c ∈ natDigits n, isDigitCh c = true :=
  natDigitsAux_digits n n

theorem natDigits_ne_nil (n : Nat) : natDigits n ≠ [] := by
  rw [natDigits_eq]
  by_cases h : n < 10
  · simp [h]
  · simp [h]

theorem wordChar_of_digit (c : Char) (h : isDigitCh c = true) : wordChar c = true := by
  have h2 : '0' ≤ c ∧ c ≤ '9' := by simpa [isDigitCh] using h
  simp [wordChar, h2.1, h2.2]

theorem phChar_word (c : Char) (h : phChar c = true) : wordChar c = true := by
  simp only [phChar, Bool.or_eq_true, Bool.and_eq_true, decide_eq_true_eq, beq_iff_eq] at h
  rcases h with (h | h) | h
  · simp [wordChar, h]
  · simp [wordChar, h.1, h.2]
  · exact wordChar_of_digit c h

theorem digitChar_inj (m k : Nat) (hm : m < 10) (hk : k < 10)
    (h : digitChar m = digitChar k) : m = k := by
  interval_cases m <;> interval_cases k <;> revert h <;> decide

theorem natDigits_inj_aux (f : Nat) : ∀ m k, m ≤ f → k ≤ f →
    natDigits m = natDigits k → m = k := by
  induction f with
  | zero =>
    intro m k hm hk _
    omega
  | succ f ih =>
    intro m k hm hk h
    rw [natDigits_eq m, natDigits_eq k] at h
    by_cases h1 : m < 10 <;> by_cases h2 : k < 10
    · rw [if_pos h1, if_pos h2] at h
      exact digitChar_inj m k h1 h2 (List.singleton_injective h)
    · rw [if_pos h1, if_neg h2] at h
      have hlen := congrArg List.length h
      have hpos : 0 < (natDigits (k / 10)).length :=
        List.length_pos.mpr (natDigits_ne_nil _)
      simp only [List.length_singleton, List.length_append] at hlen
      omega
    · rw [if_neg h1, if_pos h2] at h
      have hlen := congrArg List.length h
      have hpos : 0 < (natDigits (m / 10)).length :=
        List.length_pos.mpr (natDigits_ne_nil _)
      simp only [List.length_singleton, List.length_append] at hlen
      omega
    · rw [if_neg h1, if_neg h2] at h
      obtain ⟨ha, hb⟩ := List.append_inj' h rfl
      have e1 : m / 10 = k / 10 :=
        ih _ _ (by omega) (by omega) ha
      have e2 : m % 10 = k % 10 :=
        digitChar_inj _ _ (Nat.mod_lt _ (by omega)) (Nat.mod_lt _ (by omega))
          (List.singleton_injective hb)
      omega

theorem natDigits_inj (m k : Nat) (h : natDigits m = natDigits k) : m = k :=
  natDigits_inj_aux (m + k) m k (by omega) (by omega) h

theorem placeholderStr_eq (k : Nat) :
    placeholderStr k = '_' :: '_' :: 'T' :: 'E' :: 'R' :: 'M' :: '_' :: 'P' :: 'L' ::
      'A' :: 'C' :: 'E' :: 'H' :: 'O' :: 'L' :: 'D' :: 'E' :: 'R' :: '_' ::
      (natDigits k ++ ['_', '_']) := by
  show str "__TERM_PLACEHOLDER_" ++ natDigits k ++ str "__" = _
  rw [show str "__TERM_PLACEHOLDER_" =
      ['_', '_', 'T', 'E', 'R', 'M', '_', 'P', 'L', 'A', 'C', 'E', 'H', 'O', 'L',
       'D', 'E', 'R', '_'] from by decide,
    show str "__" = ['_', '_'] from by decide]
  simp

theorem placeholderStr_chars (k : Nat) : ∀ c ∈ placeholderStr k, phChar c = true := by
  rw [placeholderStr_eq]
  intro c hc
  simp only [List.mem_cons, List.mem_append] at hc
  rcases hc with h | h | h | h | h | h | h | h | h | h | h | h | h | h | h | h | h | h | h | h
  all_goals first
  | (subst h; decide)
  | (rcases h with h | h
     · simp only [phChar, natDigits_digits k c h, Bool.or_true]
     · simp only [List.mem_cons, List.not_mem_nil, or_false] at h
       rcases h with h | h <;> (subst h; decide))

theorem placeholderStr_word (k : Nat) : ∀ c ∈ placeholderStr k, wordChar c = true :=
  fun c hc => phChar_word c (placeholderStr_chars k c hc)

theorem placeholderStr_ne_nil (k : Nat) : placeholderStr k ≠ [] := by
  rw [placeholderStr_eq]
  exact List.cons_ne_nil _ _

theorem placeholderStr_length (k : Nat) : 22 ≤ (placeholderStr k).length := by
  rw [placeholderStr_eq]
  have : 0 < (natDigits k).length := List.length_pos.mpr (natDigits_ne_nil _)
  simp only [List.length_cons, List.length_append]
  omega

theorem mu_in_ph (k : Nat) :
    hasSub (str "TERM_PLACEHOLDER") (placeholderStr k) = true := by
  apply (hasSub_iff _ _).mpr
  refine ⟨['_', '_'], '_' :: (natDigits k ++ ['_', '_']), ?_⟩
  rw [placeholderStr_eq,
    show str "TERM_PLACEHOLDER" =
      ['T', 'E', 'R', 'M', '_', 'P', 'L', 'A', 'C', 'E', 'H', 'O', 'L', 'D', 'E', 'R']
      from by decide]
  simp

theorem lowStr_mu : lowStr (str "TERM_PLACEHOLDER") = str "term_placeholder" := by decide

theorem lowStr_ph_has (k : Nat) :
    hasSub (str "term_placeholder") (lowStr (placeholderStr k)) = true := by
  have h := hasSub_lowStr _ _ (mu_in_ph k)
  rwa [lowStr_mu] at h

theorem digits_prefix (dk : Str) : ∀ (dj w t : Str),
    (∀ c ∈ dk, isDigitCh c = true) → (∀ c ∈ dj, isDigitCh c = true) →
    dk ++ '_' :: w = dj ++ '_' :: t → dk = dj := by
  induction dk with
  | nil =>
    intro dj w t _ hdj h
    cases dj with
    | nil => rfl
    | cons b dj2 =>
      rw [List.nil_append, List.cons_append] at h
      injection h with h1 _
      have := hdj b (List.mem_cons_self _ _)
      rw [← h1] at this
      exact absurd this (by decide)
  | cons a dk2 ih =>
    intro dj w t hdk hdj h
    cases dj with
    | nil =>
      rw [List.nil_append, List.cons_append] at h
      injection h with h1 _
      have := hdk a (List.mem_cons_self _ _)
      rw [h1] at this
      exact absurd this (by decide)
    | cons b dj2 =>
      rw [List.cons_append, List.cons_append] at h
      injection h with h1 h2
      rw [h1, ih dj2 w t (fun c hc => hdk c (List.mem_cons_of_mem _ hc))
        (fun c hc => hdj c (List.mem_cons_of_mem _ hc)) h2]

theorem placeholderStr_prefix (k j : Nat) (t₁ t₂ : Str)
    (h : placeholderStr k ++ t₁ = placeholderStr j ++ t₂) : k = j := by
  rw [placeholderStr_eq, placeholderStr_eq] at h
  simp only [List.cons_append, List.cons.injEq, true_and] at h
  rw [List.append_assoc, List.append_assoc] at h
  exact natDigits_inj k j
    ( digits_prefix _ _ _ _ (natDigits_digits k) (natDigits_digits j)
      (by simpa using h))

theorem ph_T_pos (j : Nat) (u w : Str) (h : placeholderStr j = u ++ 'T' :: w) :
    u = ['_', '_'] := by
  rw [placeholderStr_eq] at h
  cases u with
  | nil => rw [List.nil_append] at h; injection h with h1 _; exact absurd h1 (by decide)
  | cons a u1 =>
    rw [List.cons_append] at h
    injection h with h1 h2
    cases u1 with
    | nil => rw [List.nil_append] at h2; injection h2 with h3 _; exact absurd h3 (by decide)
    | cons b u2 =>
      rw [List.cons_append] at h2
      injection h2 with h3 h4
      cases u2 with
      | nil => rw [← h1, ← h3]
      | cons c u3 =>
        rw [List.cons_append] at h4
        injection h4 with h5 h6
        exfalso
        have hT : 'T' ∈ ('E' :: 'R' :: 'M' :: '_' :: 'P' :: 'L' :: 'A' :: 'C' :: 'E' ::
            'H' :: 'O' :: 'L' :: 'D' :: 'E' :: 'R' :: '_' :: (natDigits j ++ ['_', '_'])) := by
          rw [h6]
          exact List.mem_append_right _ (List.mem_cons_self _ _)
        simp only [List.mem_cons, List.mem_append] at hT
        rcases hT with h | h | h | h | h | h | h | h | h | h | h | h | h | h | h | h | h
        all_goals first
        | exact absurd h (by decide)
        | (rcases h with h | h
           · exact absurd (natDigits_digits j 'T' h) (by decide)
           · simp only [List.mem_cons, List.not_mem_nil, or_false] at h
             rcases h with h | h <;> exact absurd h (by decide))

/-! ### Render and erase homomorphisms -/

theorem renderL_append (A B : List HItem) :
    renderL (A ++ B) = renderL A ++ renderL B := by
  induction A with
  | nil => rfl
  | cons it rest ih =>
    cases it with
    | hch c => simp [renderL, ih]
    | htok k t m => simp [renderL, ih]

theorem resolveIdeal_append (A B : List HItem) :
    resolveIdeal (A ++ B) = resolveIdeal A ++ resolveIdeal B := by
  induction A with
  | nil => rfl
  | cons it rest ih =>
    cases it with
    | hch c => simp [resolveIdeal, ih]
    | htok k t m => simp [resolveIdeal, ih]

theorem eraseIdeal_append (A B : List HItem) :
    eraseIdeal (A ++ B) = eraseIdeal A ++ eraseIdeal B := by
  induction A with
  | nil => rfl
  | cons it rest ih =>
    cases it with
    | hch c => simp [eraseIdeal, ih]
    | htok k t m => simp [eraseIdeal, ih]

theorem renderUpTo_append (j : Nat) (A B : List HItem) :
    renderUpTo j (A ++ B) = renderUpTo j A ++ renderUpTo j B := by
  induction A with
  | nil => rfl
  | cons it rest ih =>
    cases it with
    | hch c => simp [renderUpTo, ih]
    | htok k t m => simp [renderUpTo, ih]

theorem tokIdxs_append (A B : List HItem) :
    tokIdxs (A ++ B) = tokIdxs A ++ tokIdxs B := by
  induction A with
  | nil => rfl
  | cons it rest ih =>
    cases it with
    | hch c => simp [tokIdxs, ih]
    | htok k t m => simp [tokIdxs, ih]

theorem renderUpTo_zero (items : List HItem) : renderUpTo 0 items = renderL items := by
  induction items with
  | nil => rfl
  | cons it rest ih =>
    cases it with
    | hch c => simp [renderUpTo, renderL, ih]
    | htok k t m => simp [renderUpTo, renderL, ih]

theorem renderUpTo_big (j : Nat) (items : List HItem)
    (h : ∀ k ∈ tokIdxs items, k < j) : renderUpTo j items = resolveIdeal items := by
  induction items with
  | nil => rfl
  | cons it rest ih =>
    cases it with
    | hch c =>
      simp only [tokIdxs] at h
      simp [renderUpTo, resolveIdeal, ih h]
    | htok k t m =>
      simp only [tokIdxs, List.mem_cons] at h
      have hk : k < j := h k (Or.inl rfl)
      simp [renderUpTo, resolveIdeal, hk, ih (fun a ha => h a (Or.inr ha))]

theorem renderUpTo_succ_ne (j : Nat) (items : List HItem) (h : j ∉ tokIdxs items) :
    renderUpTo (j + 1) items = renderUpTo j items := by
  induction items with
  | nil => rfl
  | cons it rest ih =>
    cases it with
    | hch c =>
      simp only [tokIdxs] at h
      simp [renderUpTo, ih h]
    | htok k t m =>
      simp only [tokIdxs, List.mem_cons, not_or] at h
      by_cases hkj : k < j
      · have h1 : k < j + 1 := by omega
        simp [renderUpTo, hkj, h1, ih h.2]
      · have h1 : ¬ k < j + 1 := by
          have := h.1
          omega
        simp [renderUpTo, hkj, h1, ih h.2]

/-! ### Segment view of a partially resolved item list -/

/-- One segment of the pass-2 working string: a maximal run of plain
characters, an unresolved placeholder, or an already resolved marker. -/
inductive BSeg where
  | runB (ds : Str)
  | tokB (k : Nat) (tid : Str) (m : Str)
  | btnB (tid : Str) (m : Str)
  deriving DecidableEq, Repr

/-- Rendered text of one segment. -/
def segR : BSeg → Str
  | BSeg.runB ds => ds
  | BSeg.tokB k _ _ => placeholderStr k
  | BSeg.btnB t m => buttonHtml t m

/-- Rendered text of a segment list. -/
def segsR : List BSeg → Str
  | [] => []
  | s :: rest => segR s ++ segsR rest

/-- Covered source text of one segment. -/
def segE : BSeg → Str
  | BSeg.runB ds => ds
  | BSeg.tokB _ _ m => m
  | BSeg.btnB _ m => m

/-- Covered source text of a segment list. -/
def segsE : List BSeg → Str
  | [] => []
  | s :: rest => segE s ++ segsE rest

/-- Segment view of an item list when claims below `j` are resolved. -/
def toSegs (j : Nat) : List HItem → List BSeg
  | [] => []
  | HItem.hch c :: rest =>
    match toSegs j rest with
    | BSeg.runB ds :: segs => BSeg.runB (c :: ds) :: segs
    | segs => BSeg.runB [c] :: segs
  | HItem.htok k t m :: rest =>
    (if k < j then BSeg.btnB t m else BSeg.tokB k t m) :: toSegs j rest

/-- No two adjacent plain runs (runs are maximal). -/
def noRR : List BSeg → Bool
  | BSeg.runB _ :: BSeg.runB _ :: _ => false
  | _ :: rest => noRR rest
  | [] => true

theorem segsR_append (L R : List BSeg) : segsR (L ++ R) = segsR L ++ segsR R := by
  induction L with
  | nil => rfl
  | cons s rest ih => simp [segsR, ih]

theorem segsE_append (L R : List BSeg) : segsE (L ++ R) = segsE L ++ segsE R := by
  induction L with
  | nil => rfl
  | cons s rest ih => simp [segsE, ih]

theorem segsR_toSegs (j : Nat) (items : List HItem) :
    segsR (toSegs j items) = renderUpTo j items := by
  induction items with
  | nil => rfl
  | cons it rest ih =>
    cases it with
    | hch c =>
      cases h : toSegs j rest with
      | nil =>
        rw [h] at ih
        simp [toSegs, h, segsR, segR, renderUpTo, ← ih, segsR]
      | cons s segs =>
        cases s with
        | runB ds =>
          rw [h] at ih
          simp only [segsR, segR] at ih
          simp [toSegs, h, segsR, segR, renderUpTo, ← ih]
        | tokB k t m =>
          rw [h] at ih
          simp [toSegs, h, segsR, segR, renderUpTo, ← ih]
        | btnB t m =>
          rw [h] at ih
          simp [toSegs, h, segsR, segR, renderUpTo, ← ih]
    | htok k t m =>
      by_cases hk : k < j
      · simp [toSegs, hk, segsR, segR, renderUpTo, ih]
      · simp [toSegs, hk, segsR, segR, renderUpTo, ih]

theorem segsE_toSegs (j : Nat) (items : List HItem) :
    segsE (toSegs j items) = eraseIdeal items := by
  induction items with
  | nil => rfl
  | cons it rest ih =>
    cases it with
    | hch c =>
      cases h : toSegs j rest with
      | nil =>
        rw [h] at ih
        simp [toSegs, h, segsE, segE, eraseIdeal, ← ih, segsE]
      | cons s segs =>
        cases s with
        | runB ds =>
          rw [h] at ih
          simp only [segsE, segE] at ih
          simp [toSegs, h, segsE, segE, eraseIdeal, ← ih]
        | tokB k t m =>
          rw [h] at ih
          simp [toSegs, h, segsE, segE, eraseIdeal, ← ih]
        | btnB t m =>
          rw [h] at ih
          simp [toSegs, h, segsE, segE, eraseIdeal, ← ih]
    | htok k t m =>
      by_cases hk : k < j
      · simp [toSegs, hk, segsE, segE, eraseIdeal, ih]
      · simp [toSegs, hk, segsE, segE, eraseIdeal, ih]

theorem noRR_toSegs (j : Nat) (items : List HItem) : noRR (toSegs j items) = true := by
  induction items with
  | nil => rfl
  | cons it rest ih =>
    cases it with
    | hch c =>
      cases h : toSegs j rest with
      | nil => simp [toSegs, h, noRR]
      | cons s segs =>
        rw [h] at ih
        cases s with
        | runB ds =>
          cases segs with
          | nil => simp [toSegs, h, noRR]
          | cons s2 segs2 =>
            cases s2 with
            | runB e => simp [noRR] at ih
            | tokB k t m => simp only [toSegs, h]; simpa [noRR] using ih
            | btnB t m => simp only [toSegs, h]; simpa [noRR] using ih
        | tokB k t m => simp only [toSegs, h]; simpa [noRR] using ih
        | btnB t m => simp only [toSegs, h]; simpa [noRR] using ih
    | htok k t m =>
      by_cases hk : k < j
      · simp only [toSegs, if_pos hk]
        simpa [noRR] using ih
      · simp only [toSegs, if_neg hk]
        simpa [noRR] using ih

theorem toSegs_hch_mem (j : Nat) (c : Char) (rest : List HItem) (s : BSeg)
    (hs : ∀ ds, s ≠ BSeg.runB ds) :
    s ∈ toSegs j (HItem.hch c :: rest) ↔ s ∈ toSegs j rest := by
  cases h : toSegs j rest with
  | nil => simp [toSegs, h, hs]
  | cons s1 segs =>
    cases s1 with
    | runB ds => simp [toSegs, h, hs, List.mem_cons]
    | tokB k t m => simp [toSegs, h, hs, List.mem_cons]
    | btnB t m => simp [toSegs, h, hs, List.mem_cons]

theorem toSegs_tokB (j : Nat) (items : List HItem) (k : Nat) (t m : Str) :
    BSeg.tokB k t m ∈ toSegs j items ↔ HItem.htok k t m ∈ items ∧ ¬ k < j := by
  induction items with
  | nil => simp [toSegs]
  | cons it rest ih =>
    cases it with
    | hch c =>
      rw [toSegs_hch_mem j c rest _ (fun ds => by simp), ih]
      simp
    | htok k2 t2 m2 =>
      by_cases hk2 : k2 < j
      · simp only [toSegs, if_pos hk2]
        constructor
        · intro hmem
          have hm2 : BSeg.tokB k t m ∈ toSegs j rest := by
            rcases List.mem_cons.mp hmem with heq | hmem2
            · exact absurd heq (by simp)
            · exact hmem2
          obtain ⟨hr, hnk⟩ := ih.mp hm2
          exact ⟨List.mem_cons_of_mem _ hr, hnk⟩
        · rintro ⟨hmem, hnk⟩
          rcases List.mem_cons.mp hmem with heq | hmem2
          · injection heq with e1 e2 e3
            exact absurd (e1 ▸ hk2) hnk
          · exact List.mem_cons_of_mem _ (ih.mpr ⟨hmem2, hnk⟩)
      · simp only [toSegs, if_neg hk2]
        constructor
        · intro hmem
          rcases List.mem_cons.mp hmem with heq | hmem2
          · injection heq with e1 e2 e3
            subst e1; subst e2; subst e3
            exact ⟨List.mem_cons_self _ _, hk2⟩
          · obtain ⟨hr, hnk⟩ := ih.mp hmem2
            exact ⟨List.mem_cons_of_mem _ hr, hnk⟩
        · rintro ⟨hmem, hnk⟩
          rcases List.mem_cons.mp hmem with heq | hmem2
          · injection heq with e1 e2 e3
            subst e1; subst e2; subst e3
            exact List.mem_cons_self _ _
          · exact List.mem_cons_of_mem _ (ih.mpr ⟨hmem2, hnk⟩)

theorem toSegs_btnB (j : Nat) (items : List HItem) (t m : Str) :
    BSeg.btnB t m ∈ toSegs j items ↔ ∃ k, HItem.htok k t m ∈ items ∧ k < j := by
  induction items with
  | nil => simp [toSegs]
  | cons it rest ih =>
    cases it with
    | hch c =>
      rw [toSegs_hch_mem j c rest _ (fun ds => by simp), ih]
      simp
    | htok k2 t2 m2 =>
      by_cases hk2 : k2 < j
      · simp only [toSegs, if_pos hk2]
        constructor
        · intro hmem
          rcases List.mem_cons.mp hmem with heq | hmem2
          · injection heq with e1 e2
            subst e1; subst e2
            exact ⟨k2, List.mem_cons_self _ _, hk2⟩
          · obtain ⟨k0, hr, hk0⟩ := ih.mp hmem2
            exact ⟨k0, List.mem_cons_of_mem _ hr, hk0⟩
        · rintro ⟨k0, hmem, hk0⟩
          rcases List.mem_cons.mp hmem with heq | hmem2
          · injection heq with e1 e2 e3
            subst e2; subst e3
            exact List.mem_cons_self _ _
          · exact List.mem_cons_of_mem _ (ih.mpr ⟨k0, hmem2, hk0⟩)
      · simp only [toSegs, if_neg hk2]
        constructor
        · intro hmem
          have hm2 : BSeg.btnB t m ∈ toSegs j rest := by
            rcases List.mem_cons.mp hmem with heq | hmem2
            · exact absurd heq (by simp)
            · exact hmem2
          obtain ⟨k0, hr, hk0⟩ := ih.mp hm2
          exact ⟨k0, List.mem_cons_of_mem _ hr, hk0⟩
        · rintro ⟨k0, hmem, hk0⟩
          rcases List.mem_cons.mp hmem with heq | hmem2
          · injection heq with e1 e2 e3
            subst e1
            exact absurd hk0 hk2
          · exact List.mem_cons_of_mem _ (ih.mpr ⟨k0, hmem2, hk0⟩)

theorem toSegs_runB (j : Nat) (items : List HItem) (ds : Str)
    (h : BSeg.runB ds ∈ toSegs j items) :
    ∃ u v, eraseIdeal items = u ++ ds ++ v := by
  obtain ⟨L, R, hLR⟩ := List.append_of_mem h
  have he := segsE_toSegs j items
  rw [hLR, segsE_append] at he
  refine ⟨segsE L, segsE R, ?_⟩
  rw [← he]
  simp [segsE, segE, List.append_assoc]

/-! ### Occurrence refutation helpers -/

/-- Characters of the marker text `TERM_PLACEHOLDER`. -/
def muChar (c : Char) : Bool := c == '_' || ('A' ≤ c && c ≤ 'Z')

theorem noRR_tail (s : BSeg) (rest : List BSeg) (h : noRR (s :: rest) = true) :
    noRR rest = true := by
  cases s with
  | runB ds =>
    cases rest with
    | nil => rfl
    | cons s2 segs2 =>
      cases s2 with
      | runB es => simp [noRR] at h
      | tokB k t m => simpa [noRR] using h
      | btnB t m => simpa [noRR] using h
  | tokB k t m => simpa [noRR] using h
  | btnB t m => simpa [noRR] using h

theorem noRR_head (ds : Str) (rest : List BSeg)
    (h : noRR (BSeg.runB ds :: rest) = true) :
    ∀ es segs2, rest ≠ BSeg.runB es :: segs2 := by
  intro es segs2 he
  rw [he] at h
  simp [noRR] at h

theorem hasSub_cons_of (p : Str) (c : Char) (s : Str) (h : hasSub p s = true) :
    hasSub p (c :: s) = true := by
  simp [hasSub, h]

theorem hasSub_no_mu (P p : Str) (hP : ∀ c ∈ P, muChar c = false) (hp : p ≠ [])
    (hmu : ∀ c ∈ p, muChar c = true) : hasSub p P = false := by
  cases hocc : hasSub p P with
  | false => rfl
  | true =>
    exfalso
    obtain ⟨u, v, huv⟩ := (hasSub_iff p P).mp hocc
    cases p with
    | nil => exact hp rfl
    | cons c p2 =>
      have hc : c ∈ P := by
        rw [huv]
        exact List.mem_append_left _ (List.mem_append_right _ (List.mem_cons_self _ _))
      have h1 := hP c hc
      have h2 := hmu c (List.mem_cons_self _ _)
      rw [h1] at h2
      exact Bool.false_ne_true h2

theorem clean_no_mu (E : Str)
    (hclean : hasSub (str "term_placeholder") (lowStr E) = false)
    (ds u v : Str) (hds : E = u ++ ds ++ v)
    (hmu : hasSub (str "TERM_PLACEHOLDER") ds = true) : False := by
  have h1 := hasSub_lowStr _ _ hmu
  rw [lowStr_mu] at h1
  have h2 : hasSub (str "term_placeholder") (lowStr E) = true := by
    rw [hds, lowStr_append, lowStr_append]
    exact hasSub_mono _ _ _ _ h1
  rw [hclean] at h2
  exact Bool.false_ne_true h2

theorem dropLast_ph (k : Nat) :
    (placeholderStr k).dropLast = '_' :: '_' :: 'T' :: 'E' :: 'R' :: 'M' :: '_' :: 'P' ::
      'L' :: 'A' :: 'C' :: 'E' :: 'H' :: 'O' :: 'L' :: 'D' :: 'E' :: 'R' :: '_' ::
      (natDigits k ++ ['_']) := by
  have h : placeholderStr k = ('_' :: '_' :: 'T' :: 'E' :: 'R' :: 'M' :: '_' :: 'P' ::
      'L' :: 'A' :: 'C' :: 'E' :: 'H' :: 'O' :: 'L' :: 'D' :: 'E' :: 'R' :: '_' ::
      (natDigits k ++ ['_'])) ++ ['_'] := by
    rw [placeholderStr_eq]
    simp
  rw [h, List.dropLast_concat]

theorem ph_drop_two (k : Nat) (n : Nat) (h1 : 1 ≤ n) (h2 : n ≤ 17) :
    ∃ c₁ c₂ w, (placeholderStr k).drop n = c₁ :: c₂ :: w ∧ ¬(c₁ = '_' ∧ c₂ = '_') ∧
      phChar c₁ = true := by
  rw [placeholderStr_eq]
  interval_cases n
  all_goals exact ⟨_, _, _, rfl, by decide, by decide⟩

theorem mu_in_drop (k : Nat) (n : Nat) (h1 : 1 ≤ n) (h2 : n ≤ 2) :
    ∃ w, (placeholderStr k).drop n = str "TERM_PLACEHOLDER" ++ w ∨
      (placeholderStr k).drop n = '_' :: (str "TERM_PLACEHOLDER" ++ w) := by
  rw [placeholderStr_eq,
    show str "TERM_PLACEHOLDER" =
      ['T', 'E', 'R', 'M', '_', 'P', 'L', 'A', 'C', 'E', 'H', 'O', 'L', 'D', 'E', 'R']
      from by decide]
  interval_cases n
  · exact ⟨'_' :: (natDigits k ++ ['_', '_']), Or.inr (by simp)⟩
  · exact ⟨'_' :: (natDigits k ++ ['_', '_']), Or.inl (by simp)⟩

theorem mu_hasSub_of_prefix (p w s : Str)
    (h : s = p ++ w ∨ s = '_' :: (p ++ w)) : hasSub p s = true := by
  rcases h with h | h
  · exact (hasSub_iff _ _).mpr ⟨[], w, by simpa using h⟩
  · exact (hasSub_iff _ _).mpr ⟨['_'], w, by simpa using h⟩

theorem mu_in_take (k : Nat) (n : Nat) (h : 18 ≤ n) :
    hasSub (str "TERM_PLACEHOLDER") ((placeholderStr k).take n) = true := by
  have hph : placeholderStr k =
      (['_', '_'] ++ str "TERM_PLACEHOLDER") ++ ('_' :: (natDigits k ++ ['_', '_'])) := by
    rw [placeholderStr_eq,
      show str "TERM_PLACEHOLDER" =
        ['T', 'E', 'R', 'M', '_', 'P', 'L', 'A', 'C', 'E', 'H', 'O', 'L', 'D', 'E', 'R']
        from by decide]
    simp
  have hlen : (['_', '_'] ++ str "TERM_PLACEHOLDER").length = 18 := by decide
  rw [hph, List.take_append_eq_append_take, List.take_of_length_le (by rw [hlen]; omega)]
  apply (hasSub_iff _ _).mpr
  exact ⟨['_', '_'],
    List.take (n - (['_', '_'] ++ str "TERM_PLACEHOLDER").length)
      ('_' :: (natDigits k ++ ['_', '_'])), by simp⟩

theorem buttonHtml_head (t m : Str) :
    buttonHtml t m = '<' ::
      (str "button class=\"term-highlight\" data-term-id=\"" ++ t ++ str "\">"
        ++ m ++ str "</button>") := by
  show str "<button class=\"term-highlight\" data-term-id=\"" ++ t ++ str "\">"
      ++ m ++ str "</button>" = _
  rw [show str "<button class=\"term-highlight\" data-term-id=\"" =
    '<' :: str "button class=\"term-highlight\" data-term-id=\"" from by decide]
  simp

theorem buttonHtml_last (t m : Str) : (buttonHtml t m).getLast? = some '>' := by
  show (str "<button class=\"term-highlight\" data-term-id=\"" ++ t ++ str "\">"
      ++ m ++ str "</button>").getLast? = _
  rw [List.getLast?_append, show (str "</button>").getLast? = some '>' from by decide]
  rfl

theorem span_no_mu_left (p p₁ p₂ P u : Str) (hp12 : p = p₁ ++ p₂) (h1 : p₁ ≠ [])
    (hmu : ∀ c ∈ p, muChar c = true) (hP : ∀ c ∈ P, muChar c = false)
    (hx : P = u ++ p₁) : False := by
  cases p₁ with
  | nil => exact h1 rfl
  | cons c p12 =>
    have hcP : c ∈ P := by
      rw [hx]
      exact List.mem_append_right _ (List.mem_cons_self _ _)
    have hcp : c ∈ p := by
      rw [hp12]
      exact List.mem_append_left _ (List.mem_cons_self _ _)
    have hf := hP c hcP
    rw [hmu c hcp] at hf
    exact absurd hf (by decide)

theorem span_no_mu_right (p p₁ p₂ Y v : Str) (b : Char) (Y2 : Str)
    (hp12 : p = p₁ ++ p₂) (h2 : p₂ ≠ [])
    (hmu : ∀ c ∈ p, muChar c = true) (hb : muChar b = false)
    (hy : Y = p₂ ++ v) (hY : Y = b :: Y2) : False := by
  cases p₂ with
  | nil => exact h2 rfl
  | cons c p22 =>
    rw [hY, List.cons_append] at hy
    injection hy with hbc _
    have hcp : c ∈ p := by
      rw [hp12]
      exact List.mem_append_right _ (List.mem_cons_self _ _)
    have hf := hmu c hcp
    rw [← hbc, hb] at hf
    exact absurd hf (by decide)

theorem mu_btn (t m : Str)
    (ht : hasSub (str "TERM_PLACEHOLDER") t = false)
    (hm : hasSub (str "TERM_PLACEHOLDER") m = false) :
    hasSub (str "TERM_PLACEHOLDER") (buttonHtml t m) = false := by
  have hmu : ∀ c ∈ str "TERM_PLACEHOLDER", muChar c = true := by decide
  have hne : str "TERM_PLACEHOLDER" ≠ [] := by decide
  have hbtn : buttonHtml t m =
      str "<button class=\"term-highlight\" data-term-id=\"" ++
        (t ++ (str "\">" ++ (m ++ str "</button>"))) := by
    show str "<button class=\"term-highlight\" data-term-id=\"" ++ t ++ str "\">"
        ++ m ++ str "</button>" = _
    simp [List.append_assoc]
  cases hocc : hasSub (str "TERM_PLACEHOLDER") (buttonHtml t m) with
  | false => rfl
  | true =>
    exfalso
    rw [hbtn] at hocc
    rcases hasSub_append_or _ _ _ hne hocc with h | h | ⟨p₁, p₂, u, v, hp12, h1, h2, hx, hy⟩
    · rw [hasSub_no_mu _ _ (by decide) hne hmu] at h
      exact absurd h (by decide)
    · rcases hasSub_append_or _ _ _ hne h with h3 | h3 | ⟨p₁, p₂, u, v, hp12, h1, h2, hx, hy⟩
      · rw [ht] at h3
        exact absurd h3 (by decide)
      · rcases hasSub_append_or _ _ _ hne h3 with h4 | h4 | ⟨p₁, p₂, u, v, hp12, h1, h2, hx, hy⟩
        · rw [hasSub_no_mu _ _ (by decide) hne hmu] at h4
          exact absurd h4 (by decide)
        · rcases hasSub_append_or _ _ _ hne h4 with h5 | h5 | ⟨p₁, p₂, u, v, hp12, h1, h2, hx, hy⟩
          · rw [hm] at h5
            exact absurd h5 (by decide)
          · rw [hasSub_no_mu _ _ (by decide) hne hmu] at h5
            exact absurd h5 (by decide)
          · exact span_no_mu_right _ p₁ p₂ _ v '<' (str "/button>") hp12 h2 hmu
              (by decide) hy (by decide)
        · exact span_no_mu_left _ p₁ p₂ _ u hp12 h1 hmu (by decide) hx
      · exact span_no_mu_right _ p₁ p₂ _ v '"' ('>' :: (m ++ str "</button>")) hp12 h2 hmu
          (by decide) hy
          (by rw [show str "\">" = ['\"', '>'] from by decide]; simp)
    · exact span_no_mu_left _ p₁ p₂ _ u hp12 h1 hmu (by decide) hx

theorem mu_in_drop2 (k n : Nat) (h1 : 1 ≤ n) (h2 : n ≤ 2) :
    ∃ pre w, (placeholderStr k).drop n = pre ++ (str "TERM_PLACEHOLDER" ++ w) ∧
      pre.length = 2 - n := by
  rw [placeholderStr_eq,
    show str "TERM_PLACEHOLDER" =
      ['T', 'E', 'R', 'M', '_', 'P', 'L', 'A', 'C', 'E', 'H', 'O', 'L', 'D', 'E', 'R']
      from by decide]
  interval_cases n
  · exact ⟨['_'], '_' :: (natDigits k ++ ['_', '_']), by simp, rfl⟩
  · exact ⟨[], '_' :: (natDigits k ++ ['_', '_']), by simp, rfl⟩

theorem mu_cover (k n : Nat) (ds w : Str) (hn1 : 1 ≤ n) (hn2 : n ≤ 2)
    (hlen : 18 ≤ n + ds.length)
    (hdw : (placeholderStr k).drop n = ds ++ w) :
    hasSub (str "TERM_PLACEHOLDER") ds = true := by
  obtain ⟨pre, wmu, hd2, hpre⟩ := mu_in_drop2 k n hn1 hn2
  rw [hd2] at hdw
  have h16 : (str "TERM_PLACEHOLDER").length = 16 := by decide
  have hdslen : 16 + pre.length ≤ ds.length := by omega
  rcases List.append_eq_append_iff.mp hdw with ⟨a, hda, hmw⟩ | ⟨c, hpc, hwc⟩
  · rcases List.append_eq_append_iff.mp hmw with ⟨x, hax, hwx⟩ | ⟨x, hMU, hwx⟩
    · apply (hasSub_iff _ _).mpr
      refine ⟨pre, x, ?_⟩
      rw [hda, hax, List.append_assoc]
    · have hlena : ds.length = pre.length + a.length := by rw [hda]; simp
      have hlx : (str "TERM_PLACEHOLDER").length = a.length + x.length := by
        rw [hMU]; simp
      have hx0 : x = [] := List.eq_nil_of_length_eq_zero (by omega)
      rw [hx0, List.append_nil] at hMU
      apply (hasSub_iff _ _).mpr
      refine ⟨pre, [], ?_⟩
      rw [hda, List.append_nil, ← hMU]
  · have : pre.length = ds.length + c.length := by rw [hpc]; simp
    omega

theorem noPre (k : Nat) (E : Str)
    (hclean : hasSub (str "term_placeholder") (lowStr E) = false) :
    ∀ (segs : List BSeg) (n : Nat) (prevRun : Bool),
    noRR segs = true →
    (∀ ds, BSeg.runB ds ∈ segs → ∃ u v, E = u ++ ds ++ v) →
    (prevRun = true → ∀ ds segs2, segs ≠ BSeg.runB ds :: segs2) →
    1 ≤ n → n ≤ 17 → (3 ≤ n → prevRun = true) →
    ∀ v, segsR segs ++ (placeholderStr k).dropLast ≠ (placeholderStr k).drop n ++ v := by
  intro segs
  induction segs with
  | nil =>
    intro n prevRun _ _ _ hn1 hn17 _ v heq
    obtain ⟨c₁, c₂, w, hdrop, hne, _⟩ := ph_drop_two k n hn1 hn17
    rw [dropLast_ph, hdrop] at heq
    simp only [segsR, List.nil_append, List.cons_append] at heq
    injection heq with e1 heq2
    injection heq2 with e2 _
    exact hne ⟨e1.symm, e2.symm⟩
  | cons s rest ih =>
    intro n prevRun hRR hruns halt hn1 hn17 h3n v heq
    simp only [segsR] at heq
    rw [List.append_assoc] at heq
    cases s with
    | btnB t m =>
      obtain ⟨c₁, c₂, w, hdrop, _, hph1⟩ := ph_drop_two k n hn1 hn17
      simp only [segR] at heq
      rw [buttonHtml_head, hdrop] at heq
      simp only [List.cons_append] at heq
      injection heq with e1 _
      rw [← e1] at hph1
      exact absurd hph1 (by decide)
    | tokB j t2 m2 =>
      obtain ⟨c₁, c₂, w, hdrop, hne, _⟩ := ph_drop_two k n hn1 hn17
      simp only [segR] at heq
      rw [placeholderStr_eq j, hdrop] at heq
      simp only [List.cons_append] at heq
      injection heq with e1 heq2
      injection heq2 with e2 _
      exact hne ⟨e1.symm, e2.symm⟩
    | runB ds =>
      have hpf : prevRun = false := by
        cases hpr : prevRun with
        | false => rfl
        | true => exact absurd rfl (halt hpr ds rest)
      have hn2 : n ≤ 2 := by
        by_contra hc
        have h3 := h3n (by omega)
        rw [hpf] at h3
        exact Bool.false_ne_true h3
      simp only [segR] at heq
      rcases List.append_eq_append_iff.mp heq with ⟨w, hdw, hX⟩ | ⟨w, hds, hv⟩
      · cases w with
        | nil =>
          rw [List.append_nil] at hdw
          have hlen18 : 18 ≤ n + ds.length := by
            have hL := placeholderStr_length k
            have : (placeholderStr k).length - n = ds.length := by
              rw [← hdw]
              exact (List.length_drop n _).symm
            omega
          have hsub := mu_cover k n ds [] hn1 hn2 hlen18 (by rw [hdw, List.append_nil])
          obtain ⟨u0, v0, hE⟩ := hruns ds (List.mem_cons_self _ _)
          exact clean_no_mu E hclean ds u0 v0 hE hsub
        | cons w0 w2 =>
          by_cases h18 : 18 ≤ n + ds.length
          · have hsub := mu_cover k n ds (w0 :: w2) hn1 hn2 h18 hdw
            obtain ⟨u0, v0, hE⟩ := hruns ds (List.mem_cons_self _ _)
            exact clean_no_mu E hclean ds u0 v0 hE hsub
          · have hw : w0 :: w2 = (placeholderStr k).drop (n + ds.length) := by
              have h1 : ((placeholderStr k).drop n).drop ds.length = w0 :: w2 := by
                rw [hdw, List.drop_left]
              rw [List.drop_drop] at h1
              rw [← h1, Nat.add_comm]
            apply ih (n + ds.length) true (noRR_tail _ _ hRR)
              (fun es hes => hruns es (List.mem_cons_of_mem _ hes))
              (fun _ => noRR_head ds rest hRR)
              (by omega) (by omega) (fun _ => rfl) v
            rw [hX, hw]
      · have hsub : hasSub (str "TERM_PLACEHOLDER") ds = true := by
          obtain ⟨pre, wmu, hd2, _⟩ := mu_in_drop2 k n hn1 hn2
          rw [hds, hd2]
          apply (hasSub_iff _ _).mpr
          exact ⟨pre, wmu ++ w, by simp⟩
        obtain ⟨u0, v0, hE⟩ := hruns ds (List.mem_cons_self _ _)
        exact clean_no_mu E hclean ds u0 v0 hE hsub

theorem take_add_three (n : Nat) (a b c : Char) (l : Str) :
    List.take (n + 3) (a :: b :: c :: l) = a :: b :: c :: List.take n l := rfl

theorem noPh_main (k : Nat) (E : Str)
    (hclean : hasSub (str "term_placeholder") (lowStr E) = false) :
    ∀ (segs : List BSeg),
    noRR segs = true →
    (∀ ds, BSeg.runB ds ∈ segs → ∃ u v, E = u ++ ds ++ v) →
    (∀ t m, BSeg.btnB t m ∈ segs →
      (∃ u v, E = u ++ m ++ v) ∧ hasSub (str "term_placeholder") (lowStr t) = false) →
    (∀ j t m, BSeg.tokB j t m ∈ segs → j ≠ k) →
    ∀ u v, segsR segs ++ (placeholderStr k).dropLast ≠ u ++ placeholderStr k ++ v := by
  intro segs
  induction segs with
  | nil =>
    intro _ _ _ _ u v heq
    simp only [segsR, List.nil_append] at heq
    have h1 := congrArg List.length heq
    rw [List.length_dropLast] at h1
    simp only [List.length_append] at h1
    have hL := placeholderStr_length k
    omega
  | cons s rest ih =>
    intro hRR hruns hbtns htoks u v heq
    simp only [segsR] at heq
    rw [List.append_assoc] at heq
    rcases append_cases (segR s) (segsR rest ++ (placeholderStr k).dropLast) u
        (placeholderStr k) v heq with
      ⟨w, hu, hy⟩ | ⟨w, hx, hv⟩ | ⟨p₁, p₂, hp12, h1, h2, hx, hy⟩
    · exact ih (noRR_tail _ _ hRR)
        (fun ds hds => hruns ds (List.mem_cons_of_mem _ hds))
        (fun t m htm => hbtns t m (List.mem_cons_of_mem _ htm))
        (fun j t m hjm => htoks j t m (List.mem_cons_of_mem _ hjm))
        w v hy
    · cases s with
      | runB ds =>
        have hsub : hasSub (str "TERM_PLACEHOLDER") ds = true := by
          have hph : hasSub (placeholderStr k) ds = true :=
            (hasSub_iff _ _).mpr ⟨u, w, by simpa [segR] using hx⟩
          exact hasSub_trans _ _ _ (mu_in_ph k) hph
        obtain ⟨u0, v0, hE⟩ := hruns ds (List.mem_cons_self _ _)
        exact clean_no_mu E hclean ds u0 v0 hE hsub
      | tokB j t2 m2 =>
        simp only [segR] at hx
        have hx2 : placeholderStr j = (u ++ ['_', '_']) ++ 'T' ::
            (('E' :: 'R' :: 'M' :: '_' :: 'P' :: 'L' :: 'A' :: 'C' :: 'E' :: 'H' :: 'O' ::
              'L' :: 'D' :: 'E' :: 'R' :: '_' :: (natDigits k ++ ['_', '_'])) ++ w) := by
          rw [hx, placeholderStr_eq k]
          simp
        have hT := ph_T_pos j _ _ hx2
        have hu0 : u = [] := List.append_left_eq_self.mp hT
        subst hu0
        rw [List.nil_append] at hx
        have hkj : k = j := placeholderStr_prefix k j w []
          (by rw [List.append_nil, hx])
        exact htoks j t2 m2 (List.mem_cons_self _ _) hkj.symm
      | btnB t2 m2 =>
        obtain ⟨hm2E, ht2clean⟩ := hbtns t2 m2 (List.mem_cons_self _ _)
        have hmu_m : hasSub (str "TERM_PLACEHOLDER") m2 = false := by
          cases hc : hasSub (str "TERM_PLACEHOLDER") m2 with
          | false => rfl
          | true =>
            exfalso
            obtain ⟨u0, v0, hE⟩ := hm2E
            exact clean_no_mu E hclean m2 u0 v0 hE hc
        have hmu_t : hasSub (str "TERM_PLACEHOLDER") t2 = false := by
          cases hc : hasSub (str "TERM_PLACEHOLDER") t2 with
          | false => rfl
          | true =>
            exfalso
            have hl := hasSub_lowStr _ _ hc
            rw [lowStr_mu, ht2clean] at hl
            exact Bool.false_ne_true hl
        have hin : hasSub (str "TERM_PLACEHOLDER") (buttonHtml t2 m2) = true := by
          have hph : hasSub (placeholderStr k) (buttonHtml t2 m2) = true :=
            (hasSub_iff _ _).mpr ⟨u, w, by simpa [segR] using hx⟩
          exact hasSub_trans _ _ _ (mu_in_ph k) hph
        rw [mu_btn t2 m2 hmu_t hmu_m] at hin
        exact Bool.false_ne_true hin
    · have hp1take : p₁ = (placeholderStr k).take p₁.length := by
        rw [hp12, List.take_left]
      have hp2drop : p₂ = (placeholderStr k).drop p₁.length := by
        rw [hp12, List.drop_left]
      have hL := placeholderStr_length k
      have hn1 : 1 ≤ p₁.length := List.length_pos.mpr h1
      have hnlt : p₁.length < (placeholderStr k).length := by
        have hlen : p₁.length + p₂.length = (placeholderStr k).length := by
          rw [hp12]
          simp
        have := List.length_pos.mpr h2
        omega
      cases s with
      | btnB t2 m2 =>
        simp only [segR] at hx
        obtain ⟨c, hgl⟩ : ∃ c, p₁.getLast? = some c := by
          cases hgl : p₁.getLast? with
          | some c => exact ⟨c, rfl⟩
          | none => exact absurd (List.getLast?_eq_none.mp hgl) h1
        have hb := buttonHtml_last t2 m2
        rw [hx, List.getLast?_append, hgl] at hb
        injection hb with hb2
        subst hb2
        have hmem : '>' ∈ p₁ := by
          apply List.mem_of_mem_getLast?
          simp [hgl]
        have hp1sub : '>' ∈ placeholderStr k := by
          rw [hp1take] at hmem
          exact List.take_subset _ _ hmem
        have hpc := placeholderStr_chars k '>' hp1sub
        exact absurd hpc (by decide)
      | tokB j t2 m2 =>
        by_cases h3 : 3 ≤ p₁.length
        · obtain ⟨n3, hn3⟩ : ∃ n3, p₁.length = n3 + 3 := ⟨p₁.length - 3, by omega⟩
          have hp1 : p₁ = '_' :: '_' :: 'T' ::
              List.take n3 ('E' :: 'R' :: 'M' :: '_' :: 'P' :: 'L' :: 'A' :: 'C' :: 'E' ::
                'H' :: 'O' :: 'L' :: 'D' :: 'E' :: 'R' :: '_' ::
                (natDigits k ++ ['_', '_'])) := by
            rw [hp1take, placeholderStr_eq, hn3, take_add_three]
          simp only [segR] at hx
          have hx2 : placeholderStr j = (u ++ ['_', '_']) ++ 'T' ::
              List.take n3 ('E' :: 'R' :: 'M' :: '_' :: 'P' :: 'L' :: 'A' :: 'C' :: 'E' ::
                'H' :: 'O' :: 'L' :: 'D' :: 'E' :: 'R' :: '_' ::
                (natDigits k ++ ['_', '_'])) := by
            rw [hx, hp1]
            simp
          have hT := ph_T_pos j _ _ hx2
          have hu0 : u = [] := List.append_left_eq_self.mp hT
          subst hu0
          rw [List.nil_append] at hx
          have hsplit := (List.take_append_drop p₁.length (placeholderStr k)).symm
          rw [← hp1take, ← hx] at hsplit
          have hkj : k = j := placeholderStr_prefix k j [] _
            (by rw [List.append_nil]; exact hsplit)
          exact htoks j t2 m2 (List.mem_cons_self _ _) hkj.symm
        · apply noPre k E hclean rest p₁.length false (noRR_tail _ _ hRR)
            (fun es hes => hruns es (List.mem_cons_of_mem _ hes))
            (fun hpr => absurd hpr Bool.false_ne_true)
            hn1 (by omega) (fun h3x => absurd h3x (by omega)) v
          rw [hy, hp2drop]
      | runB ds =>
        by_cases h18 : 18 ≤ p₁.length
        · have hsub : hasSub (str "TERM_PLACEHOLDER") ds = true := by
            have hmu1 : hasSub (str "TERM_PLACEHOLDER") p₁ = true := by
              rw [hp1take]
              exact mu_in_take k _ h18
            simp only [segR] at hx
            obtain ⟨a, b, hab⟩ := (hasSub_iff _ _).mp hmu1
            exact (hasSub_iff _ _).mpr ⟨u ++ a, b, by rw [hx, hab]; simp⟩
          obtain ⟨u0, v0, hE⟩ := hruns ds (List.mem_cons_self _ _)
          exact clean_no_mu E hclean ds u0 v0 hE hsub
        · apply noPre k E hclean rest p₁.length true (noRR_tail _ _ hRR)
            (fun es hes => hruns es (List.mem_cons_of_mem _ hes))
            (fun _ => noRR_head ds rest hRR)
            hn1 (by omega) (fun _ => rfl) v
          rw [hy, hp2drop]

/-! ### Resolution pass lemmas -/

theorem applyDollar_no_dollar_aux (n : Nat) : ∀ (r m b a : Str), r.length ≤ n →
    '$' ∉ r → applyDollar m b a r = r := by
  induction n with
  | zero =>
    intro r m b a hlen _
    rw [List.length_eq_zero.mp (Nat.le_zero.mp hlen)]
    rfl
  | succ n ih =>
    intro r m b a hlen hd
    cases r with
    | nil => rfl
    | cons c rest =>
      cases rest with
      | nil => rfl
      | cons d rest2 =>
        simp only [List.mem_cons, not_or] at hd
        have hc : ¬ c = '$' := fun he => hd.1 he.symm
        show (if c = '$' then _ else c :: applyDollar m b a (d :: rest2)) = _
        rw [if_neg hc]
        have htail : applyDollar m b a (d :: rest2) = d :: rest2 := by
          apply ih _ m b a (by simpa using Nat.le_of_succ_le_succ hlen)
          simp only [List.mem_cons, not_or]
          exact hd.2
        rw [htail]

theorem applyDollar_no_dollar (m b a r : Str) (h : '$' ∉ r) :
    applyDollar m b a r = r :=
  applyDollar_no_dollar_aux r.length r m b a (Nat.le_refl _) h

theorem starts_self_append (p t : Str) : starts p (p ++ t) = true :=
  (starts_iff _ _).mpr ⟨t, rfl⟩

theorem hasSub_of_starts (p s : Str) (h : starts p s = true) : hasSub p s = true := by
  cases s with
  | nil => exact h
  | cons c cs => simp [hasSub, h]

theorem starts_of_starts_append (p : Str) : ∀ (x y : Str), p.length ≤ x.length →
    starts p (x ++ y) = true → starts p x = true := by
  induction p with
  | nil => intro x y _ _; rfl
  | cons a ps ih =>
    intro x y hlen h
    cases x with
    | nil => simp at hlen
    | cons c cs =>
      rw [List.cons_append] at h
      simp only [starts, Bool.and_eq_true] at h ⊢
      exact ⟨h.1, ih cs y (by simpa using Nat.le_of_succ_le_succ hlen) h.2⟩

theorem replaceFirstAux_at (pat repl : Str) (hne : pat ≠ []) :
    ∀ (pre acc post : Str),
    hasSub pat (pre ++ pat.dropLast) = false →
    replaceFirstAux pat repl acc (pre ++ pat ++ post) =
      pre ++ applyDollar pat (acc.reverse ++ pre) post repl ++ post := by
  intro pre
  induction pre with
  | nil =>
    intro acc post h
    cases pat with
    | nil => exact absurd rfl hne
    | cons c pat2 =>
      simp only [List.nil_append, List.cons_append]
      show (if starts (c :: pat2) (c :: (pat2 ++ post)) then _ else _) = _
      rw [if_pos (by simpa using starts_self_append (c :: pat2) post)]
      have hdrop : (c :: (pat2 ++ post)).drop (c :: pat2).length = post := by
        have := List.drop_left (c :: pat2) post
        simpa using this
      rw [hdrop]
      simp
  | cons c pre2 ih =>
    intro acc post h
    rw [List.cons_append] at h
    have hsp : pat = pat.dropLast ++ [pat.getLast hne] :=
      (List.dropLast_append_getLast hne).symm
    have hns : starts pat (c :: (pre2 ++ pat ++ post)) = false := by
      cases hs : starts pat (c :: (pre2 ++ pat ++ post)) with
      | false => rfl
      | true =>
        exfalso
        have hre : c :: (pre2 ++ pat ++ post) =
            (c :: (pre2 ++ pat.dropLast)) ++ ([pat.getLast hne] ++ post) := by
          conv_lhs => rw [hsp]
          simp
        rw [hre] at hs
        have hst := starts_of_starts_append pat _ _
          (by
            simp only [List.length_cons, List.length_append, List.length_dropLast]
            have : 1 ≤ pat.length := List.length_pos.mpr hne
            omega) hs
        have hsub := hasSub_of_starts _ _ hst
        rw [show c :: (pre2 ++ pat.dropLast) = (c :: pre2) ++ pat.dropLast by simp] at hsub
        rw [List.cons_append] at hsub
        rw [hsub] at h
        exact Bool.true_eq_false.mp h
    have h2 : hasSub pat (pre2 ++ pat.dropLast) = false := by
      cases h2c : hasSub pat (pre2 ++ pat.dropLast) with
      | false => rfl
      | true =>
        rw [hasSub_cons_of _ c _ h2c] at h
        exact absurd h (by simp)
    rw [show (c :: pre2) ++ pat ++ post = c :: (pre2 ++ pat ++ post) by simp]
    show (if starts pat (c :: (pre2 ++ pat ++ post)) then _ else _) = _
    rw [if_neg (by rw [hns]; exact Bool.false_ne_true)]
    rw [ih (c :: acc) post h2]
    simp

theorem replaceFirstD_at (pat repl pre post : Str) (hne : pat ≠ [])
    (h : hasSub pat (pre ++ pat.dropLast) = false) :
    replaceFirstD pat repl (pre ++ pat ++ post) =
      pre ++ applyDollar pat pre post repl ++ post := by
  have hx := replaceFirstAux_at pat repl hne pre [] post h
  simpa [replaceFirstD] using hx

theorem dollar_btn (t m : Str) (ht : '$' ∉ t) (hm : '$' ∉ m) :
    '$' ∉ buttonHtml t m := by
  intro hmem
  show False
  have : '$' ∈ str "<button class=\"term-highlight\" data-term-id=\"" ++ t ++ str "\">"
      ++ m ++ str "</button>" := hmem
  rcases List.mem_append.mp this with h1 | h1
  · rcases List.mem_append.mp h1 with h2 | h2
    · rcases List.mem_append.mp h2 with h3 | h3
      · rcases List.mem_append.mp h3 with h4 | h4
        · exact absurd h4 (by decide)
        · exact ht h4
      · exact absurd h3 (by decide)
    · exact hm h2
  · exact absurd h1 (by decide)

theorem erase_of_tok_mem (items : List HItem) (k : Nat) (t m : Str)
    (h : HItem.htok k t m ∈ items) :
    ∃ u v, eraseIdeal items = u ++ m ++ v := by
  obtain ⟨A, B, hAB⟩ := List.append_of_mem h
  refine ⟨eraseIdeal A, eraseIdeal B, ?_⟩
  rw [hAB, eraseIdeal_append]
  simp [eraseIdeal, List.append_assoc]

theorem tok_mem_idxs (items : List HItem) (k : Nat) (t m : Str)
    (h : HItem.htok k t m ∈ items) : k ∈ tokIdxs items := by
  induction items with
  | nil => exact absurd h (List.not_mem_nil _)
  | cons it rest ih =>
    cases it with
    | hch c =>
      rcases List.mem_cons.mp h with heq | hmem
      · exact absurd heq (by simp)
      · exact ih hmem
    | htok k2 t2 m2 =>
      rcases List.mem_cons.mp h with heq | hmem
      · injection heq with e1 _ _
        simp [tokIdxs, e1]
      · simp [tokIdxs, ih hmem]

theorem pass2_step (items : List HItem) (j : Nat) (t m : Str)
    (hclean : hasSub (str "term_placeholder") (lowStr (eraseIdeal items)) = false)
    (htids : ∀ k2 t2 m2, HItem.htok k2 t2 m2 ∈ items →
      hasSub (str "term_placeholder") (lowStr t2) = false ∧ '$' ∉ t2 ∧ '$' ∉ m2)
    (hnodup : (tokIdxs items).Nodup)
    (hmem : HItem.htok j t m ∈ items) :
    replaceFirstD (placeholderStr j) (buttonHtml t m) (renderUpTo j items) =
      renderUpTo (j + 1) items := by
  obtain ⟨A, B, hAB⟩ := List.append_of_mem hmem
  subst hAB
  obtain ⟨htc, htd, hmd⟩ := htids j t m hmem
  rw [tokIdxs_append] at hnodup
  simp only [tokIdxs] at hnodup
  have hdisj := List.nodup_append.mp hnodup
  have hjA : j ∉ tokIdxs A := fun hj => hdisj.2.2 hj (List.mem_cons_self _ _)
  have hjB : j ∉ tokIdxs B := (List.nodup_cons.mp hdisj.2.1).1
  have hEfull : eraseIdeal (A ++ HItem.htok j t m :: B) =
      eraseIdeal A ++ (m ++ eraseIdeal B) := by
    rw [eraseIdeal_append]
    simp [eraseIdeal]
  have hr : renderUpTo j (A ++ HItem.htok j t m :: B) =
      renderUpTo j A ++ (placeholderStr j ++ renderUpTo j B) := by
    rw [renderUpTo_append]
    simp [renderUpTo]
  have hnocc : hasSub (placeholderStr j)
      (renderUpTo j A ++ (placeholderStr j).dropLast) = false := by
    cases hc : hasSub (placeholderStr j)
        (renderUpTo j A ++ (placeholderStr j).dropLast) with
    | false => rfl
    | true =>
      exfalso
      obtain ⟨u, v, huv⟩ := (hasSub_iff _ _).mp hc
      refine noPh_main j (eraseIdeal (A ++ HItem.htok j t m :: B)) hclean (toSegs j A)
        (noRR_toSegs j A) ?_ ?_ ?_ u v ?_
      · intro ds hds
        obtain ⟨u0, v0, h0⟩ := toSegs_runB j A ds hds
        refine ⟨u0, v0 ++ (m ++ eraseIdeal B), ?_⟩
        rw [hEfull, h0]
        simp [List.append_assoc]
      · intro t2 m2 ht2
        obtain ⟨k2, hk2mem, _⟩ := (toSegs_btnB j A t2 m2).mp ht2
        have hk2full : HItem.htok k2 t2 m2 ∈ A ++ HItem.htok j t m :: B :=
          List.mem_append_left _ hk2mem
        exact ⟨erase_of_tok_mem _ k2 t2 m2 hk2full, (htids k2 t2 m2 hk2full).1⟩
      · intro j2 t2 m2 hj2
        obtain ⟨hj2mem, _⟩ := (toSegs_tokB j A j2 t2 m2).mp hj2
        intro hej
        exact hjA (hej ▸ tok_mem_idxs A j2 t2 m2 hj2mem)
      · rw [segsR_toSegs]
        exact huv
  rw [hr, ← List.append_assoc]
  rw [replaceFirstD_at _ _ _ _ (placeholderStr_ne_nil j) hnocc]
  rw [applyDollar_no_dollar _ _ _ _ (dollar_btn t m htd hmd)]
  rw [renderUpTo_append, renderUpTo_succ_ne j A hjA]
  have hB : renderUpTo (j + 1) (HItem.htok j t m :: B) =
      buttonHtml t m ++ renderUpTo (j + 1) B := by
    simp [renderUpTo]
  rw [hB, renderUpTo_succ_ne j B hjB]
  simp [List.append_assoc]

theorem pass2_fold_aux (items : List HItem) (total : Nat)
    (hclean : hasSub (str "term_placeholder") (lowStr (eraseIdeal items)) = false)
    (htids : ∀ k2 t2 m2, HItem.htok k2 t2 m2 ∈ items →
      hasSub (str "term_placeholder") (lowStr t2) = false ∧ '$' ∉ t2 ∧ '$' ∉ m2)
    (hnodup : (tokIdxs items).Nodup)
    (hbound : ∀ k2 ∈ tokIdxs items, k2 < total)
    (phs : List (Str × Str × Str))
    (hphs : ∀ i, i < total → ∃ t2 m2, phs.get? i = some (placeholderStr i, t2, m2) ∧
      HItem.htok i t2 m2 ∈ items)
    (hlen : phs.length = total) :
    ∀ (d j : Nat), j + d = total →
    (phs.drop j).foldl (fun r e => replaceFirstD e.1 (buttonHtml e.2.1 e.2.2) r)
      (renderUpTo j items) = resolveIdeal items := by
  intro d
  induction d with
  | zero =>
    intro j hjd
    rw [List.drop_eq_nil_of_le (by omega)]
    simp only [List.foldl_nil]
    have hjt : j = total := by omega
    rw [hjt]
    exact renderUpTo_big total items hbound
  | succ d ih =>
    intro j hjd
    have hjt : j < total := by omega
    obtain ⟨t2, m2, hget, hmem⟩ := hphs j hjt
    have hjlen : j < phs.length := by omega
    have hdrop : phs.drop j = (placeholderStr j, t2, m2) :: phs.drop (j + 1) := by
      rw [List.drop_eq_getElem_cons hjlen]
      congr 1
      have h1 : phs[j]? = some (placeholderStr j, t2, m2) := by
        rw [← List.get?_eq_getElem?]
        exact hget
      have h2 := List.getElem?_eq_getElem hjlen
      rw [h1] at h2
      injection h2 with h3
      exact h3.symm
    rw [hdrop, List.foldl_cons]
    rw [pass2_step items j t2 m2 hclean htids hnodup hmem]
    exact ih (j + 1) (by omega)

theorem pass2_whole (items : List HItem) (total : Nat)
    (hclean : hasSub (str "term_placeholder") (lowStr (eraseIdeal items)) = false)
    (htids : ∀ k2 t2 m2, HItem.htok k2 t2 m2 ∈ items →
      hasSub (str "term_placeholder") (lowStr t2) = false ∧ '$' ∉ t2 ∧ '$' ∉ m2)
    (hnodup : (tokIdxs items).Nodup)
    (hbound : ∀ k2 ∈ tokIdxs items, k2 < total)
    (phs : List (Str × Str × Str))
    (hphs : ∀ i, i < total → ∃ t2 m2, phs.get? i = some (placeholderStr i, t2, m2) ∧
      HItem.htok i t2 m2 ∈ items)
    (hlen : phs.length = total) :
    phs.foldl (fun r e => replaceFirstD e.1 (buttonHtml e.2.1 e.2.2) r)
      (renderL items) = resolveIdeal items := by
  have h := pass2_fold_aux items total hclean htids hnodup hbound phs hphs hlen total 0
    (by omega)
  rw [List.drop_zero, renderUpTo_zero] at h
  exact h

/-! ### Scan pass lemmas -/

theorem takeChs_some (n : Nat) : ∀ (items : List HItem) (cs : Str) (rem : List HItem),
    takeChs n items = some (cs, rem) →
    items = cs.map HItem.hch ++ rem ∧ cs.length = n := by
  induction n with
  | zero =>
    intro items cs rem h
    simp only [takeChs] at h
    injection h with h1
    injection h1 with h2 h3
    subst h2
    subst h3
    exact ⟨rfl, rfl⟩
  | succ n ih =>
    intro items cs rem h
    cases items with
    | nil => simp [takeChs] at h
    | cons it rest =>
      cases it with
      | htok k t m => simp [takeChs] at h
      | hch c =>
        simp only [takeChs] at h
        cases htc : takeChs n rest with
        | none => rw [htc] at h; simp at h
        | some p =>
          rw [htc] at h
          obtain ⟨cs2, rem2⟩ := p
          simp only at h
          injection h with h1
          injection h1 with h2 h3
          subst h2
          subst h3
          obtain ⟨ha, hb⟩ := ih rest cs2 rem2 htc
          constructor
          · rw [List.map_cons, List.cons_append, ← ha]
          · simp [hb]

theorem takeChs_none (n : Nat) : ∀ (items : List HItem),
    takeChs n items = none →
    ∃ (ds : Str) (rem : List HItem), items = ds.map HItem.hch ++ rem ∧ ds.length < n ∧
      (rem = [] ∨ ∃ k t m rem2, rem = HItem.htok k t m :: rem2) := by
  induction n with
  | zero =>
    intro items h
    simp [takeChs] at h
  | succ n ih =>
    intro items h
    cases items with
    | nil => exact ⟨[], [], by simp, by simp only [List.length_nil]; omega, Or.inl rfl⟩
    | cons it rest =>
      cases it with
      | htok k t m =>
        exact ⟨[], _, by simp, by simp only [List.length_nil]; omega,
          Or.inr ⟨k, t, m, rest, rfl⟩⟩
      | hch c =>
        simp only [takeChs] at h
        cases htc : takeChs n rest with
        | some p => rw [htc] at h; simp at h
        | none =>
          obtain ⟨ds, rem, h1, h2, h3⟩ := ih rest htc
          exact ⟨c :: ds, rem, by simp [h1], by simpa using h2, h3⟩

theorem takeChs_cons_hch (n : Nat) (c : Char) (rest : List HItem) (cs : Str)
    (rem : List HItem) (h : takeChs (n + 1) (HItem.hch c :: rest) = some (cs, rem)) :
    ∃ cs2, cs = c :: cs2 ∧ takeChs n rest = some (cs2, rem) := by
  simp only [takeChs] at h
  cases htc : takeChs n rest with
  | none => rw [htc] at h; simp at h
  | some p =>
    rw [htc] at h
    obtain ⟨cs2, rem2⟩ := p
    simp only at h
    injection h with h1
    injection h1 with h2 h3
    subst h3
    exact ⟨cs2, h2.symm, rfl⟩

theorem scanFA_skip (tid term : Str) : ∀ (sk : Nat) (ds s : Str) (pw : Bool)
    (st : PHState), ds.length = sk →
    scanFA tid term sk pw (ds ++ s) st = scanFA tid term 0 pw s st := by
  intro sk
  induction sk with
  | zero =>
    intro ds s pw st hlen
    rw [List.length_eq_zero.mp hlen]
    rfl
  | succ sk ih =>
    intro ds s pw st hlen
    cases ds with
    | nil => simp at hlen
    | cons d ds2 =>
      rw [List.cons_append]
      show scanFA tid term (sk + 1) pw (d :: (ds2 ++ s)) st = _
      rw [show scanFA tid term (sk + 1) pw (d :: (ds2 ++ s)) st =
        scanFA tid term sk pw (ds2 ++ s) st from rfl]
      exact ih ds2 s pw st (by simpa using hlen)

theorem scanIA_skip (tid term : Str) : ∀ (sk : Nat) (items : List HItem) (ds : Str)
    (rem : List HItem) (pw : Bool) (ctr : Nat),
    takeChs sk items = some (ds, rem) →
    scanIA tid term sk pw items ctr = scanIA tid term 0 pw rem ctr := by
  intro sk
  induction sk with
  | zero =>
    intro items ds rem pw ctr h
    simp only [takeChs] at h
    injection h with h1
    injection h1 with _ h3
    rw [h3]
  | succ sk ih =>
    intro items ds rem pw ctr h
    cases items with
    | nil => simp [takeChs] at h
    | cons it rest =>
      cases it with
      | htok k t m => simp [takeChs] at h
      | hch c =>
        obtain ⟨cs2, _, htc⟩ := takeChs_cons_hch sk c rest ds rem h
        show scanIA tid term sk pw rest ctr = _
        exact ih rest cs2 rem pw ctr htc

theorem renderL_map_hch (cs : Str) : renderL (cs.map HItem.hch) = cs := by
  induction cs with
  | nil => rfl
  | cons c rest ih => simp [renderL, ih]

theorem eraseIdeal_map_hch (cs : Str) : eraseIdeal (cs.map HItem.hch) = cs := by
  induction cs with
  | nil => rfl
  | cons c rest ih => simp [eraseIdeal, ih]

theorem tokIdxs_map_hch (cs : Str) : tokIdxs (cs.map HItem.hch) = [] := by
  induction cs with
  | nil => rfl
  | cons c rest ih => simp [tokIdxs, ih]

theorem ciStarts_length (p : Str) : ∀ s, ciStarts p s = true → p.length ≤ s.length := by
  induction p with
  | nil => intro s _; simp
  | cons a ps ih =>
    intro s h
    cases s with
    | nil => simp [ciStarts] at h
    | cons c cs =>
      simp only [ciStarts, Bool.and_eq_true] at h
      simpa using ih cs h.2

theorem ciStarts_append_of_le (p : Str) : ∀ (s t : Str), p.length ≤ s.length →
    ciStarts p (s ++ t) = ciStarts p s := by
  induction p with
  | nil => intro s t _; rfl
  | cons a ps ih =>
    intro s t hlen
    cases s with
    | nil => simp at hlen
    | cons c cs =>
      rw [List.cons_append]
      simp only [ciStarts]
      rw [ih cs t (by simpa using hlen)]

theorem ciStarts_split (x : Str) : ∀ (p y : Str), x.length ≤ p.length →
    ciStarts p (x ++ y) = true →
    ciStarts (p.take x.length) x = true ∧ ciStarts (p.drop x.length) y = true := by
  induction x with
  | nil => intro p y _ h; exact ⟨rfl, h⟩
  | cons c cs ih =>
    intro p y hlen h
    cases p with
    | nil => simp at hlen
    | cons a ps =>
      rw [List.cons_append] at h
      simp only [ciStarts, Bool.and_eq_true] at h
      obtain ⟨h1, h2⟩ := ih ps y (by simpa using hlen) h.2
      refine ⟨?_, by simpa using h2⟩
      simp only [List.length_cons, List.take_succ_cons, ciStarts, Bool.and_eq_true]
      exact ⟨h.1, h1⟩

theorem ciStarts_full_low (p : Str) : ∀ s, ciStarts p s = true → p.length = s.length →
    lowStr p = lowStr s := by
  induction p with
  | nil =>
    intro s _ hlen
    rw [List.length_nil] at hlen
    rw [List.length_eq_zero.mp hlen.symm]
  | cons a ps ih =>
    intro s h hlen
    cases s with
    | nil => simp at hlen
    | cons c cs =>
      simp only [ciStarts, Bool.and_eq_true, beq_iff_eq] at h
      have ihx := ih cs h.2 (by simpa using hlen)
      simp only [lowStr] at ihx
      simp only [lowStr, List.map_cons]
      rw [h.1, ihx]

theorem matchFlat_eq_false_of_ciStarts (pw : Bool) (term s : Str)
    (h : ciStarts term s = false) : matchFlat pw term s = false := by
  cases term with
  | nil => rfl
  | cons a t2 =>
    cases s with
    | nil => rfl
    | cons c s2 => simp [matchFlat, h]

theorem matchFlat_eq_false_of_after (pw : Bool) (term s : Str)
    (h : (match (s.take term.length).getLast?, s.drop term.length with
          | some d, e :: _ => wordChar d != wordChar e
          | some d, [] => wordChar d != false
          | none, _ => false) = false) : matchFlat pw term s = false := by
  cases term with
  | nil => rfl
  | cons a t2 =>
    cases s with
    | nil => rfl
    | cons c s2 =>
      show (ciStarts (a :: t2) (c :: s2) && (pw != wordChar c) && _) = false
      rw [h, Bool.and_false]

theorem matchFlat_overlap (term : Str) (hne : term ≠ [])
    (hcl : hasSub (str "term_placeholder") (lowStr term) = false)
    (pw : Bool) (ds : Str) (k : Nat) (R : Str) (hlen : ds.length < term.length) :
    matchFlat pw term (ds ++ (placeholderStr k ++ R)) = false := by
  cases hci : ciStarts term (ds ++ (placeholderStr k ++ R)) with
  | false => exact matchFlat_eq_false_of_ciStarts pw term _ hci
  | true =>
    by_cases hbig : ds.length + (placeholderStr k).length ≤ term.length
    · exfalso
      obtain ⟨hA, hB⟩ := ciStarts_split ds term (placeholderStr k ++ R)
        (by omega) hci
      have hlend : (term.drop ds.length).length = term.length - ds.length := by
        simp
      obtain ⟨hC, hD⟩ := ciStarts_split (placeholderStr k) (term.drop ds.length) R
        (by omega) hB
      have hmidlen : ((term.drop ds.length).take (placeholderStr k).length).length =
          (placeholderStr k).length := by
        simp
        omega
      have hlow := ciStarts_full_low _ _ hC hmidlen
      have hdec1 : term = term.take ds.length ++ term.drop ds.length :=
        (List.take_append_drop _ _).symm
      have hdec2 : term.drop ds.length =
          (term.drop ds.length).take (placeholderStr k).length ++
          (term.drop ds.length).drop (placeholderStr k).length :=
        (List.take_append_drop _ _).symm
      have hsub : hasSub (str "term_placeholder") (lowStr term) = true := by
        conv_lhs => rw [hdec1, hdec2]
        rw [← List.append_assoc, lowStr_append, lowStr_append]
        apply hasSub_mono
        rw [hlow]
        exact lowStr_ph_has k
      rw [hcl] at hsub
      exact Bool.false_ne_true hsub
    · apply matchFlat_eq_false_of_after
      have hphlen := placeholderStr_length k
      have ht2l1 : 1 ≤ term.length - ds.length := by omega
      have ht2l2 : term.length - ds.length < (placeholderStr k).length := by omega
      have hTake : (ds ++ (placeholderStr k ++ R)).take term.length =
          ds ++ (placeholderStr k).take (term.length - ds.length) := by
        rw [List.take_append_eq_append_take, List.take_of_length_le (by omega),
          List.take_append_eq_append_take,
          show term.length - ds.length - (placeholderStr k).length = 0 by omega,
          List.take_zero, List.append_nil]
      have hDrop : (ds ++ (placeholderStr k ++ R)).drop term.length =
          (placeholderStr k).drop (term.length - ds.length) ++ R := by
        rw [List.drop_append_eq_append_drop, List.drop_eq_nil_of_le (by omega),
          List.nil_append, List.drop_append_eq_append_drop,
          show term.length - ds.length - (placeholderStr k).length = 0 by omega,
          List.drop_zero]
      obtain ⟨d, hd⟩ : ∃ d, ((placeholderStr k).take (term.length - ds.length)).getLast?
          = some d := by
        cases hgl : ((placeholderStr k).take (term.length - ds.length)).getLast? with
        | some d => exact ⟨d, rfl⟩
        | none =>
          exfalso
          have h0 := List.getLast?_eq_none.mp hgl
          have h1 := congrArg List.length h0
          rw [List.length_take, List.length_nil, Nat.min_eq_left (by omega)] at h1
          omega
      have hdw : wordChar d = true := by
        apply placeholderStr_word k
        exact List.take_subset _ _ (List.mem_of_mem_getLast? (by rw [Option.mem_def, hd]))
      obtain ⟨e, zz, hez⟩ : ∃ e zz, (placeholderStr k).drop (term.length - ds.length)
          = e :: zz := by
        cases hdr : (placeholderStr k).drop (term.length - ds.length) with
        | cons e zz => exact ⟨e, zz, rfl⟩
        | nil =>
          exfalso
          have h1 := congrArg List.length hdr
          rw [List.length_drop, List.length_nil] at h1
          omega
      have hew : wordChar e = true := by
        apply placeholderStr_word k
        apply List.drop_subset _ _
        rw [hez]
        exact List.mem_cons_self _ _
      rw [hTake, hDrop, List.getLast?_append, hd, hez, List.cons_append]
      show (match some d, e :: (zz ++ R) with
        | some d, e :: _ => wordChar d != wordChar e
        | some d, [] => wordChar d != false
        | none, _ => false) = false
      simp [hdw, hew]

theorem match_equiv (term : Str) (hne : term ≠ [])
    (hcl : hasSub (str "term_placeholder") (lowStr term) = false)
    (pw : Bool) (items : List HItem) :
    matchFlat pw term (renderL items) = matchIdeal pw term items := by
  cases htc : takeChs term.length items with
  | some p =>
    obtain ⟨cs, rem⟩ := p
    obtain ⟨hitems, hcslen⟩ := takeChs_some _ _ _ _ htc
    have hrender : renderL items = cs ++ renderL rem := by
      rw [hitems, renderL_append, renderL_map_hch]
    cases term with
    | nil => exact absurd rfl hne
    | cons a t2 =>
      cases cs with
      | nil => simp at hcslen
      | cons c cs2 =>
        have hflatred : matchFlat pw (a :: t2) (renderL items) =
            (ciStarts (a :: t2) ((c :: cs2) ++ renderL rem)
              && (pw != wordChar c)
              && (match (((c :: cs2) ++ renderL rem).take (a :: t2).length).getLast?,
                    ((c :: cs2) ++ renderL rem).drop (a :: t2).length with
                  | some d, e :: _ => wordChar d != wordChar e
                  | some d, [] => wordChar d != false
                  | none, _ => false)) := by
          rw [hrender]
          rfl
        have hidred : matchIdeal pw (a :: t2) items =
            (ciStarts (a :: t2) (c :: cs2) && (pw != wordChar c)
              && (match (c :: cs2).getLast? with
                  | some d => wordChar d != nextW rem
                  | none => false)) := by
          simp only [matchIdeal, htc]
        rw [hflatred, hidred]
        have e1 : ciStarts (a :: t2) ((c :: cs2) ++ renderL rem)
            = ciStarts (a :: t2) (c :: cs2) :=
          ciStarts_append_of_le _ _ _ (by omega)
        have e2 : ((c :: cs2) ++ renderL rem).take (a :: t2).length = c :: cs2 := by
          rw [← hcslen, List.take_left]
        have e3 : ((c :: cs2) ++ renderL rem).drop (a :: t2).length = renderL rem := by
          rw [← hcslen, List.drop_left]
        rw [e1, e2, e3]
        congr 1
        obtain ⟨d, hd⟩ : ∃ d, (c :: cs2).getLast? = some d := by
          cases hgl : (c :: cs2).getLast? with
          | some d => exact ⟨d, rfl⟩
          | none => exact absurd (List.getLast?_eq_none.mp hgl) (by simp)
        rw [hd]
        cases rem with
        | nil => rfl
        | cons it2 rem2 =>
          cases it2 with
          | hch e => rfl
          | htok k2 tt mm =>
            show (match ((placeholderStr k2 ++ renderL rem2) : Str) with
              | e :: _ => wordChar d != wordChar e
              | [] => wordChar d != false) = (wordChar d != nextW (HItem.htok k2 tt mm :: rem2))
            rw [placeholderStr_eq k2, List.cons_append]
            rfl
  | none =>
    obtain ⟨ds, rem, hitems, hdlen, hrem⟩ := takeChs_none _ _ htc
    have hideal : matchIdeal pw term items = false := by
      simp [matchIdeal, htc]
    rw [hideal]
    rcases hrem with rfl | ⟨k2, t2, m2, rem2, rfl⟩
    · have hrender : renderL items = ds := by
        rw [hitems, List.append_nil, renderL_map_hch]
      apply matchFlat_eq_false_of_ciStarts
      cases hci : ciStarts term (renderL items) with
      | false => rfl
      | true =>
        exfalso
        have h1 := ciStarts_length term _ hci
        rw [hrender] at h1
        omega
    · have hrender : renderL items = ds ++ (placeholderStr k2 ++ renderL rem2) := by
        rw [hitems, renderL_append, renderL_map_hch]
        simp [renderL]
      rw [hrender]
      exact matchFlat_overlap term hne hcl pw ds k2 (renderL rem2) hdlen

theorem scanIA_match_red (tid term : Str) (hne : term ≠ []) (pw : Bool) (c : Char)
    (rest : List HItem) (ctr : Nat)
    (hmi : matchIdeal pw term (HItem.hch c :: rest) = true) :
    ∃ cs2 rem,
      takeChs term.length (HItem.hch c :: rest) = some (c :: cs2, rem) ∧
      rest = cs2.map HItem.hch ++ rem ∧
      (c :: cs2).length = term.length ∧
      ciStarts term (c :: cs2) = true ∧
      scanIA tid term 0 pw (HItem.hch c :: rest) ctr =
        (HItem.htok ctr tid (c :: cs2) ::
          (scanIA tid term 0
            (match (c :: cs2).getLast? with
             | some d => wordChar d
             | none => pw) rem (ctr + 1)).1,
         (scanIA tid term 0
            (match (c :: cs2).getLast? with
             | some d => wordChar d
             | none => pw) rem (ctr + 1)).2) := by
  cases htc : takeChs term.length (HItem.hch c :: rest) with
  | none =>
    exfalso
    simp [matchIdeal, htc] at hmi
  | some p =>
    obtain ⟨cs, rem⟩ := p
    obtain ⟨hitems, hlen⟩ := takeChs_some _ _ _ _ htc
    obtain ⟨m, hm⟩ : ∃ m, term.length = m + 1 := by
      cases ht : term.length with
      | zero => exact absurd (List.length_eq_zero.mp ht) hne
      | succ m => exact ⟨m, rfl⟩
    obtain ⟨cs2, hcs, htc2⟩ := takeChs_cons_hch m c rest cs rem (by rw [← hm]; exact htc)
    subst hcs
    have hrest : rest = cs2.map HItem.hch ++ rem := by
      rw [List.map_cons, List.cons_append] at hitems
      injection hitems with _ h2
    have hci : ciStarts term (c :: cs2) = true := by
      simp only [matchIdeal, htc] at hmi
      cases term with
      | nil => exact absurd rfl hne
      | cons a t2 =>
        simp only [Bool.and_eq_true] at hmi
        exact hmi.1.1
    refine ⟨cs2, rem, rfl, hrest, hlen, hci, ?_⟩
    simp only [scanIA, hmi, if_true, htc, Option.map_some', Option.getD_some]
    rw [hm, Nat.add_sub_cancel, scanIA_skip tid term m rest cs2 rem _ (ctr + 1) htc2]

theorem scanIA_inv (tid term : Str) (hne : term ≠ []) :
    ∀ (n : Nat) (items : List HItem), items.length ≤ n →
    ∀ (pw : Bool) (ctr : Nat),
    (∀ k2 ∈ tokIdxs items, k2 < ctr) → (tokIdxs items).Nodup →
    ctr ≤ (scanIA tid term 0 pw items ctr).2
    ∧ (∀ k2 ∈ tokIdxs (scanIA tid term 0 pw items ctr).1,
        (k2 ∈ tokIdxs items ∨ ctr ≤ k2) ∧ k2 < (scanIA tid term 0 pw items ctr).2)
    ∧ (tokIdxs (scanIA tid term 0 pw items ctr).1).Nodup
    ∧ eraseIdeal (scanIA tid term 0 pw items ctr).1 = eraseIdeal items
    ∧ (∀ k2 t2 m2, HItem.htok k2 t2 m2 ∈ (scanIA tid term 0 pw items ctr).1 →
        HItem.htok k2 t2 m2 ∈ items ∨ (t2 = tid ∧ lowStr m2 = lowStr term))
    ∧ (∀ k2 t2 m2, HItem.htok k2 t2 m2 ∈ items →
        HItem.htok k2 t2 m2 ∈ (scanIA tid term 0 pw items ctr).1)
    ∧ (∀ i, ctr ≤ i → i < (scanIA tid term 0 pw items ctr).2 →
        ∃ t2 m2, HItem.htok i t2 m2 ∈ (scanIA tid term 0 pw items ctr).1) := by
  intro n
  induction n with
  | zero =>
    intro items hlen pw ctr _ _
    rw [List.length_eq_zero.mp (Nat.le_zero.mp hlen)]
    refine ⟨Nat.le_refl _, ?_, ?_, rfl, ?_, ?_, ?_⟩
    · intro k2 hk2
      exact absurd hk2 (by simp [scanIA, tokIdxs])
    · simp [scanIA, tokIdxs]
    · intro k2 t2 m2 hmem
      exact absurd hmem (by simp [scanIA])
    · intro k2 t2 m2 hmem
      exact absurd hmem (List.not_mem_nil _)
    · intro i hi1 hi2
      simp only [scanIA] at hi2
      omega
  | succ n ih =>
    intro items hlen pw ctr htlt hnd
    cases items with
    | nil =>
      refine ⟨Nat.le_refl _, ?_, ?_, rfl, ?_, ?_, ?_⟩
      · intro k2 hk2
        exact absurd hk2 (by simp [scanIA, tokIdxs])
      · simp [scanIA, tokIdxs]
      · intro k2 t2 m2 hmem
        exact absurd hmem (by simp [scanIA])
      · intro k2 t2 m2 hmem
        exact absurd hmem (List.not_mem_nil _)
      · intro i hi1 hi2
        simp only [scanIA] at hi2
        omega
    | cons it rest =>
      cases it with
      | htok k t2 m2 =>
        have hred : scanIA tid term 0 pw (HItem.htok k t2 m2 :: rest) ctr =
            (HItem.htok k t2 m2 :: (scanIA tid term 0 true rest ctr).1,
             (scanIA tid term 0 true rest ctr).2) := rfl
        simp only [tokIdxs, List.mem_cons] at htlt
        simp only [tokIdxs] at hnd
        have hnd2 := List.nodup_cons.mp hnd
        obtain ⟨ih1, ih2, ih3, ih4, ih5, ih6, ih7⟩ :=
          ih rest (by simpa using Nat.le_of_succ_le_succ hlen) true ctr
            (fun a ha => htlt a (Or.inr ha)) hnd2.2
        rw [hred]
        refine ⟨ih1, ?_, ?_, ?_, ?_, ?_, ?_⟩
        · intro k2 hk2
          simp only [tokIdxs, List.mem_cons] at hk2
          rcases hk2 with rfl | hk2
          · exact ⟨Or.inl (by simp [tokIdxs]),
              Nat.lt_of_lt_of_le (htlt k2 (Or.inl rfl)) ih1⟩
          · obtain ⟨ha, hb⟩ := ih2 k2 hk2
            rcases ha with ha | ha
            · exact ⟨Or.inl (by simp only [tokIdxs, List.mem_cons]; exact Or.inr ha), hb⟩
            · exact ⟨Or.inr ha, hb⟩
        · simp only [tokIdxs, List.nodup_cons]
          refine ⟨?_, ih3⟩
          intro hk
          obtain ⟨ha, _⟩ := ih2 k hk
          rcases ha with ha | ha
          · exact hnd2.1 ha
          · exact absurd (htlt k (Or.inl rfl)) (by omega)
        · simp only [eraseIdeal]
          rw [ih4]
        · intro k2 t3 m3 hmem
          rcases List.mem_cons.mp hmem with heq | hmem2
          · exact Or.inl (heq ▸ List.mem_cons_self _ _)
          · rcases ih5 k2 t3 m3 hmem2 with ha | ha
            · exact Or.inl (List.mem_cons_of_mem _ ha)
            · exact Or.inr ha
        · intro k2 t3 m3 hmem
          rcases List.mem_cons.mp hmem with heq | hmem2
          · exact heq ▸ List.mem_cons_self _ _
          · exact List.mem_cons_of_mem _ (ih6 k2 t3 m3 hmem2)
        · intro i hi1 hi2
          obtain ⟨t3, m3, hm3⟩ := ih7 i hi1 hi2
          exact ⟨t3, m3, List.mem_cons_of_mem _ hm3⟩
      | hch c =>
        cases hmi : matchIdeal pw term (HItem.hch c :: rest) with
        | false =>
          have hred : scanIA tid term 0 pw (HItem.hch c :: rest) ctr =
              (HItem.hch c :: (scanIA tid term 0 (wordChar c) rest ctr).1,
               (scanIA tid term 0 (wordChar c) rest ctr).2) := by
            simp only [scanIA, hmi]
            rfl
          simp only [tokIdxs] at htlt hnd ⊢
          obtain ⟨ih1, ih2, ih3, ih4, ih5, ih6, ih7⟩ :=
            ih rest (by simpa using Nat.le_of_succ_le_succ hlen) (wordChar c) ctr htlt hnd
          rw [hred]
          refine ⟨ih1, ?_, ?_, ?_, ?_, ?_, ?_⟩
          · intro k2 hk2
            simp only [tokIdxs] at hk2
            exact ih2 k2 hk2
          · simpa only [tokIdxs] using ih3
          · simp only [eraseIdeal]
            rw [ih4]
          · intro k2 t3 m3 hmem
            rcases List.mem_cons.mp hmem with heq | hmem2
            · exact absurd heq (by simp)
            · rcases ih5 k2 t3 m3 hmem2 with ha | ha
              · exact Or.inl (List.mem_cons_of_mem _ ha)
              · exact Or.inr ha
          · intro k2 t3 m3 hmem
            rcases List.mem_cons.mp hmem with heq | hmem2
            · exact absurd heq (by simp)
            · exact List.mem_cons_of_mem _ (ih6 k2 t3 m3 hmem2)
          · intro i hi1 hi2
            obtain ⟨t3, m3, hm3⟩ := ih7 i hi1 hi2
            exact ⟨t3, m3, List.mem_cons_of_mem _ hm3⟩
        | true =>
          obtain ⟨cs2, rem, htc, hrest, hcslen, hci, hred⟩ :=
            scanIA_match_red tid term hne pw c rest ctr hmi
          have htokeq : tokIdxs (HItem.hch c :: rest) = tokIdxs rem := by
            simp only [tokIdxs, hrest, tokIdxs_append, tokIdxs_map_hch, List.nil_append]
          have hremlen : rem.length ≤ n := by
            have h1 : rest.length = cs2.length + rem.length := by
              rw [hrest]
              simp
            have h2 := hlen
            simp only [List.length_cons] at h2
            omega
          rw [htokeq] at htlt hnd
          obtain ⟨ih1, ih2, ih3, ih4, ih5, ih6, ih7⟩ :=
            ih rem hremlen
              (match (c :: cs2).getLast? with
               | some d => wordChar d
               | none => pw) (ctr + 1)
              (fun a ha => Nat.lt_succ_of_lt (htlt a ha)) hnd
          rw [hred]
          have hlowm : lowStr (c :: cs2) = lowStr term :=
            (ciStarts_full_low term _ hci hcslen.symm).symm
          have heraserem : eraseIdeal (HItem.hch c :: rest) =
              (c :: cs2) ++ eraseIdeal rem := by
            simp only [eraseIdeal, hrest, eraseIdeal_append, eraseIdeal_map_hch,
              List.cons_append]
          refine ⟨by omega, ?_, ?_, ?_, ?_, ?_, ?_⟩
          · intro k2 hk2
            simp only [tokIdxs, List.mem_cons] at hk2
            rcases hk2 with rfl | hk2
            · exact ⟨Or.inr (Nat.le_refl _), by omega⟩
            · obtain ⟨ha, hb⟩ := ih2 k2 hk2
              rcases ha with ha | ha
              · exact ⟨Or.inl (htokeq ▸ ha), hb⟩
              · exact ⟨Or.inr (by omega), hb⟩
          · simp only [tokIdxs, List.nodup_cons]
            refine ⟨?_, ih3⟩
            intro hk
            obtain ⟨ha, _⟩ := ih2 ctr hk
            rcases ha with ha | ha
            · exact absurd (htlt ctr ha) (by omega)
            · omega
          · conv_lhs => simp only [eraseIdeal]
            rw [ih4, heraserem]
          · intro k2 t3 m3 hmem
            rcases List.mem_cons.mp hmem with heq | hmem2
            · injection heq with e1 e2 e3
              exact Or.inr ⟨e2, by rw [e3]; exact hlowm⟩
            · rcases ih5 k2 t3 m3 hmem2 with ha | ha
              · refine Or.inl ?_
                rw [hrest]
                exact List.mem_cons_of_mem _ (List.mem_append_right _ ha)
              · exact Or.inr ha
          · intro k2 t3 m3 hmem
            rcases List.mem_cons.mp hmem with heq | hmem2
            · exact absurd heq (by simp)
            · rw [hrest] at hmem2
              rcases List.mem_append.mp hmem2 with ha | ha
              · exfalso
                obtain ⟨c4, _, hc4⟩ := List.mem_map.mp ha
                exact HItem.noConfusion hc4
              · exact List.mem_cons_of_mem _ (ih6 k2 t3 m3 ha)
          · intro i hi1 hi2
            by_cases hic : i = ctr
            · exact ⟨tid, c :: cs2, hic ▸ List.mem_cons_self _ _⟩
            · obtain ⟨t3, m3, hm3⟩ := ih7 i (by omega) hi2
              exact ⟨t3, m3, List.mem_cons_of_mem _ hm3⟩

/-- The placeholder-map entries a scan records for its fresh claims, in
item order (claims numbered at least `c`). -/
def newPhs (c : Nat) : List HItem → List (Str × Str × Str)
  | [] => []
  | HItem.hch _ :: rest => newPhs c rest
  | HItem.htok k t m :: rest =>
    if c ≤ k then (placeholderStr k, t, m) :: newPhs c rest else newPhs c rest

theorem newPhs_shift (c : Nat) (l : List HItem) (h : ∀ k ∈ tokIdxs l, k ≠ c) :
    newPhs c l = newPhs (c + 1) l := by
  induction l with
  | nil => rfl
  | cons it rest ih =>
    cases it with
    | hch d =>
      simp only [tokIdxs] at h
      simp only [newPhs, ih h]
    | htok k t m =>
      simp only [tokIdxs, List.mem_cons] at h
      have hk : k ≠ c := h k (Or.inl rfl)
      have ih2 := ih (fun a ha => h a (Or.inr ha))
      by_cases hc : c ≤ k
      · rw [newPhs, newPhs, if_pos hc, if_pos (by omega), ih2]
      · rw [newPhs, newPhs, if_neg hc, if_neg (by omega), ih2]

theorem scan_phs (tid term : Str) (hne : term ≠ []) :
    ∀ (n : Nat) (items : List HItem), items.length ≤ n →
    ∀ (pw : Bool) (ctr : Nat),
    (∀ k2 ∈ tokIdxs items, k2 < ctr) → (tokIdxs items).Nodup →
    (newPhs ctr (scanIA tid term 0 pw items ctr).1).length
      = (scanIA tid term 0 pw items ctr).2 - ctr
    ∧ ∀ i, i < (scanIA tid term 0 pw items ctr).2 - ctr →
        ∃ t2 m2, (newPhs ctr (scanIA tid term 0 pw items ctr).1).get? i
            = some (placeholderStr (ctr + i), t2, m2)
          ∧ HItem.htok (ctr + i) t2 m2 ∈ (scanIA tid term 0 pw items ctr).1 := by
  intro n
  induction n with
  | zero =>
    intro items hlen pw ctr _ _
    rw [List.length_eq_zero.mp (Nat.le_zero.mp hlen)]
    exact ⟨by simp [scanIA, newPhs], fun i hi => by simp only [scanIA] at hi; omega⟩
  | succ n ih =>
    intro items hlen pw ctr htlt hnd
    cases items with
    | nil =>
      exact ⟨by simp [scanIA, newPhs], fun i hi => by simp only [scanIA] at hi; omega⟩
    | cons it rest =>
      cases it with
      | htok k t2 m2 =>
        have hred : scanIA tid term 0 pw (HItem.htok k t2 m2 :: rest) ctr =
            (HItem.htok k t2 m2 :: (scanIA tid term 0 true rest ctr).1,
             (scanIA tid term 0 true rest ctr).2) := rfl
        simp only [tokIdxs, List.mem_cons] at htlt
        simp only [tokIdxs] at hnd
        have hklt : k < ctr := htlt k (Or.inl rfl)
        obtain ⟨ihl, ihg⟩ :=
          ih rest (by simpa using Nat.le_of_succ_le_succ hlen) true ctr
            (fun a ha => htlt a (Or.inr ha)) (List.nodup_cons.mp hnd).2
        rw [hred]
        have hnp : newPhs ctr (HItem.htok k t2 m2 :: (scanIA tid term 0 true rest ctr).1)
            = newPhs ctr (scanIA tid term 0 true rest ctr).1 := by
          rw [newPhs, if_neg (by omega)]
        rw [hnp]
        refine ⟨ihl, fun i hi => ?_⟩
        obtain ⟨t3, m3, hg, hm⟩ := ihg i hi
        exact ⟨t3, m3, hg, List.mem_cons_of_mem _ hm⟩
      | hch c =>
        cases hmi : matchIdeal pw term (HItem.hch c :: rest) with
        | false =>
          have hred : scanIA tid term 0 pw (HItem.hch c :: rest) ctr =
              (HItem.hch c :: (scanIA tid term 0 (wordChar c) rest ctr).1,
               (scanIA tid term 0 (wordChar c) rest ctr).2) := by
            simp only [scanIA, hmi]
            rfl
          simp only [tokIdxs] at htlt hnd
          obtain ⟨ihl, ihg⟩ :=
            ih rest (by simpa using Nat.le_of_succ_le_succ hlen) (wordChar c) ctr htlt hnd
          rw [hred]
          have hnp : newPhs ctr
              (HItem.hch c :: (scanIA tid term 0 (wordChar c) rest ctr).1)
              = newPhs ctr (scanIA tid term 0 (wordChar c) rest ctr).1 := rfl
          rw [hnp]
          refine ⟨ihl, fun i hi => ?_⟩
          obtain ⟨t3, m3, hg, hm⟩ := ihg i hi
          exact ⟨t3, m3, hg, List.mem_cons_of_mem _ hm⟩
        | true =>
          obtain ⟨cs2, rem, htc, hrest, hcslen, hci, hred⟩ :=
            scanIA_match_red tid term hne pw c rest ctr hmi
          have htokeq : tokIdxs (HItem.hch c :: rest) = tokIdxs rem := by
            simp only [tokIdxs, hrest, tokIdxs_append, tokIdxs_map_hch, List.nil_append]
          have hremlen : rem.length ≤ n := by
            have h1 : rest.length = cs2.length + rem.length := by
              rw [hrest]
              simp
            have h2 := hlen
            simp only [List.length_cons] at h2
            omega
          rw [htokeq] at htlt hnd
          obtain ⟨inv1, inv2, _, _, _, _, _⟩ :=
            scanIA_inv tid term hne n rem hremlen
              (match (c :: cs2).getLast? with
               | some d => wordChar d
               | none => pw) (ctr + 1)
              (fun a ha => Nat.lt_succ_of_lt (htlt a ha)) hnd
          obtain ⟨ihl, ihg⟩ :=
            ih rem hremlen
              (match (c :: cs2).getLast? with
               | some d => wordChar d
               | none => pw) (ctr + 1)
              (fun a ha => Nat.lt_succ_of_lt (htlt a ha)) hnd
          rw [hred]
          have hshift : newPhs ctr
              (scanIA tid term 0
                (match (c :: cs2).getLast? with
                 | some d => wordChar d
                 | none => pw) rem (ctr + 1)).1
              = newPhs (ctr + 1)
                (scanIA tid term 0
                  (match (c :: cs2).getLast? with
                   | some d => wordChar d
                   | none => pw) rem (ctr + 1)).1 := by
            apply newPhs_shift
            intro a ha
            obtain ⟨hor, _⟩ := inv2 a ha
            rcases hor with hor | hor
            · have := htlt a hor
              omega
            · omega
          have hnp : newPhs ctr
              (HItem.htok ctr tid (c :: cs2) ::
                (scanIA tid term 0
                  (match (c :: cs2).getLast? with
                   | some d => wordChar d
                   | none => pw) rem (ctr + 1)).1)
              = (placeholderStr ctr, tid, c :: cs2) ::
                newPhs (ctr + 1)
                  (scanIA tid term 0
                    (match (c :: cs2).getLast? with
                     | some d => wordChar d
                     | none => pw) rem (ctr + 1)).1 := by
            rw [newPhs, if_pos (Nat.le_refl _), hshift]
          rw [hnp]
          constructor
          · simp only [List.length_cons, ihl]
            omega
          · intro i hi
            cases i with
            | zero =>
              exact ⟨tid, c :: cs2, by simp, List.mem_cons_self _ _⟩
            | succ j =>
              obtain ⟨t3, m3, hg, hm⟩ := ihg j (by omega)
              rw [show ctr + (j + 1) = ctr + 1 + j from by omega]
              exact ⟨t3, m3, by simpa using hg, List.mem_cons_of_mem _ hm⟩

theorem matchFlat_word_word (term : Str) (c : Char) (s : Str)
    (hc : wordChar c = true) : matchFlat true term (c :: s) = false := by
  cases term with
  | nil => rfl
  | cons a t2 =>
    show (ciStarts (a :: t2) (c :: s) && (true != wordChar c) && _) = false
    rw [hc]
    simp

theorem scanFA_word_run (tid term : Str) : ∀ (ds s : Str) (pw : Bool) (st : PHState),
    ds ≠ [] → (∀ c ∈ ds, wordChar c = true) →
    matchFlat pw term (ds ++ s) = false →
    scanFA tid term 0 pw (ds ++ s) st =
      (ds ++ (scanFA tid term 0 true s st).1, (scanFA tid term 0 true s st).2) := by
  intro ds
  induction ds with
  | nil => intro s pw st hne _ _; exact absurd rfl hne
  | cons c ds2 ih =>
    intro s pw st _ hword hfirst
    rw [List.cons_append] at hfirst ⊢
    have hred : scanFA tid term 0 pw (c :: (ds2 ++ s)) st =
        (c :: (scanFA tid term 0 (wordChar c) (ds2 ++ s) st).1,
         (scanFA tid term 0 (wordChar c) (ds2 ++ s) st).2) := by
      simp only [scanFA, hfirst]
      rfl
    have hcw : wordChar c = true := hword c (List.mem_cons_self _ _)
    rw [hred, hcw]
    cases ds2 with
    | nil => simp
    | cons d ds3 =>
      have hdw : wordChar d = true := hword d (List.mem_cons_of_mem _ (List.mem_cons_self _ _))
      have hnext : matchFlat true term ((d :: ds3) ++ s) = false := by
        rw [List.cons_append]
        exact matchFlat_word_word term d _ hdw
      rw [ih s true st (List.cons_ne_nil _ _)
        (fun a ha => hword a (List.mem_cons_of_mem _ ha)) hnext]
      simp

theorem scan_sim (tid term : Str) (hne : term ≠ [])
    (hcl : hasSub (str "term_placeholder") (lowStr term) = false) :
    ∀ (n : Nat) (items : List HItem), items.length ≤ n →
    ∀ (pw : Bool) (ctr : Nat) (phs : List (Str × Str × Str)),
    (∀ k2 ∈ tokIdxs items, k2 < ctr) → (tokIdxs items).Nodup →
    scanFA tid term 0 pw (renderL items) ⟨ctr, phs⟩ =
      (renderL (scanIA tid term 0 pw items ctr).1,
       ⟨(scanIA tid term 0 pw items ctr).2,
        phs ++ newPhs ctr (scanIA tid term 0 pw items ctr).1⟩) := by
  intro n
  induction n with
  | zero =>
    intro items hlen pw ctr phs _ _
    rw [List.length_eq_zero.mp (Nat.le_zero.mp hlen)]
    simp [scanIA, newPhs, renderL, scanFA]
  | succ n ih =>
    intro items hlen pw ctr phs htlt hnd
    cases items with
    | nil => simp [scanIA, newPhs, renderL, scanFA]
    | cons it rest =>
      cases it with
      | htok k t2 m2 =>
        simp only [tokIdxs, List.mem_cons] at htlt
        simp only [tokIdxs] at hnd
        have hklt : k < ctr := htlt k (Or.inl rfl)
        have hren : renderL (HItem.htok k t2 m2 :: rest) =
            placeholderStr k ++ renderL rest := rfl
        have hfirst : matchFlat pw term (placeholderStr k ++ renderL rest) = false := by
          have h0 := matchFlat_overlap term hne hcl pw [] k (renderL rest)
            (by simpa using List.length_pos.mpr hne)
          simpa using h0
        rw [hren, scanFA_word_run tid term (placeholderStr k) (renderL rest) pw
          ⟨ctr, phs⟩ (placeholderStr_ne_nil k) (placeholderStr_word k) hfirst]
        rw [ih rest (by simpa using Nat.le_of_succ_le_succ hlen) true ctr phs
          (fun a ha => htlt a (Or.inr ha)) (List.nodup_cons.mp hnd).2]
        have hredI : scanIA tid term 0 pw (HItem.htok k t2 m2 :: rest) ctr =
            (HItem.htok k t2 m2 :: (scanIA tid term 0 true rest ctr).1,
             (scanIA tid term 0 true rest ctr).2) := rfl
        rw [hredI]
        have hnp : newPhs ctr (HItem.htok k t2 m2 :: (scanIA tid term 0 true rest ctr).1)
            = newPhs ctr (scanIA tid term 0 true rest ctr).1 := by
          rw [newPhs, if_neg (by omega)]
        rw [hnp]
        rfl
      | hch c =>
        have hrenc : renderL (HItem.hch c :: rest) = c :: renderL rest := rfl
        have hmeq := match_equiv term hne hcl pw (HItem.hch c :: rest)
        cases hmi : matchIdeal pw term (HItem.hch c :: rest) with
        | false =>
          have hmf : matchFlat pw term (c :: renderL rest) = false := by
            rw [show (c :: renderL rest) = renderL (HItem.hch c :: rest) from rfl,
              hmeq, hmi]
          have hredF : scanFA tid term 0 pw (c :: renderL rest) ⟨ctr, phs⟩ =
              (c :: (scanFA tid term 0 (wordChar c) (renderL rest) ⟨ctr, phs⟩).1,
               (scanFA tid term 0 (wordChar c) (renderL rest) ⟨ctr, phs⟩).2) := by
            simp only [scanFA, hmf]
            rfl
          have hredI : scanIA tid term 0 pw (HItem.hch c :: rest) ctr =
              (HItem.hch c :: (scanIA tid term 0 (wordChar c) rest ctr).1,
               (scanIA tid term 0 (wordChar c) rest ctr).2) := by
            simp only [scanIA, hmi]
            rfl
          simp only [tokIdxs] at htlt hnd
          rw [hrenc, hredF, hredI,
            ih rest (by simpa using Nat.le_of_succ_le_succ hlen) (wordChar c) ctr phs
              htlt hnd]
          rfl
        | true =>
          obtain ⟨cs2, rem, htc, hrest, hcslen, hci, hredI⟩ :=
            scanIA_match_red tid term hne pw c rest ctr hmi
          have hmf : matchFlat pw term (c :: renderL rest) = true := by
            rw [show (c :: renderL rest) = renderL (HItem.hch c :: rest) from rfl,
              hmeq, hmi]
          have hrenr : renderL rest = cs2 ++ renderL rem := by
            rw [hrest, renderL_append, renderL_map_hch]
          have htokeq : tokIdxs (HItem.hch c :: rest) = tokIdxs rem := by
            simp only [tokIdxs, hrest, tokIdxs_append, tokIdxs_map_hch, List.nil_append]
          have hremlen : rem.length ≤ n := by
            have h1 : rest.length = cs2.length + rem.length := by
              rw [hrest]
              simp
            have h2 := hlen
            simp only [List.length_cons] at h2
            omega
          rw [htokeq] at htlt hnd
          have hmatched : (c :: renderL rest).take term.length = c :: cs2 := by
            obtain ⟨m, hm⟩ : ∃ m, term.length = m + 1 := by
              cases ht : term.length with
              | zero => exact absurd (List.length_eq_zero.mp ht) hne
              | succ m => exact ⟨m, rfl⟩
            rw [hm, List.take_succ_cons, hrenr]
            have hcs2 : cs2.length = m := by
              simp only [List.length_cons] at hcslen
              omega
            rw [← hcs2, List.take_left]
          have hredF : scanFA tid term 0 pw (c :: renderL rest) ⟨ctr, phs⟩ =
              (placeholderStr ctr ++
                (scanFA tid term (term.length - 1)
                  (match (c :: cs2).getLast? with
                   | some d => wordChar d
                   | none => pw) (renderL rest)
                  ⟨ctr + 1, phs ++ [(placeholderStr ctr, tid, c :: cs2)]⟩).1,
               (scanFA tid term (term.length - 1)
                  (match (c :: cs2).getLast? with
                   | some d => wordChar d
                   | none => pw) (renderL rest)
                  ⟨ctr + 1, phs ++ [(placeholderStr ctr, tid, c :: cs2)]⟩).2) := by
            simp only [scanFA, hmf, hmatched]
            rfl
          have hskip : scanFA tid term (term.length - 1)
              (match (c :: cs2).getLast? with
               | some d => wordChar d
               | none => pw) (renderL rest)
              ⟨ctr + 1, phs ++ [(placeholderStr ctr, tid, c :: cs2)]⟩ =
              scanFA tid term 0
                (match (c :: cs2).getLast? with
                 | some d => wordChar d
                 | none => pw) (renderL rem)
                ⟨ctr + 1, phs ++ [(placeholderStr ctr, tid, c :: cs2)]⟩ := by
            rw [hrenr]
            apply scanFA_skip
            simp only [List.length_cons] at hcslen
            omega
          obtain ⟨inv1, inv2, _, _, _, _, _⟩ :=
            scanIA_inv tid term hne n rem hremlen
              (match (c :: cs2).getLast? with
               | some d => wordChar d
               | none => pw) (ctr + 1)
              (fun a ha => Nat.lt_succ_of_lt (htlt a ha)) hnd
          have hshift : newPhs ctr
              (scanIA tid term 0
                (match (c :: cs2).getLast? with
                 | some d => wordChar d
                 | none => pw) rem (ctr + 1)).1
              = newPhs (ctr + 1)
                (scanIA tid term 0
                  (match (c :: cs2).getLast? with
                   | some d => wordChar d
                   | none => pw) rem (ctr + 1)).1 := by
            apply newPhs_shift
            intro a ha
            obtain ⟨hor, _⟩ := inv2 a ha
            rcases hor with hor | hor
            · have := htlt a hor
              omega
            · omega
          rw [hrenc, hredF, hskip,
            ih rem hremlen
              (match (c :: cs2).getLast? with
               | some d => wordChar d
               | none => pw) (ctr + 1)
              (phs ++ [(placeholderStr ctr, tid, c :: cs2)])
              (fun a ha => Nat.lt_succ_of_lt (htlt a ha)) hnd,
            hredI]
          have hnp : newPhs ctr
              (HItem.htok ctr tid (c :: cs2) ::
                (scanIA tid term 0
                  (match (c :: cs2).getLast? with
                   | some d => wordChar d
                   | none => pw) rem (ctr + 1)).1)
              = (placeholderStr ctr, tid, c :: cs2) ::
                newPhs (ctr + 1)
                  (scanIA tid term 0
                    (match (c :: cs2).getLast? with
                     | some d => wordChar d
                     | none => pw) rem (ctr + 1)).1 := by
            rw [newPhs, if_pos (Nat.le_refl _), hshift]
          rw [hnp]
          have hrL : renderL (HItem.htok ctr tid (c :: cs2) ::
              (scanIA tid term 0
                (match (c :: cs2).getLast? with
                 | some d => wordChar d
                 | none => pw) rem (ctr + 1)).1) =
              placeholderStr ctr ++ renderL
                (scanIA tid term 0
                  (match (c :: cs2).getLast? with
                   | some d => wordChar d
                   | none => pw) rem (ctr + 1)).1 := rfl
          rw [hrL]
          simp

theorem firstCharI_eq (items : List HItem) :
    firstCharI items = (eraseIdeal items).head? := by
  induction items with
  | nil => rfl
  | cons it rest ih =>
    cases it with
    | hch c => rfl
    | htok k t m =>
      cases m with
      | nil => simpa [firstCharI, eraseIdeal] using ih
      | cons c m2 => rfl

theorem nextW_false_wordOpt (rem : List HItem) (h : nextW rem = false) :
    wordOpt (firstCharI rem) = false := by
  cases rem with
  | nil => rfl
  | cons it rest =>
    cases it with
    | hch e => exact h
    | htok k t m => exact absurd h (by simp [nextW])

theorem noInner_run (cs : Str) : ∀ (prev : Option Char) (rem : List HItem),
    noInner prev (cs.map HItem.hch ++ rem) =
      noInner (match cs.getLast? with | some d => some d | none => prev) rem := by
  induction cs with
  | nil => intro prev rem; rfl
  | cons c cs2 ih =>
    intro prev rem
    rw [List.map_cons, List.cons_append]
    show noInner (some c) (cs2.map HItem.hch ++ rem) = _
    rw [ih (some c) rem]
    cases cs2 with
    | nil => rfl
    | cons e cs3 =>
      rw [List.getLast?_cons_cons]
      cases hgl : (e :: cs3).getLast? with
      | some d => rfl
      | none => exact absurd (List.getLast?_eq_none.mp hgl) (by simp)

theorem scan_noInner (tid term : Str) (hne : term ≠ []) :
    ∀ (n : Nat) (items : List HItem), items.length ≤ n →
    ∀ (pw : Bool) (ctr : Nat) (prev : Option Char),
    (∀ k2 ∈ tokIdxs items, k2 < ctr) → (tokIdxs items).Nodup →
    (pw = wordOpt prev ∨ pw = true) →
    noInner prev items = true →
    noInner prev (scanIA tid term 0 pw items ctr).1 = true := by
  intro n
  induction n with
  | zero =>
    intro items hlen pw ctr prev _ _ _ _
    rw [List.length_eq_zero.mp (Nat.le_zero.mp hlen)]
    rfl
  | succ n ih =>
    intro items hlen pw ctr prev htlt hnd hpw hno
    cases items with
    | nil => exact hno
    | cons it rest =>
      cases it with
      | htok k t2 m2 =>
        simp only [tokIdxs, List.mem_cons] at htlt
        simp only [tokIdxs] at hnd
        have hred : scanIA tid term 0 pw (HItem.htok k t2 m2 :: rest) ctr =
            (HItem.htok k t2 m2 :: (scanIA tid term 0 true rest ctr).1,
             (scanIA tid term 0 true rest ctr).2) := rfl
        rw [hred]
        simp only [noInner, Bool.and_eq_true] at hno ⊢
        obtain ⟨⟨h1, h2⟩, h3⟩ := hno
        obtain ⟨_, _, _, herase, _, _, _⟩ :=
          scanIA_inv tid term hne n rest (by simpa using Nat.le_of_succ_le_succ hlen)
            true ctr (fun a ha => htlt a (Or.inr ha)) (List.nodup_cons.mp hnd).2
        refine ⟨⟨h1, ?_⟩, ?_⟩
        · rw [firstCharI_eq, herase, ← firstCharI_eq]
          exact h2
        · exact ih rest (by simpa using Nat.le_of_succ_le_succ hlen) true ctr
            (lastCharOf m2 prev) (fun a ha => htlt a (Or.inr ha))
            (List.nodup_cons.mp hnd).2 (Or.inr rfl) h3
      | hch c =>
        simp only [tokIdxs] at htlt hnd
        cases hmi : matchIdeal pw term (HItem.hch c :: rest) with
        | false =>
          have hred : scanIA tid term 0 pw (HItem.hch c :: rest) ctr =
              (HItem.hch c :: (scanIA tid term 0 (wordChar c) rest ctr).1,
               (scanIA tid term 0 (wordChar c) rest ctr).2) := by
            simp only [scanIA, hmi]
            rfl
          rw [hred]
          show noInner (some c) (scanIA tid term 0 (wordChar c) rest ctr).1 = true
          exact ih rest (by simpa using Nat.le_of_succ_le_succ hlen) (wordChar c) ctr
            (some c) htlt hnd (Or.inl rfl) hno
        | true =>
          obtain ⟨cs2, rem, htc, hrest, hcslen, hci, hred⟩ :=
            scanIA_match_red tid term hne pw c rest ctr hmi
          rw [hred]
          have htokeq : tokIdxs (HItem.hch c :: rest) = tokIdxs rem := by
            simp only [tokIdxs, hrest, tokIdxs_append, tokIdxs_map_hch, List.nil_append]
          simp only [tokIdxs] at htokeq
          rw [htokeq] at htlt hnd
          have hremlen : rem.length ≤ n := by
            have h1 : rest.length = cs2.length + rem.length := by
              rw [hrest]
              simp
            have h2 := hlen
            simp only [List.length_cons] at h2
            omega
          obtain ⟨d, hd, hdx⟩ : ∃ d, (c :: cs2).getLast? = some d ∧
              (match cs2.getLast? with
               | some x => some x
               | none => some c) = some d := by
            cases hgl : cs2.getLast? with
            | some x =>
              refine ⟨x, ?_, rfl⟩
              cases cs2 with
              | nil => simp at hgl
              | cons e cs3 =>
                rw [List.getLast?_cons_cons]
                exact hgl
            | none =>
              have hnil : cs2 = [] := List.getLast?_eq_none.mp hgl
              subst hnil
              exact ⟨c, rfl, rfl⟩
          -- decompose the match facts
          have hmi2 := hmi
          simp only [matchIdeal, htc] at hmi2
          have hterm2 : ∃ a t2, term = a :: t2 := by
            cases term with
            | nil => exact absurd rfl hne
            | cons a t2 => exact ⟨a, t2, rfl⟩
          obtain ⟨a, t2, rfl⟩ := hterm2
          simp only [Bool.and_eq_true] at hmi2
          obtain ⟨⟨_, hbd⟩, hafter⟩ := hmi2
          rw [hd] at hafter
          -- input noInner: through the claimed run
          have hnoRem : noInner (some d) rem = true := by
            have h0 : noInner prev (HItem.hch c :: rest) =
                noInner (some c) rest := rfl
            rw [h0, hrest, noInner_run] at hno
            rwa [hdx] at hno
          have hafter2 : (wordChar d != nextW rem) = true := hafter
          obtain ⟨_, _, _, herase, _, _, _⟩ :=
            scanIA_inv tid (a :: t2) hne n rem hremlen
              (match (c :: cs2).getLast? with
               | some x => wordChar x
               | none => pw) (ctr + 1)
              (fun x hx => Nat.lt_succ_of_lt (htlt x hx)) hnd
          simp only [noInner, Bool.and_eq_true]
          refine ⟨⟨?_, ?_⟩, ?_⟩
          · -- left boundary
            simp only [Bool.not_and, Bool.or_eq_true, Bool.not_eq_true']
            have hwh : wordHead (c :: cs2) = wordChar c := rfl
            rcases hpw with hpw | hpw
            · by_cases hop : wordOpt prev = true
              · right
                rw [hwh]
                rw [hpw] at hbd
                rw [hop] at hbd
                cases hwc : wordChar c with
                | false => rfl
                | true => rw [hwc] at hbd; exact absurd hbd (by decide)
              · left
                simp only [Bool.not_eq_true] at hop
                exact hop
            · right
              rw [hwh]
              rw [hpw] at hbd
              cases hwc : wordChar c with
              | false => rfl
              | true => rw [hwc] at hbd; exact absurd hbd (by decide)
          · -- right boundary
            simp only [Bool.not_and, Bool.or_eq_true, Bool.not_eq_true']
            have hwl : wordLast (c :: cs2) = wordChar d := by
              simp only [wordLast, hd]
            cases hwd : wordChar d with
            | false => left; rw [hwl, hwd]
            | true =>
              right
              rw [hwd] at hafter2
              have hnw : nextW rem = false := by
                cases hn : nextW rem with
                | false => rfl
                | true => rw [hn] at hafter2; exact absurd hafter2 (by decide)
              rw [firstCharI_eq, herase, ← firstCharI_eq]
              exact nextW_false_wordOpt rem hnw
          · -- recurse
            have hprev : lastCharOf (c :: cs2) prev = some d := by
              simp only [lastCharOf, hd]
            rw [hprev]
            apply ih rem hremlen _ (ctr + 1) (some d)
              (fun x hx => Nat.lt_succ_of_lt (htlt x hx)) hnd _ hnoRem
            left
            simp only [wordOpt, hd]

/-! ### Assembling the two passes -/

/-- Evaluation of `Char.ofNat` on a valid scalar value. -/
theorem char_toNat_ofNat_valid (n : Nat) (h : Nat.isValidChar n) :
    (Char.ofNat n).toNat = n := by
  rw [Char.ofNat, dif_pos h]
  rfl

/-- Character order is the order of code points. -/
theorem char_le_toNat (a b : Char) (h : a ≤ b) : a.toNat ≤ b.toNat := h

/-- Lower-casing maps no character other than `'$'` to `'$'`. -/
theorem lowChar_eq_dollar (c : Char) (h : lowChar c = '$') : c = '$' := by
  by_cases hc : ('A' ≤ c && c ≤ 'Z') = true
  · exfalso
    simp only [lowChar, hc, if_true] at h
    have h1 : ('A' ≤ c ∧ c ≤ 'Z') := by simpa using hc
    have hA : ('A').toNat ≤ c.toNat := char_le_toNat _ _ h1.1
    have hZ : c.toNat ≤ ('Z').toNat := char_le_toNat _ _ h1.2
    have hA2 : 65 ≤ c.toNat := by simpa using hA
    have hZ2 : c.toNat ≤ 90 := by simpa using hZ
    have hv : Nat.isValidChar (c.toNat + 32) := Or.inl (by omega)
    have h2 := congrArg Char.toNat h
    rw [char_toNat_ofNat_valid _ hv] at h2
    have h3 : Char.toNat '$' = 36 := by decide
    omega
  · simp only [lowChar, hc, if_false] at h
    exact h

/-- A span that case-insensitively equals a `'$'`-free term is itself
`'$'`-free, so its marker is inert under `GetSubstitution`. -/
theorem dollar_not_mem_of_lowStr (m term : Str) (hl : lowStr m = lowStr term)
    (ht : '$' ∉ term) : '$' ∉ m := by
  intro hm
  have h1 : lowChar '$' ∈ lowStr m := List.mem_map_of_mem lowChar hm
  rw [hl] at h1
  obtain ⟨c, hc, hcl⟩ := List.mem_map.mp h1
  have h2 : lowChar '$' = '$' := by decide
  rw [h2] at hcl
  exact ht (lowChar_eq_dollar c hcl ▸ hc)

/-- Membership through one sorted insertion. -/
theorem insertDesc_mem (x : Str × GTerm) (l : List (Str × GTerm)) (e : Str × GTerm)
    (h : e ∈ insertDesc x l) : e = x ∨ e ∈ l := by
  induction l with
  | nil => simpa [insertDesc] using h
  | cons y ys ih =>
    simp only [insertDesc] at h
    by_cases hc : y.2.term.length ≤ x.2.term.length
    · rw [if_pos hc] at h
      rcases List.mem_cons.mp h with h1 | h1
      · exact Or.inl h1
      · exact Or.inr h1
    · rw [if_neg hc] at h
      rcases List.mem_cons.mp h with h1 | h1
      · exact Or.inr (h1 ▸ List.mem_cons_self _ _)
      · rcases ih h1 with h2 | h2
        · exact Or.inl h2
        · exact Or.inr (List.mem_cons_of_mem _ h2)

/-- The longest-first sort only permutes the glossary entries. -/
theorem sortTermsDesc_mem (terms : List (Str × GTerm)) (e : Str × GTerm)
    (h : e ∈ sortTermsDesc terms) : e ∈ terms := by
  induction terms with
  | nil => simp [sortTermsDesc] at h
  | cons t ts ih =>
    simp only [sortTermsDesc, List.foldr_cons] at h
    rcases insertDesc_mem t _ e h with h1 | h1
    · exact h1 ▸ List.mem_cons_self _ _
    · exact List.mem_cons_of_mem _ (ih (by simpa [sortTermsDesc] using h1))

/-- Resolving an item list with no claimed spans returns the text. -/
theorem resolveIdeal_map_hch (cs : Str) : resolveIdeal (cs.map HItem.hch) = cs := by
  induction cs with
  | nil => rfl
  | cons c cs ih => simp only [List.map_cons, resolveIdeal, ih]

/-- An item list with no claimed spans has no span inside a word. -/
theorem noInner_map_hch (prev : Option Char) (cs : Str) :
    noInner prev (cs.map HItem.hch) = true := by
  have h := noInner_run cs prev []
  rw [List.append_nil] at h
  rw [h]
  rfl

/-- Every ideal scan of the empty item list is a no-op. -/
theorem foldIA_nil_text (entries : List (Str × GTerm)) :
    entries.foldl (fun acc e => scanIA e.1 e.2.term 0 false acc.1 acc.2)
      (([] : List HItem), 0) = ([], 0) := by
  induction entries with
  | nil => rfl
  | cons e es ih =>
    rw [List.foldl_cons]
    exact ih

/-- Pass 1, whole fold: the flat scans over all glossary entries simulate
the ideal scans, and the resulting item list satisfies all invariants the
resolution pass needs: recorded placeholders are `(placeholderStr i, tid,
matched)` in claim order, claim numbers are distinct and below the counter,
the covered text is unchanged, no span sits inside a word, and every claimed
span comes from some processed entry with a case-insensitively equal term. -/
theorem pass1_fold (entries : List (Str × GTerm))
    (hterms : ∀ e ∈ entries, e.2.term ≠ [] ∧
      hasSub (str "term_placeholder") (lowStr e.2.term) = false) :
    ∀ (items : List HItem) (ctr : Nat) (phs : List (Str × Str × Str)),
    (∀ k2 ∈ tokIdxs items, k2 < ctr) →
    (tokIdxs items).Nodup →
    phs.length = ctr →
    (∀ i, i < ctr → ∃ t2 m2, phs.get? i = some (placeholderStr i, t2, m2) ∧
      HItem.htok i t2 m2 ∈ items) →
    noInner none items = true →
    ∃ phs2,
      entries.foldl (fun acc e => scanFA e.1 e.2.term 0 false acc.1 acc.2)
          (renderL items, ⟨ctr, phs⟩)
        = (renderL (entries.foldl
              (fun acc e => scanIA e.1 e.2.term 0 false acc.1 acc.2) (items, ctr)).1,
           ⟨(entries.foldl
              (fun acc e => scanIA e.1 e.2.term 0 false acc.1 acc.2) (items, ctr)).2,
            phs2⟩)
      ∧ phs2.length = (entries.foldl
          (fun acc e => scanIA e.1 e.2.term 0 false acc.1 acc.2) (items, ctr)).2
      ∧ (∀ k2 ∈ tokIdxs (entries.foldl
            (fun acc e => scanIA e.1 e.2.term 0 false acc.1 acc.2) (items, ctr)).1,
          k2 < (entries.foldl
            (fun acc e => scanIA e.1 e.2.term 0 false acc.1 acc.2) (items, ctr)).2)
      ∧ (tokIdxs (entries.foldl
          (fun acc e => scanIA e.1 e.2.term 0 false acc.1 acc.2) (items, ctr)).1).Nodup
      ∧ (∀ i, i < (entries.foldl
            (fun acc e => scanIA e.1 e.2.term 0 false acc.1 acc.2) (items, ctr)).2 →
          ∃ t2 m2, phs2.get? i = some (placeholderStr i, t2, m2) ∧
            HItem.htok i t2 m2 ∈ (entries.foldl
              (fun acc e => scanIA e.1 e.2.term 0 false acc.1 acc.2) (items, ctr)).1)
      ∧ eraseIdeal (entries.foldl
          (fun acc e => scanIA e.1 e.2.term 0 false acc.1 acc.2) (items, ctr)).1
          = eraseIdeal items
      ∧ noInner none (entries.foldl
          (fun acc e => scanIA e.1 e.2.term 0 false acc.1 acc.2) (items, ctr)).1 = true
      ∧ (∀ k2 t2 m2, HItem.htok k2 t2 m2 ∈ (entries.foldl
            (fun acc e => scanIA e.1 e.2.term 0 false acc.1 acc.2) (items, ctr)).1 →
          HItem.htok k2 t2 m2 ∈ items ∨
            ∃ e ∈ entries, t2 = e.1 ∧ lowStr m2 = lowStr e.2.term) := by
  induction entries with
  | nil =>
    intro items ctr phs h1 h2 h3 h4 h5
    refine ⟨phs, ?_, h3, ?_, h2, ?_, rfl, h5, ?_⟩
    · simp only [List.foldl_nil]
    · simpa only [List.foldl_nil] using h1
    · simpa only [List.foldl_nil] using h4
    · intro k2 t2 m2 hm
      exact Or.inl (by simpa only [List.foldl_nil] using hm)
  | cons e es ih =>
    intro items ctr phs h1 h2 h3 h4 h5
    have he := hterms e (List.mem_cons_self _ _)
    have hsim := scan_sim e.1 e.2.term he.1 he.2 items.length items (Nat.le_refl _)
      false ctr phs h1 h2
    obtain ⟨hc1, hc2, hc3, hc4, hc5, hc6, hc7⟩ :=
      scanIA_inv e.1 e.2.term he.1 items.length items (Nat.le_refl _) false ctr h1 h2
    obtain ⟨hp1, hp2⟩ :=
      scan_phs e.1 e.2.term he.1 items.length items (Nat.le_refl _) false ctr h1 h2
    have hni := scan_noInner e.1 e.2.term he.1 items.length items (Nat.le_refl _)
      false ctr none h1 h2 (Or.inl rfl) h5
    have h1x : ∀ k2 ∈ tokIdxs (scanIA e.1 e.2.term 0 false items ctr).1,
        k2 < (scanIA e.1 e.2.term 0 false items ctr).2 :=
      fun k2 hk => (hc2 k2 hk).2
    have h3x : (phs ++ newPhs ctr (scanIA e.1 e.2.term 0 false items ctr).1).length
        = (scanIA e.1 e.2.term 0 false items ctr).2 := by
      rw [List.length_append, h3, hp1]
      omega
    have h4x : ∀ i, i < (scanIA e.1 e.2.term 0 false items ctr).2 →
        ∃ t2 m2, (phs ++ newPhs ctr (scanIA e.1 e.2.term 0 false items ctr).1).get? i
            = some (placeholderStr i, t2, m2) ∧
          HItem.htok i t2 m2 ∈ (scanIA e.1 e.2.term 0 false items ctr).1 := by
      intro i hi
      by_cases hic : i < ctr
      · obtain ⟨t2, m2, hg, hm⟩ := h4 i hic
        refine ⟨t2, m2, ?_, hc6 _ _ _ hm⟩
        rw [List.get?_append (by rw [h3]; exact hic)]
        exact hg
      · have hic2 : ctr ≤ i := by omega
        obtain ⟨t2, m2, hg, hm⟩ := hp2 (i - ctr) (by omega)
        rw [show ctr + (i - ctr) = i from by omega] at hg hm
        refine ⟨t2, m2, ?_, hm⟩
        rw [List.get?_append_right (by rw [h3]; exact hic2), h3]
        exact hg
    have hres := ih (fun x hx => hterms x (List.mem_cons_of_mem _ hx))
      (scanIA e.1 e.2.term 0 false items ctr).1
      (scanIA e.1 e.2.term 0 false items ctr).2
      (phs ++ newPhs ctr (scanIA e.1 e.2.term 0 false items ctr).1)
      h1x hc3 h3x h4x hni
    rw [Prod.mk.eta] at hres
    obtain ⟨phs2, hfold, hl2, hb2, hn2, hg2, he2, hni2, hpr2⟩ := hres
    refine ⟨phs2, ?_, ?_, ?_, ?_, ?_, ?_, ?_, ?_⟩
    · simp only [List.foldl_cons]
      rw [hsim]
      exact hfold
    · simpa only [List.foldl_cons] using hl2
    · simpa only [List.foldl_cons] using hb2
    · simpa only [List.foldl_cons] using hn2
    · simpa only [List.foldl_cons] using hg2
    · simp only [List.foldl_cons]
      exact he2.trans hc4
    · simpa only [List.foldl_cons] using hni2
    · intro k2 t2 m2 hm
      simp only [List.foldl_cons] at hm
      rcases hpr2 k2 t2 m2 hm with hin | ⟨x, hx, hxx⟩
      · rcases hc5 k2 t2 m2 hin with hin2 | ⟨he1, he2x⟩
        · exact Or.inl hin2
        · exact Or.inr ⟨e, List.mem_cons_self _ _, he1, he2x⟩
      · exact Or.inr ⟨x, List.mem_cons_of_mem _ hx, hxx⟩

/-- C1 (corrected): for every input text and glossary whose data does not
collide with the placeholder scheme — no term, term ID, or stretch of the
text spells the placeholder token text `term_placeholder`
(case-insensitively), no term or term ID contains `'$'`, and every term is
nonempty — `highlightTerms` computes exactly the ideal longest-first,
case-insensitive, strictly whole-word highlighting: the output resolves the
ideal pass-1 item list (each claimed span becomes one marker, so spans are
non-overlapping and non-nested, and a span claimed by a longer term is
wrapped as one unit with no shorter term wrapped inside it), the claimed
spans cover the original text exactly, every claimed span comes from a
glossary entry whose term it equals case-insensitively, and no claimed span
sits strictly inside a larger word.  Each excluded collision is shown to
corrupt the output by `C1_placeholder_collision_corrupts`. -/
theorem C1_whole_word_highlighting (text : Str) (terms : List (Str × GTerm))
    (htext : hasSub (str "term_placeholder") (lowStr text) = false)
    (hterms : ∀ e ∈ terms,
      e.2.term ≠ []
      ∧ hasSub (str "term_placeholder") (lowStr e.2.term) = false
      ∧ '$' ∉ e.2.term
      ∧ hasSub (str "term_placeholder") (lowStr e.1) = false
      ∧ '$' ∉ e.1) :
    highlightTerms text terms = resolveIdeal (pass1Ideal text (sortTermsDesc terms))
    ∧ eraseIdeal (pass1Ideal text (sortTermsDesc terms)) = text
    ∧ (∀ k t m, HItem.htok k t m ∈ pass1Ideal text (sortTermsDesc terms) →
        ∃ g, (t, g) ∈ terms ∧ lowStr m = lowStr g.term)
    ∧ noInner none (pass1Ideal text (sortTermsDesc terms)) = true := by
  by_cases ht : text = []
  · subst ht
    have hI : pass1Ideal [] (sortTermsDesc terms) = [] := by
      simp only [pass1Ideal, pass1IdealP, List.map_nil]
      rw [foldIA_nil_text]
    refine ⟨?_, ?_, ?_, ?_⟩
    · rw [hI]
      simp [highlightTerms, resolveIdeal]
    · rw [hI]
      rfl
    · intro k t m hm
      rw [hI] at hm
      exact absurd hm (List.not_mem_nil _)
    · rw [hI]
      rfl
  · by_cases hts : terms = []
    · subst hts
      have hI : pass1Ideal text (sortTermsDesc []) = text.map HItem.hch := rfl
      refine ⟨?_, ?_, ?_, ?_⟩
      · rw [hI, resolveIdeal_map_hch]
        simp [highlightTerms]
      · rw [hI]
        exact eraseIdeal_map_hch text
      · intro k t m hm
        rw [hI] at hm
        obtain ⟨c, _, hc⟩ := List.mem_map.mp hm
        exact HItem.noConfusion hc
      · rw [hI]
        exact noInner_map_hch none text
    · have hterms2 : ∀ x ∈ sortTermsDesc terms,
          x.2.term ≠ []
          ∧ hasSub (str "term_placeholder") (lowStr x.2.term) = false
          ∧ '$' ∉ x.2.term
          ∧ hasSub (str "term_placeholder") (lowStr x.1) = false
          ∧ '$' ∉ x.1 :=
        fun x hx => hterms x (sortTermsDesc_mem terms x hx)
      obtain ⟨phs2, hfold, hlen2, hbound2, hnd2, hget2, herase2, hni2, hprov2⟩ :=
        pass1_fold (sortTermsDesc terms)
          (fun x hx => ⟨(hterms2 x hx).1, (hterms2 x hx).2.1⟩)
          (text.map HItem.hch) 0 []
          (by rw [tokIdxs_map_hch]; intro k2 hk; exact absurd hk (List.not_mem_nil _))
          (by rw [tokIdxs_map_hch]; exact List.nodup_nil)
          rfl
          (fun i hi => absurd hi (by omega))
          (noInner_map_hch none text)
      have hclean : hasSub (str "term_placeholder")
          (lowStr (eraseIdeal ((sortTermsDesc terms).foldl
            (fun acc e => scanIA e.1 e.2.term 0 false acc.1 acc.2)
            (text.map HItem.hch, 0)).1)) = false := by
        rw [herase2, eraseIdeal_map_hch]
        exact htext
      have htids : ∀ k2 t2 m2, HItem.htok k2 t2 m2 ∈ ((sortTermsDesc terms).foldl
            (fun acc e => scanIA e.1 e.2.term 0 false acc.1 acc.2)
            (text.map HItem.hch, 0)).1 →
          hasSub (str "term_placeholder") (lowStr t2) = false ∧ '$' ∉ t2 ∧ '$' ∉ m2 := by
        intro k2 t2 m2 hm
        rcases hprov2 k2 t2 m2 hm with hin | ⟨x, hx, he1, he2x⟩
        · exfalso
          obtain ⟨c, _, hc⟩ := List.mem_map.mp hin
          exact HItem.noConfusion hc
        · have h6 := hterms2 x hx
          exact ⟨by rw [he1]; exact h6.2.2.2.1, by rw [he1]; exact h6.2.2.2.2,
            dollar_not_mem_of_lowStr m2 x.2.term he2x h6.2.2.1⟩
      have hmain := pass2_whole _ _ hclean htids hnd2 hbound2 phs2 hget2 hlen2
      refine ⟨?_, herase2.trans (eraseIdeal_map_hch text), ?_, hni2⟩
      · have hg : (List.isEmpty text || List.isEmpty terms) = false := by
          cases text with
          | nil => exact absurd rfl ht
          | cons a as =>
            cases terms with
            | nil => exact absurd rfl hts
            | cons b bs => rfl
        rw [renderL_map_hch] at hfold
        simp only [highlightTerms, hg, Bool.false_eq_true, if_false]
        rw [hfold]
        exact hmain
      · intro k t m hm
        rcases hprov2 k t m hm with hin | ⟨x, hx, he1, he2x⟩
        · exfalso
          obtain ⟨c, _, hc⟩ := List.mem_map.mp hin
          exact HItem.noConfusion hc
        · refine ⟨x.2, ?_, he2x⟩
          rw [he1, Prod.mk.eta]
          exact sortTermsDesc_mem terms x hx

/-- Witness for C1: on `"The cell wall is rigid"` with glossary terms
`"cell"` and `"cell wall"`, the hypotheses hold and the highlighting is the
resolved ideal pass: `"cell wall"` is claimed as one unit (longest first)
and `"cell"` is not wrapped inside it. -/
theorem C1_whole_word_highlighting_witness :
    highlightTerms (str "The cell wall is rigid")
        [(str "t0", ⟨str "cell", str "a unit", none⟩),
         (str "t1", ⟨str "cell wall", str "a layer", none⟩)]
      = resolveIdeal (pass1Ideal (str "The cell wall is rigid")
          (sortTermsDesc [(str "t0", ⟨str "cell", str "a unit", none⟩),
            (str "t1", ⟨str "cell wall", str "a layer", none⟩)]))
    ∧ eraseIdeal (pass1Ideal (str "The cell wall is rigid")
          (sortTermsDesc [(str "t0", ⟨str "cell", str "a unit", none⟩),
            (str "t1", ⟨str "cell wall", str "a layer", none⟩)]))
        = str "The cell wall is rigid"
    ∧ (∀ k t m, HItem.htok k t m ∈ pass1Ideal (str "The cell wall is rigid")
          (sortTermsDesc [(str "t0", ⟨str "cell", str "a unit", none⟩),
            (str "t1", ⟨str "cell wall", str "a layer", none⟩)]) →
        ∃ g : GTerm, (t, g) ∈ [(str "t0", ⟨str "cell", str "a unit", none⟩),
            (str "t1", ⟨str "cell wall", str "a layer", none⟩)]
          ∧ lowStr m = lowStr g.term)
    ∧ noInner none (pass1Ideal (str "The cell wall is rigid")
        (sortTermsDesc [(str "t0", ⟨str "cell", str "a unit", none⟩),
          (str "t1", ⟨str "cell wall", str "a layer", none⟩)])) = true :=
  C1_whole_word_highlighting (str "The cell wall is rigid")
    [(str "t0", ⟨str "cell", str "a unit", none⟩),
     (str "t1", ⟨str "cell wall", str "a layer", none⟩)]
    (by decide) (by decide)

end Explain
